import Mathlib

/-!
Shallow embedding of the fetch-orchestration and identity-resolution core of
the repository (src/task/1sep/2sep/category_product_fetch.py and
src/task/1sep/2sep/retrieve_category.py), together with proofs settling the
frozen claims about it.

Modelling conventions:
* Python `str` is modelled by Lean `String` (a list of unicode scalars).
  `str.strip()` is modelled over the ASCII whitespace characters
  (space, tab, LF, CR, VT, FF); non-ASCII unicode whitespace is not modelled.
* Extracted product/category records are JSON objects whose relevant fields
  are strings; a record is modelled as an association list `List (String × String)`
  with `dict.get` as first-match lookup (JSON objects have unique keys).
* External effects (the crawl4ai fetch, sleeps, prints, the clock used for
  cache-busting) are modelled by explicit inputs (per-attempt fetch outcomes)
  and by an explicit trace of the sleep/write events the code performs.
  Randomized sleep durations are modelled by the kind of sleep performed
  together with the constant interval it is drawn from.
-/

namespace Crawl

/-! ## Python string primitives -/

/-- ASCII whitespace stripped by Python `str.strip()`. -/
def pyWhitespace (c : Char) : Bool :=
  c = ' ' || c = '\t' || c = '\n' || c = '\r' || c = '\x0b' || c = '\x0c'

def pyStripList (l : List Char) : List Char :=
  ((l.dropWhile pyWhitespace).reverse.dropWhile pyWhitespace).reverse

/-- Python `s.strip()` (ASCII whitespace). -/
def pyStrip (s : String) : String := ⟨pyStripList s.data⟩

/-- Python `s.lower()` restricted to ASCII letters (the only case-mapping the
embedded code relies on). -/
def asciiLowerChar (c : Char) : Char :=
  if 'A' ≤ c ∧ c ≤ 'Z' then Char.ofNat (c.toNat + 32) else c

def asciiLower (s : String) : String := ⟨s.data.map asciiLowerChar⟩

/-- The part of `s` before the first occurrence of `sep` (Python
`s.split(sep, 1)[0]`); the whole string when `sep` is absent. -/
def pySplitOnceBefore (sep : Char) : List Char → List Char
  | [] => []
  | c :: cs => if c = sep then [] else c :: pySplitOnceBefore sep cs

/-! ## Identity resolver (`get_product_id`, category_product_fetch.py lines 147-154) -/

/-- A record as returned by the extraction collaborator: a JSON object with
string fields. -/
abbrev Record := List (String × String)

/-- Python `product.get(key)` (JSON objects have unique keys, so first-match
lookup is faithful). -/
def dictGet (d : Record) (k : String) : Option String :=
  (d.find? (fun p => p.1 = k)).map (·.2)

/-- `get_product_id`: primary id field `data_item_id` stripped; else the
prefix of `data_sku_simple` before the first `_`, stripped; else `""`. -/
def get_product_id (product : Record) : String :=
  let pid := pyStrip ((dictGet product "data_item_id").getD "")
  if pid ≠ "" then pid
  else
    let sku := pyStrip ((dictGet product "data_sku_simple").getD "")
    if sku ≠ "" then pyStrip ⟨pySplitOnceBefore '_' sku.data⟩
    else ""

/-- `dedupe_products` inner loop with the running `seen` set. -/
def dedupeGo (seen : List String) : List Record → List Record
  | [] => []
  | p :: ps =>
    let pid := get_product_id p
    if pid = "" then dedupeGo seen ps
    else if seen.contains pid then dedupeGo seen ps
    else p :: dedupeGo (pid :: seen) ps

/-- `dedupe_products` (lines 157-168): keep the first record per nonempty
identity, discarding identity-less records. -/
def dedupe_products (products : List Record) : List Record :=
  dedupeGo [] products

/-! ## Block detector (lines 172-185) -/

def BLOCK_KEYWORDS : List String :=
  ["captcha", "access denied", "temporarily blocked", "unusual traffic",
   "robot check", "verify you are a human", "request blocked",
   "are you a robot", "forbidden", "not allowed", "blocked due to unusual activity"]

/-- Python substring containment `needle in hay`. -/
def listInfixOf (needle : List Char) : List Char → Bool
  | [] => needle.isEmpty
  | c :: cs => needle.isPrefixOf (c :: cs) || listInfixOf needle cs

/-- `looks_blocked`: case-insensitive substring match against the keyword list;
empty markup is never blocked. -/
def looks_blocked (html : String) : Bool :=
  if html = "" then false
  else
    let h := asciiLower html
    BLOCK_KEYWORDS.any (fun k => listInfixOf k.data h.data)

/-! ## `crawl_once` (lines 210-264)

One fetch attempt.  The external `crawler.arun` call returns a list of result
fragments; each fragment carries a success flag, the rendered markup, and the
extracted-content payload.  `json.loads` of the payload either fails (`none`)
or yields a record or list of records (a single record is modelled as a
singleton list, mirroring `data if isinstance(data, list) else [data]`). -/

structure Fragment where
  success : Bool
  html : String
  extracted : Option (List Record)
deriving DecidableEq

/-- The aggregation loop: successful fragments with decodable payloads extend
the aggregated record list; decode failures are skipped silently. -/
def aggregateFragments : List Fragment → List Record
  | [] => []
  | f :: fs => (if f.success then f.extracted.getD [] else []) ++ aggregateFragments fs

/-- The blocked flag: set when any successful fragment's markup looks blocked
(failed fragments are skipped before the markup inspection). -/
def blockedDetected : List Fragment → Bool
  | [] => false
  | f :: fs => (f.success && looks_blocked f.html) || blockedDetected fs

inductive BlockedError | mk
deriving DecidableEq

/-- `crawl_once`: raise `BlockedError` iff block signatures were seen and the
attempt aggregated zero usable records; otherwise dedupe and return the
records with their identities. -/
def crawl_once (frags : List Fragment) : Except BlockedError (List Record × List String) :=
  if blockedDetected frags ∧ aggregateFragments frags = [] then .error .mk
  else
    .ok (dedupe_products (aggregateFragments frags),
      ((dedupe_products (aggregateFragments frags)).map get_product_id).filter
        (fun pid => pid ≠ ""))

/-! ## `fetch_until_new` (lines 267-307)

Per attempt the external fetch either raises a generic exception (`.err`,
caught and treated as zero records) or returns its fragments.  The loop
variables `products, ids` are modelled by an `Option` (`none` = never
assigned), so that the final `return products, ids, max_retries` after the
loop raises `UnboundLocalError` exactly when no attempt ever assigned them.
Sleeps are recorded as events: a block event sleeps a cooldown drawn from
`BLOCK_COOLDOWN_RANGE`, every other non-accepted attempt sleeps the
exponential backoff for its attempt number. -/

inductive FetchResult
  | err
  | frags (fs : List Fragment)
deriving DecidableEq

inductive SleepEvent
  | blockCooldown (lo hi : Nat)
  | backoff (attempt : Nat)
deriving DecidableEq

inductive PyError | unboundLocalError
deriving DecidableEq

def BLOCK_COOLDOWN_RANGE : Nat × Nat := (35, 75)

def MAX_RETRIES : Nat := 5
def MIN_NEW_PER_PAGE : Nat := 1

/-- `new_ids = [pid for pid in ids if pid not in known_ids]`. -/
def newIds (known : List String) (ids : List String) : List String :=
  ids.filter (fun pid => !known.contains pid)

/-- What one attempt produces before the acceptance check: a block event
(`BlockedError` from `crawl_once`) or assigned `products, ids` (a generic
fetch exception assigns `[], []`). -/
inductive AttemptStep
  | blockedEvent
  | got (ps : List Record) (ids : List String)
deriving DecidableEq

def attemptStep : FetchResult → AttemptStep
  | .err => .got [] []
  | .frags fs =>
    match crawl_once fs with
    | .error _ => .blockedEvent
    | .ok (ps, ids) => .got ps ids

instance exceptDecEq {ε α : Type} [DecidableEq ε] [DecidableEq α] : DecidableEq (Except ε α)
  | .error e, .error f =>
    if h : e = f then isTrue (by rw [h]) else isFalse (fun hh => by cases hh; exact h rfl)
  | .error _, .ok _ => isFalse (fun hh => by cases hh)
  | .ok _, .error _ => isFalse (fun hh => by cases hh)
  | .ok a, .ok b =>
    if h : a = b then isTrue (by rw [h]) else isFalse (fun hh => by cases hh; exact h rfl)

structure EngineOutput where
  result : Except PyError (List Record × List String × Nat)
  sleeps : List SleepEvent
deriving DecidableEq

def consSleep (e : SleepEvent) (o : EngineOutput) : EngineOutput :=
  ⟨o.result, e :: o.sleeps⟩

/-- The retry loop of `fetch_until_new`; `last` holds the current value of the
`products, ids` locals (`none` before the first assignment). -/
def fetchGo (known : List String) (minNew : Nat) (maxRetries : Nat) :
    List FetchResult → Nat → Option (List Record × List String) → EngineOutput
  | [], _, none => ⟨.error .unboundLocalError, []⟩
  | [], _, some (ps, ids) => ⟨.ok (ps, ids, maxRetries), []⟩
  | f :: rest, attempt, last =>
    match attemptStep f with
    | .blockedEvent =>
      consSleep (.blockCooldown BLOCK_COOLDOWN_RANGE.1 BLOCK_COOLDOWN_RANGE.2)
        (fetchGo known minNew maxRetries rest (attempt + 1) last)
    | .got ps ids =>
      if ps.isEmpty then
        consSleep (.backoff attempt)
          (fetchGo known minNew maxRetries rest (attempt + 1) (some (ps, ids)))
      else if minNew ≤ (newIds known ids).length then
        ⟨.ok (ps, ids, attempt), []⟩
      else
        consSleep (.backoff attempt)
          (fetchGo known minNew maxRetries rest (attempt + 1) (some (ps, ids)))

/-- `fetch_until_new` with `max_retries` attempts, the i-th attempt's external
outcome given by the i-th list element. -/
def fetch_until_new (known : List String) (minNew : Nat) (fetches : List FetchResult) :
    EngineOutput :=
  fetchGo known minNew fetches.length fetches 1 none

/-- An attempt that does not trigger the acceptance return: a block event, or
assigned values with empty products or too few new identities. -/
def rejects (known : List String) (minNew : Nat) (g : FetchResult) : Bool :=
  match attemptStep g with
  | .blockedEvent => true
  | .got ps ids => ps.isEmpty || (newIds known ids).length < minNew

/-- An attempt that completed (assigned the loop locals, i.e. was not a block
event) but produced no identities outside `known`. -/
def completedZeroNew (known : List String) (g : FetchResult) : Bool :=
  match attemptStep g with
  | .blockedEvent => false
  | .got _ jds => (newIds known jds).isEmpty

/-- The value of the `products, ids` locals after a run of attempts, starting
from `last`. -/
def lastGot : List FetchResult → Option (List Record × List String) →
    Option (List Record × List String)
  | [], last => last
  | g :: l, last =>
    match attemptStep g with
    | .blockedEvent => lastGot l last
    | .got ps ids => lastGot l (some (ps, ids))

/-! ## Pagination planner arithmetic (lines 138-144)

`parse_total_items_from_html` yields a nonnegative integer (digits of the
first matching pattern), or `0` when nothing matches; `detect_total_pages`
then returns 1 when the total is `<= 0` and otherwise
`max(1, math.ceil(total_items / PRODUCTS_PER_PAGE))`.  Only this arithmetic
tail is embedded (the regex scan upstream produces `total_items`); `math.ceil`
of the float division is modelled by exact ceiling division, which agrees for
every realistic item count. -/

def PRODUCTS_PER_PAGE : Nat := 40

def total_pages_from_items (total_items : Nat) : Nat :=
  if total_items = 0 then 1
  else max 1 ((total_items + PRODUCTS_PER_PAGE - 1) / PRODUCTS_PER_PAGE)

/-! ## Record store merge and per-page persistence (lines 396-441)

`all_products_by_id` is an insertion-ordered dict identity → record and
`known_ids` the identity set; the per-page merge loop adds a product only
when its identity is nonempty and not yet known.  The orchestrator's writes
to durable storage are recorded as an event trace. -/

structure StoreSt where
  known : List String
  store : List (String × Record)
deriving DecidableEq

/-- The merge loop body (lines 414-420): returns the updated state and
`page_new_products`. -/
def mergePage : StoreSt → List Record → StoreSt × List Record
  | st, [] => (st, [])
  | st, p :: ps =>
    let pid := get_product_id p
    if pid ≠ "" ∧ ¬ st.known.contains pid then
      let out := mergePage ⟨pid :: st.known, st.store ++ [(pid, p)]⟩ ps
      (out.1, p :: out.2)
    else
      mergePage st ps

def storeKeys (st : StoreSt) : List String := st.store.map Prod.fst

/-- Store lookup (`all_products_by_id[pid]`). -/
def storeGet (st : StoreSt) (pid : String) : Option Record :=
  (st.store.find? (fun e => e.1 = pid)).map (·.2)

inductive WriteEvent
  | pageFile (n : Nat)
  | productsFile
  | pagesIndexFile
deriving DecidableEq

def SAVE_ONLY_UNIQUE : Bool := true

/-- One iteration of the page loop: an empty page writes nothing; otherwise
the page is merged and (only) the per-page `page_<n>.json` snapshot of new
products is written when nonempty.  (`pages_index` is updated in memory
only.) -/
def harvestPage (st : StoreSt) (pageIdx : Nat) (products : List Record) :
    StoreSt × List WriteEvent :=
  if products.isEmpty then (st, [])
  else
    let out := mergePage st products
    let toSave := if SAVE_ONLY_UNIQUE then out.2 else products
    (out.1, if toSave.isEmpty then [] else [.pageFile pageIdx])

/-- The page loop followed by the final writes of the products file and the
pages-index file (lines 436-438, after the loop). -/
def harvestGo (st : StoreSt) (pageIdx : Nat) : List (List Record) → List WriteEvent
  | [] => [.productsFile, .pagesIndexFile]
  | ps :: rest =>
    let out := harvestPage st pageIdx ps
    out.2 ++ harvestGo out.1 (pageIdx + 1) rest

/-- The write trace of `demo_css_structured_extraction_no_schema` over the
whole run, with the i-th element of `pages` the record list the engine
returned for page i. -/
def harvest_writes (st : StoreSt) (pages : List (List Record)) : List WriteEvent :=
  harvestGo st 1 pages

/-! ## urllib.parse embedding (CPython 3.11)

The canonicalizer delegates URL surgery to `urllib.parse`; its functions are
embedded here over `List Char` following the CPython 3.11 sources
(`urljoin`, `urlparse`, `urlsplit`, `urlunparse`, `urlunsplit`, `urldefrag`,
`parse_qsl`, `urlencode`, `quote_plus`, `unquote`).  Omitted: the IPv6
bracket `ValueError` and `_checknetloc`'s NFKC check (both raise only on
inputs outside this program's domain). -/

def isAsciiAlpha (c : Char) : Bool := ('A' ≤ c ∧ c ≤ 'Z') ∨ ('a' ≤ c ∧ c ≤ 'z')

def isAsciiDigit (c : Char) : Bool := '0' ≤ c ∧ c ≤ '9'

/-- `scheme_chars`. -/
def SCHEME_CHARS (c : Char) : Bool := isAsciiAlpha c || isAsciiDigit c || c = '+' || c = '-' || c = '.'

/-- Index of the first occurrence (Python `str.find`, `none` for -1). -/
def pyFindIdx (c : Char) : List Char → Option Nat
  | [] => none
  | x :: xs => if x = c then some 0 else (pyFindIdx c xs).map (· + 1)

def pyFindIdxFrom (c : Char) (l : List Char) (start : Nat) : Option Nat :=
  (pyFindIdx c (l.drop start)).map (· + start)

def pyRfindIdx (c : Char) (l : List Char) : Option Nat :=
  (pyFindIdx c l.reverse).map (fun i => l.length - 1 - i)

/-- Python `s.split(sep, 1)` keeping the tail only when `sep` occurs. -/
def pySplitOnce (sep : Char) : List Char → List Char × Option (List Char)
  | [] => ([], none)
  | x :: xs =>
    if x = sep then ([], some xs)
    else
      let r := pySplitOnce sep xs
      (x :: r.1, r.2)

/-- Python `s.split(sep)` (all occurrences; `[""]` for the empty string). -/
def splitAllChar (sep : Char) : List Char → List (List Char)
  | [] => [[]]
  | c :: cs =>
    let r := splitAllChar sep cs
    if c = sep then [] :: r
    else
      match r with
      | [] => [[c]]
      | h :: t => (c :: h) :: t

/-- `'sep'.join(parts)`. -/
def joinChar (sep : Char) : List (List Char) → List Char
  | [] => []
  | [x] => x
  | x :: y :: xs => x ++ sep :: joinChar sep (y :: xs)

structure SplitResult where
  scheme : List Char
  netloc : List Char
  path : List Char
  query : List Char
  fragment : List Char
deriving DecidableEq

structure ParseResult where
  scheme : List Char
  netloc : List Char
  path : List Char
  params : List Char
  query : List Char
  fragment : List Char
deriving DecidableEq

def uses_relative : List String :=
  ["", "ftp", "http", "gopher", "nntp", "imap", "wais", "file", "https", "shttp", "mms",
   "prospero", "rtsp", "rtsps", "rtspu", "sftp", "svn", "svn+ssh", "ws", "wss"]

def uses_netloc : List String :=
  ["", "ftp", "http", "gopher", "nntp", "telnet", "imap", "wais", "file", "mms", "https",
   "shttp", "snews", "prospero", "rtsp", "rtsps", "rtspu", "rsync", "svn", "svn+ssh",
   "sftp", "nfs", "git", "git+ssh", "ws", "wss"]

def uses_params : List String :=
  ["", "ftp", "hdl", "prospero", "http", "imap", "https", "shttp", "rtsp", "rtsps",
   "rtspu", "sip", "sips", "mms", "sftp", "tel"]

/-- `_WHATWG_C0_CONTROL_OR_SPACE` membership. -/
def isC0OrSpace (c : Char) : Bool := c.toNat < 0x21

/-- `_UNSAFE_URL_BYTES_TO_REMOVE` removal (`\t`, `\r`, `\n`). -/
def removeUnsafe (l : List Char) : List Char :=
  l.filter (fun c => ¬ (c = '\t' ∨ c = '\r' ∨ c = '\n'))

/-- `_splitnetloc`: the netloc runs to the first of `/?#`. -/
def netlocDelim (c : Char) : Bool := c = '/' || c = '?' || c = '#'

def urlsplit (url0 dscheme0 : List Char) : SplitResult :=
  let url := removeUnsafe (url0.dropWhile isC0OrSpace)
  let ds := removeUnsafe ((dscheme0.dropWhile isC0OrSpace).reverse.dropWhile isC0OrSpace).reverse
  let sr :=
    match pyFindIdx ':' url with
    | some i =>
      if 0 < i ∧ (url.take 1).all isAsciiAlpha ∧ (url.take i).all SCHEME_CHARS then
        ((url.take i).map asciiLowerChar, url.drop (i + 1))
      else (ds, url)
    | none => (ds, url)
  let nr :=
    if sr.2.take 2 = ['/', '/'] then
      ((sr.2.drop 2).takeWhile (fun c => ¬ netlocDelim c),
       (sr.2.drop 2).dropWhile (fun c => ¬ netlocDelim c))
    else ([], sr.2)
  let fr := pySplitOnce '#' nr.2
  let qr := pySplitOnce '?' fr.1
  ⟨sr.1, nr.1, qr.1, qr.2.getD [], fr.2.getD []⟩

/-- `_splitparams`. -/
def splitparams (url : List Char) : List Char × List Char :=
  if url.contains '/' then
    match pyFindIdxFrom ';' url ((pyRfindIdx '/' url).getD 0) with
    | none => (url, [])
    | some i => (url.take i, url.drop (i + 1))
  else
    match pyFindIdx ';' url with
    | none => (url, [])
    | some i => (url.take i, url.drop (i + 1))

def urlparse (url dscheme : List Char) : ParseResult :=
  let r := urlsplit url dscheme
  if uses_params.contains ⟨r.scheme⟩ ∧ r.path.contains ';' then
    let pp := splitparams r.path
    ⟨r.scheme, r.netloc, pp.1, pp.2, r.query, r.fragment⟩
  else ⟨r.scheme, r.netloc, r.path, [], r.query, r.fragment⟩

def urlunsplit (r : SplitResult) : List Char :=
  let url1 :=
    if r.netloc ≠ [] ∨ (r.scheme ≠ [] ∧ uses_netloc.contains ⟨r.scheme⟩ ∧ r.path.take 2 ≠ ['/', '/']) then
      ('/' :: '/' :: r.netloc) ++ (if r.path ≠ [] ∧ r.path.take 1 ≠ ['/'] then '/' :: r.path else r.path)
    else r.path
  let url2 := if r.scheme ≠ [] then r.scheme ++ ':' :: url1 else url1
  let url3 := if r.query ≠ [] then url2 ++ '?' :: r.query else url2
  if r.fragment ≠ [] then url3 ++ '#' :: r.fragment else url3

def urlunparse (r : ParseResult) : List Char :=
  urlunsplit ⟨r.scheme, r.netloc,
    (if r.params ≠ [] then r.path ++ ';' :: r.params else r.path), r.query, r.fragment⟩

/-- `segments[1:-1] = filter(None, segments[1:-1])`. -/
def filterMiddleAux : List (List Char) → List (List Char)
  | [] => []
  | [x] => [x]
  | x :: y :: xs => if x.isEmpty then filterMiddleAux (y :: xs) else x :: filterMiddleAux (y :: xs)

def filterMiddle : List (List Char) → List (List Char)
  | [] => []
  | [x] => [x]
  | x :: y :: xs => x :: filterMiddleAux (y :: xs)

/-- The `resolved_path` loop of `urljoin`. -/
def resolveDots (segments : List (List Char)) : List (List Char) :=
  let r := segments.foldl
    (fun acc seg =>
      if seg = ['.', '.'] then acc.dropLast
      else if seg = ['.'] then acc
      else acc ++ [seg]) []
  if segments.getLastD [] = ['.'] ∨ segments.getLastD [] = ['.', '.'] then r ++ [[]] else r

def urljoin (base url : List Char) : List Char :=
  if base = [] then url
  else if url = [] then base
  else
    let b := urlparse base []
    let u := urlparse url b.scheme
    if u.scheme ≠ b.scheme ∨ ¬ uses_relative.contains ⟨u.scheme⟩ then url
    else if uses_netloc.contains ⟨u.scheme⟩ ∧ u.netloc ≠ [] then
      urlunparse ⟨u.scheme, u.netloc, u.path, u.params, u.query, u.fragment⟩
    else
      let netloc := if uses_netloc.contains ⟨u.scheme⟩ then b.netloc else u.netloc
      if u.path = [] ∧ u.params = [] then
        urlunparse ⟨u.scheme, netloc, b.path, b.params,
          (if u.query = [] then b.query else u.query), u.fragment⟩
      else
        let baseParts0 := splitAllChar '/' b.path
        let baseParts := if baseParts0.getLastD [] ≠ [] then baseParts0.dropLast else baseParts0
        let segments :=
          if u.path.take 1 = ['/'] then splitAllChar '/' u.path
          else filterMiddle (baseParts ++ splitAllChar '/' u.path)
        let fpath := joinChar '/' (resolveDots segments)
        urlunparse ⟨u.scheme, netloc, (if fpath = [] then ['/'] else fpath),
          u.params, u.query, u.fragment⟩

/-- The merged path built by `urljoin`'s final branch (`'/'.join(resolved)` with
the empty-result fallback to `"/"`), as a function of the two parsed paths. -/
def joinMergePath (bpath upath : List Char) : List Char :=
  if joinChar '/' (resolveDots
      (if upath.take 1 = ['/'] then splitAllChar '/' upath
       else filterMiddle
        ((if (splitAllChar '/' bpath).getLastD [] ≠ []
          then (splitAllChar '/' bpath).dropLast else splitAllChar '/' bpath)
         ++ splitAllChar '/' upath))) = []
  then ['/']
  else joinChar '/' (resolveDots
      (if upath.take 1 = ['/'] then splitAllChar '/' upath
       else filterMiddle
        ((if (splitAllChar '/' bpath).getLastD [] ≠ []
          then (splitAllChar '/' bpath).dropLast else splitAllChar '/' bpath)
         ++ splitAllChar '/' upath)))

def urldefrag (url : List Char) : List Char :=
  if url.contains '#' then
    let p := urlparse url []
    urlunparse ⟨p.scheme, p.netloc, p.path, p.params, p.query, []⟩
  else url

/-! ## UTF-8 and percent-encoding (str.encode / bytes.decode / quote / unquote)

Bytes are naturals `< 256`.  Decoding models `errors='replace'` totally; on a
valid stream (the only case the proofs depend on) it agrees with CPython
exactly, while an invalid head byte yields one U+FFFD per byte consumed. -/

def replChar : Char := Char.ofNat 0xFFFD

def utf8EncodeChar (c : Char) : List Nat :=
  let n := c.toNat
  if n < 0x80 then [n]
  else if n < 0x800 then [0xC0 + n / 64, 0x80 + n % 64]
  else if n < 0x10000 then [0xE0 + n / 4096, 0x80 + n / 64 % 64, 0x80 + n % 64]
  else [0xF0 + n / 262144, 0x80 + n / 4096 % 64, 0x80 + n / 64 % 64, 0x80 + n % 64]

def utf8Encode (s : List Char) : List Nat := (s.map utf8EncodeChar).flatten

def contByte (b : Nat) : Bool := 0x80 ≤ b ∧ b < 0xC0

/-- Head-byte dispatch: emitted characters and, for a multi-byte head, the
continuation state `(bytes still needed, accumulator, sequence width)`. -/
def utf8Head (b : Nat) : List Char × Option (Nat × Nat × Nat) :=
  if b < 0x80 then ([Char.ofNat b], none)
  else if b < 0xC2 then ([replChar], none)
  else if b < 0xE0 then ([], some (1, b - 0xC0, 2))
  else if b < 0xF0 then ([], some (2, b - 0xE0, 3))
  else if b < 0xF5 then ([], some (3, b - 0xF0, 4))
  else ([replChar], none)

/-- Final validity check (no overlong 3/4-byte forms, no surrogates, max
U+10FFFF). -/
def utf8Valid (w n : Nat) : Bool :=
  (w = 3 → (0x800 ≤ n ∧ ¬ (0xD800 ≤ n ∧ n < 0xE000)))
    ∧ (w = 4 → (0x10000 ≤ n ∧ n < 0x110000))

/-- UTF-8 decoding as a byte-at-a-time state machine (modelling
`bytes.decode('utf-8', errors='replace')`; it agrees with CPython on every
valid stream, and an aborted sequence yields one replacement character). -/
def utf8DecodeSM : Option (Nat × Nat × Nat) → List Nat → List Char
  | none, [] => []
  | some _, [] => [replChar]
  | none, b :: bs =>
    let h := utf8Head b
    h.1 ++ utf8DecodeSM h.2 bs
  | some (k, acc, w), b :: bs =>
    if contByte b then
      if k = 1 then
        (if utf8Valid w (acc * 64 + (b - 0x80)) then [Char.ofNat (acc * 64 + (b - 0x80))]
         else [replChar]) ++ utf8DecodeSM none bs
      else utf8DecodeSM (some (k - 1, acc * 64 + (b - 0x80), w)) bs
    else
      let h := utf8Head b
      replChar :: (h.1 ++ utf8DecodeSM h.2 bs)

def utf8Decode (l : List Nat) : List Char := utf8DecodeSM none l

/-- `_ALWAYS_SAFE` (RFC 3986 unreserved), as a byte predicate. -/
def ALWAYS_SAFE (b : Nat) : Bool :=
  (0x41 ≤ b ∧ b ≤ 0x5A) ∨ (0x61 ≤ b ∧ b ≤ 0x7A) ∨ (0x30 ≤ b ∧ b ≤ 0x39)
    ∨ b = 0x5F ∨ b = 0x2E ∨ b = 0x2D ∨ b = 0x7E

def hexUpper (d : Nat) : Char := if d < 10 then Char.ofNat (0x30 + d) else Char.ofNat (0x37 + d)

def quoteByte (safe : List Char) (b : Nat) : List Char :=
  if ALWAYS_SAFE b ∨ safe.contains (Char.ofNat b) then [Char.ofNat b]
  else ['%', hexUpper (b / 16), hexUpper (b % 16)]

/-- `quote(s, safe)` (UTF-8 encode, then per-byte quoting). -/
def pyQuote (s : String) (safe : List Char) : String :=
  ⟨((utf8Encode s.data).map (quoteByte safe)).flatten⟩

/-- `quote_plus(s)` with `safe=''` as used by `urlencode`. -/
def pyQuotePlus (s : String) : String :=
  if ¬ s.data.contains ' ' then pyQuote s []
  else ⟨(pyQuote s [' ']).data.map (fun c => if c = ' ' then '+' else c)⟩

def isHexDigitChar (c : Char) : Bool :=
  ('0' ≤ c ∧ c ≤ '9') ∨ ('A' ≤ c ∧ c ≤ 'F') ∨ ('a' ≤ c ∧ c ≤ 'f')

def hexVal (c : Char) : Nat :=
  if c ≤ '9' then c.toNat - 0x30 else if c ≤ 'F' then c.toNat - 0x37 else c.toNat - 0x57

/-- `unquote_to_bytes` over one ASCII run. -/
def percentDecodeBytes : List Char → List Nat
  | [] => []
  | [c] => [c.toNat]
  | [c, c1] => [c.toNat, c1.toNat]
  | c :: c1 :: c2 :: rest =>
    if c = '%' ∧ isHexDigitChar c1 ∧ isHexDigitChar c2 then
      (hexVal c1 * 16 + hexVal c2) :: percentDecodeBytes rest
    else c.toNat :: percentDecodeBytes (c1 :: c2 :: rest)

def isAsciiChar (c : Char) : Bool := c.toNat < 0x80

/-- `unquote`: maximal ASCII runs are percent-decoded to bytes and UTF-8
decoded; non-ASCII characters pass through (they split the runs, per
`_asciire`).  `acc` holds the current ASCII run, reversed. -/
def pyUnquoteAux (acc : List Char) : List Char → List Char
  | [] => utf8Decode (percentDecodeBytes acc.reverse)
  | c :: cs =>
    if c.toNat < 0x80 then pyUnquoteAux (c :: acc) cs
    else utf8Decode (percentDecodeBytes acc.reverse) ++ c :: pyUnquoteAux [] cs

def pyUnquote (s : String) : String := ⟨pyUnquoteAux [] s.data⟩

def pyUnquotePlus (s : String) : String :=
  pyUnquote ⟨s.data.map (fun c => if c = '+' then ' ' else c)⟩

/-- `parse_qsl(qs, keep_blank_values=True)`. -/
def parse_qsl (qs : String) : List (String × String) :=
  if qs = "" then []
  else
    ((splitAllChar '&' qs.data).filter (fun nv => nv ≠ [])).map fun nv =>
      let r := pySplitOnce '=' nv
      (pyUnquotePlus ⟨r.1⟩, pyUnquotePlus ⟨r.2.getD []⟩)

/-- `urlencode(pairs)` (the `doseq=False` string path with `quote_plus`). -/
def urlencodePairs (pairs : List (String × String)) : String :=
  ⟨joinChar '&' (pairs.map fun kv => (pyQuotePlus kv.1).data ++ '=' :: (pyQuotePlus kv.2).data)⟩

/-! ## json.loads embedding

JSON values; arrays and objects are unrolled into mutually inductive types so
every function over them is structurally recursive (and kernel-evaluable).
Non-integer number literals keep their literal text, which `str()` returns
verbatim (exact whenever the literal is already the shortest float repr);
lone surrogates in `\u` escapes are not representable and fail the parse. -/

mutual
inductive JValue
  | jnull
  | jbool (b : Bool)
  | jint (n : Int)
  | jnum (lit : String)
  | jstr (s : String)
  | jarr (elems : JArray)
  | jobj (fields : JObject)
inductive JArray
  | nil
  | cons (v : JValue) (tl : JArray)
inductive JObject
  | nil
  | cons (k : String) (v : JValue) (tl : JObject)
end

deriving instance DecidableEq for JValue, JArray, JObject

def jsonWsChar (c : Char) : Bool := c = ' ' || c = '\t' || c = '\n' || c = '\r'

def jsonSkipWs (l : List Char) : List Char := l.dropWhile jsonWsChar

def hex4Val (c1 c2 c3 c4 : Char) : Nat :=
  ((hexVal c1 * 16 + hexVal c2) * 16 + hexVal c3) * 16 + hexVal c4

/-- JSON string body after the opening quote: `(content, rest)`. -/
def parseJString : Nat → List Char → Option (List Char × List Char)
  | 0, _ => none
  | _, [] => none
  | fuel + 1, c :: cs =>
    if c = '"' then some ([], cs)
    else if c = '\\' then
      match cs with
      | [] => none
      | e :: cs1 =>
        if e = 'u' then
          match cs1 with
          | h1 :: h2 :: h3 :: h4 :: cs2 =>
            if isHexDigitChar h1 ∧ isHexDigitChar h2 ∧ isHexDigitChar h3 ∧ isHexDigitChar h4 then
              let n := hex4Val h1 h2 h3 h4
              if n < 0xD800 ∨ 0xE000 ≤ n then
                (parseJString fuel cs2).map (fun r => (Char.ofNat n :: r.1, r.2))
              else if n < 0xDC00 then
                match cs2 with
                | '\\' :: 'u' :: g1 :: g2 :: g3 :: g4 :: cs3 =>
                  if isHexDigitChar g1 ∧ isHexDigitChar g2 ∧ isHexDigitChar g3 ∧ isHexDigitChar g4
                      ∧ 0xDC00 ≤ hex4Val g1 g2 g3 g4 ∧ hex4Val g1 g2 g3 g4 < 0xE000 then
                    (parseJString fuel cs3).map (fun r =>
                      (Char.ofNat (0x10000 + (n - 0xD800) * 0x400 + (hex4Val g1 g2 g3 g4 - 0xDC00))
                        :: r.1, r.2))
                  else none
                | _ => none
              else none
            else none
          | _ => none
        else
          let esc : Option Char :=
            if e = '"' then some '"'
            else if e = '\\' then some '\\'
            else if e = '/' then some '/'
            else if e = 'b' then some '\x08'
            else if e = 'f' then some '\x0c'
            else if e = 'n' then some '\n'
            else if e = 'r' then some '\r'
            else if e = 't' then some '\t'
            else none
          match esc with
          | some ch => (parseJString fuel cs1).map (fun r => (ch :: r.1, r.2))
          | none => none
    else if c.toNat < 0x20 then none
    else (parseJString fuel cs).map (fun r => (c :: r.1, r.2))

def digitsVal (l : List Char) : Nat := l.foldl (fun a c => a * 10 + (c.toNat - 0x30)) 0

/-- JSON number per `NUMBER_RE`: `(-?(0|[1-9]\d*))(\.\d+)?([eE][-+]?\d+)?`. -/
def parseJNumber (l : List Char) : Option (JValue × List Char) :=
  let sgn := if l.take 1 = ['-'] then (['-'], l.drop 1) else ([], l)
  let ipr : Option (List Char × List Char) :=
    match sgn.2 with
    | [] => none
    | c :: rest =>
      if c = '0' then some (['0'], rest)
      else if isAsciiDigit c then
        some (c :: rest.takeWhile isAsciiDigit, rest.dropWhile isAsciiDigit)
      else none
  match ipr with
  | none => none
  | some (ip, r1) =>
    let fr : List Char × List Char :=
      match r1 with
      | '.' :: d :: rest =>
        if isAsciiDigit d then
          ('.' :: d :: rest.takeWhile isAsciiDigit, rest.dropWhile isAsciiDigit)
        else ([], r1)
      | _ => ([], r1)
    let ex : List Char × List Char :=
      match fr.2 with
      | e :: rest =>
        if e = 'e' ∨ e = 'E' then
          match rest with
          | s :: d :: rest2 =>
            if (s = '+' ∨ s = '-') ∧ isAsciiDigit d then
              (e :: s :: d :: rest2.takeWhile isAsciiDigit, rest2.dropWhile isAsciiDigit)
            else if isAsciiDigit s then
              (e :: s :: (rest.drop 1).takeWhile isAsciiDigit,
               (rest.drop 1).dropWhile isAsciiDigit)
            else ([], fr.2)
          | [s] =>
            if isAsciiDigit s then (e :: [s], []) else ([], fr.2)
          | [] => ([], fr.2)
        else ([], fr.2)
      | [] => ([], fr.2)
    if fr.1 = [] ∧ ex.1 = [] then
      some (.jint (if sgn.1 = [] then (digitsVal ip : Int) else -(digitsVal ip : Int)), r1)
    else
      some (.jnum ⟨sgn.1 ++ ip ++ fr.1 ++ ex.1⟩, ex.2)

mutual
def parseJValue : Nat → List Char → Option (JValue × List Char)
  | 0, _ => none
  | fuel + 1, l =>
    match jsonSkipWs l with
    | [] => none
    | c :: rest =>
      if c = '"' then (parseJString (fuel + 1) rest).map (fun r => (.jstr ⟨r.1⟩, r.2))
      else if c = '\x7b' then
        match jsonSkipWs rest with
        | '\x7d' :: r2 => some (.jobj .nil, r2)
        | r2 => (parseJMembers fuel r2).map (fun r => (.jobj r.1, r.2))
      else if c = '[' then
        match jsonSkipWs rest with
        | ']' :: r2 => some (.jarr .nil, r2)
        | r2 => (parseJElems fuel r2).map (fun r => (.jarr r.1, r.2))
      else if c = 't' then
        match rest with
        | 'r' :: 'u' :: 'e' :: r2 => some (.jbool true, r2)
        | _ => none
      else if c = 'f' then
        match rest with
        | 'a' :: 'l' :: 's' :: 'e' :: r2 => some (.jbool false, r2)
        | _ => none
      else if c = 'n' then
        match rest with
        | 'u' :: 'l' :: 'l' :: r2 => some (.jnull, r2)
        | _ => none
      else parseJNumber (c :: rest)

def parseJMembers : Nat → List Char → Option (JObject × List Char)
  | 0, _ => none
  | fuel + 1, l =>
    match jsonSkipWs l with
    | '"' :: rest =>
      match parseJString (fuel + 1) rest with
      | none => none
      | some (key, r1) =>
        match jsonSkipWs r1 with
        | ':' :: r2 =>
          match parseJValue fuel r2 with
          | none => none
          | some (v, r3) =>
            match jsonSkipWs r3 with
            | ',' :: r4 => (parseJMembers fuel r4).map (fun r => (.cons ⟨key⟩ v r.1, r.2))
            | '\x7d' :: r4 => some (.cons ⟨key⟩ v .nil, r4)
            | _ => none
        | _ => none
    | _ => none

def parseJElems : Nat → List Char → Option (JArray × List Char)
  | 0, _ => none
  | fuel + 1, l =>
    match parseJValue fuel l with
    | none => none
    | some (v, r1) =>
      match jsonSkipWs r1 with
      | ',' :: r2 => (parseJElems fuel r2).map (fun r => (.cons v r.1, r.2))
      | ']' :: r2 => some (.cons v .nil, r2)
      | _ => none
end

def json_loads (s : String) : Option JValue :=
  match parseJValue (2 * s.data.length + 2) s.data with
  | some (v, rest) => if jsonSkipWs rest = [] then some v else none
  | none => none

/-! ## Python str()/repr() of parsed JSON values -/

mutual
/-- `str(x)` of a decoded JSON value (`repr` for container elements; string
repr approximated with single quotes and minimal escaping, which only
affects container-valued category-id payloads). -/
def pyStrOfJValue : JValue → List Char
  | .jnull => "None".data
  | .jbool true => "True".data
  | .jbool false => "False".data
  | .jint n => (toString n).data
  | .jnum lit => lit.data
  | .jstr s => s.data
  | .jarr es => '[' :: jsonReprElems es ++ [']']
  | .jobj fs => '\x7b' :: jsonReprFields fs ++ ['\x7d']

def jsonRepr : JValue → List Char
  | .jnull => "None".data
  | .jbool true => "True".data
  | .jbool false => "False".data
  | .jint n => (toString n).data
  | .jnum lit => lit.data
  | .jstr s => '\'' :: s.data ++ ['\'']
  | .jarr es => '[' :: jsonReprElems es ++ [']']
  | .jobj fs => '\x7b' :: jsonReprFields fs ++ ['\x7d']

def jsonReprElems : JArray → List Char
  | .nil => []
  | .cons v .nil => jsonRepr v
  | .cons v (.cons w tl) => jsonRepr v ++ ',' :: ' ' :: jsonReprElems (.cons w tl)

def jsonReprFields : JObject → List Char
  | .nil => []
  | .cons k v .nil => '\'' :: k.data ++ '\'' :: ':' :: ' ' :: jsonRepr v
  | .cons k v (.cons k2 w tl) =>
    '\'' :: k.data ++ '\'' :: ':' :: ' ' :: jsonRepr v ++ ',' :: ' '
      :: jsonReprFields (.cons k2 w tl)
end

/-- Membership and last-occurrence lookup in a decoded JSON object (Python
dicts keep the last duplicate key). -/
def jobjLookup : JObject → String → Option JValue
  | .nil, _ => none
  | .cons k v tl, key =>
    match jobjLookup tl key with
    | some w => some w
    | none => if k = key then some v else none

/-! ## Link canonicalizer (retrieve_category.py lines 57-137) -/

/-- `re.sub(r"/{2,}", "/", path)`: collapse runs of slashes. -/
def collapseSlashes : List Char → List Char
  | [] => []
  | [c] => [c]
  | c1 :: c2 :: rest =>
    if c1 = '/' ∧ c2 = '/' then collapseSlashes (c2 :: rest)
    else c1 :: collapseSlashes (c2 :: rest)

/-- `normalize_path`: collapse multiple slashes, drop one trailing slash
(root `/` preserved). -/
def normalize_path (path : List Char) : List Char :=
  if path = [] then ['/']
  else
    let p := collapseSlashes path
    if 1 < p.length ∧ p.getLastD ' ' = '/' then p.dropLast else p

def WHITELIST : List String := ["categoryId", "catId", "catIdLv1", "cat"]

def CAT_KEYS : List String := ["categoryId", "catId", "catIdLv1", "cat"]

def generic_paths : List String := ["/catalog", "/search", "/category", "/categories"]

/-- The `params`-JSON scan: the first listed key whose value's `str().strip()`
is nonempty (a present-but-empty key does not stop the scan). -/
def scanCatKeys (fields : JObject) : List String → Option String
  | [] => none
  | k :: ks =>
    match jobjLookup fields k with
    | some v =>
      if pyStrip ⟨pyStrOfJValue v⟩ ≠ "" then some (pyStrip ⟨pyStrOfJValue v⟩)
      else scanCatKeys fields ks
    | none => scanCatKeys fields ks

/-- `cat_from_params`: only a JSON object can produce a fallback id (for any
other payload the membership test is false or raises, and the `except` eats
it). -/
def catFromParams (paramsVal : Option String) : Option String :=
  match paramsVal with
  | some s =>
    if s ≠ "" then
      match json_loads s with
      | some (.jobj fields) => scanCatKeys fields CAT_KEYS
      | _ => none
    else none
  | none => none

/-- `qmap[k]`: the dict comprehension keeps the last occurrence. -/
def lookupLast (pairs : List (String × String)) (k : String) : Option String :=
  ((pairs.reverse).find? (fun kv => kv.1 = k)).map (·.2)

/-- Ordered-dict write `m[k] = v`: update in place or append. -/
def dictUpsert (m : List (String × String)) (k v : String) : List (String × String) :=
  if (m.map Prod.fst).contains k then m.map (fun kv => if kv.1 = k then (k, v) else kv)
  else m ++ [(k, v)]

/-- The `keep` loop: whitelisted keys with nonempty stripped values. -/
def buildKeep (q_pairs : List (String × String)) : List (String × String) :=
  q_pairs.foldl
    (fun m kv => if WHITELIST.contains kv.1 ∧ pyStrip kv.2 ≠ "" then dictUpsert m kv.1 (pyStrip kv.2) else m)
    []

/-- `sorted(keep.items())` (keys are distinct, so tuple order is key order;
Python string comparison is code-point lexicographic, as is `String.lt`). -/
def insertPairSorted (p : String × String) : List (String × String) → List (String × String)
  | [] => [p]
  | q :: qs => if p.1 < q.1 ∨ p.1 = q.1 then p :: q :: qs else q :: insertPairSorted p qs

def sortPairs (l : List (String × String)) : List (String × String) :=
  l.foldr insertPairSorted []

/-- The injection step: fall back to the extracted category id only when no
whitelist key made it into `keep`. -/
def keepWithFallback (q_pairs : List (String × String)) : List (String × String) :=
  let keep := buildKeep q_pairs
  match catFromParams (lookupLast q_pairs "params") with
  | some cat =>
    if ¬ WHITELIST.any (fun k => (keep.map Prod.fst).contains k) then dictUpsert keep "categoryId" cat
    else keep
  | none => keep

/-- `canonicalize_category_link(base, href) -> (canonical_url, dedupe_key)`. -/
def canonicalize_category_link (base href : String) : String × String :=
  if href = "" then ("", "")
  else
    let href1 := if href.data.take 2 = ['/', '/'] then "https:".data ++ href.data else href.data
    let absolute := urldefrag (urljoin base.data href1)
    let p := urlparse absolute []
    let scheme := if p.scheme = [] then "https".data else p.scheme
    let host_lower := p.netloc.map asciiLowerChar
    let path_norm := normalize_path p.path
    let q_pairs := parse_qsl ⟨p.query⟩
    let keep := keepWithFallback q_pairs
    let is_generic := generic_paths.contains ⟨path_norm⟩
    let qs := if is_generic ∧ keep ≠ [] then (urlencodePairs (sortPairs keep)).data else []
    let canonical_url := urlunparse ⟨scheme, host_lower, path_norm, [], qs, []⟩
    let host_key := if host_lower.take 4 = "www.".data then host_lower.drop 4 else host_lower
    let key := host_key ++ path_norm ++ (if qs ≠ [] then '?' :: qs else [])
    (⟨canonical_url⟩, ⟨key⟩)

/-- No two adjacent slashes. -/
def noDD : List Char → Bool
  | [] => true
  | [_] => true
  | c1 :: c2 :: r => ¬ (c1 = '/' ∧ c2 = '/') ∧ noDD (c2 :: r)

/-- Key order used by `sorted(keep.items())` (keys are distinct). -/
def pairLE (a b : String × String) : Prop := a.1 < b.1 ∨ a.1 = b.1

/-! Named intermediates of `canonicalize_category_link` (its `let` bindings,
for a nonempty `href`). -/

def canonHref1 (href : String) : List Char :=
  if href.data.take 2 = ['/', '/'] then "https:".data ++ href.data else href.data

def canonAbs (base href : String) : List Char :=
  urldefrag (urljoin base.data
    (if href.data.take 2 = ['/', '/'] then "https:".data ++ href.data else href.data))

def canonP (base href : String) : ParseResult := urlparse (canonAbs base href) []

def canonScheme (base href : String) : List Char :=
  if (canonP base href).scheme = [] then "https".data else (canonP base href).scheme

def canonHost (base href : String) : List Char :=
  (canonP base href).netloc.map asciiLowerChar

def canonPath (base href : String) : List Char :=
  normalize_path (canonP base href).path

def canonKeep (base href : String) : List (String × String) :=
  keepWithFallback (parse_qsl ⟨(canonP base href).query⟩)

def canonQs (base href : String) : List Char :=
  if generic_paths.contains ⟨canonPath base href⟩ = true ∧ ¬ canonKeep base href = []
  then (urlencodePairs (sortPairs (canonKeep base href))).data else []

/-- The path component as it reads back out of the canonical URL (urlunsplit
prepends a `/` when a netloc section is emitted). -/
def canonPP (base href : String) : List Char :=
  if canonHost base href ≠ []
      ∨ uses_netloc.contains ⟨canonScheme base href⟩ = true
  then (if (canonPath base href).take 1 = ['/'] then canonPath base href
        else '/' :: canonPath base href)
  else canonPath base href

/-! ## Engine lemmas -/

theorem lastGot_append (l₁ l₂ : List FetchResult) (last : Option (List Record × List String)) :
    lastGot (l₁ ++ l₂) last = lastGot l₂ (lastGot l₁ last) := by
  induction l₁ generalizing last with
  | nil => rfl
  | cons g l ih =>
    cases hg : attemptStep g <;> simp [lastGot, hg, ih]

theorem lastGot_all_blocked (l : List FetchResult) (last : Option (List Record × List String))
    (hb : ∀ g ∈ l, attemptStep g = .blockedEvent) : lastGot l last = last := by
  induction l with
  | nil => rfl
  | cons g l ih =>
    have hg := hb g (by simp)
    simp [lastGot, hg, ih fun g hgl => hb g (by simp [hgl])]

/-- Running the loop over rejected attempts only advances the attempt counter
and the loop locals. -/
theorem fetchGo_skip (known : List String) (minNew maxR : Nat) (l : List FetchResult)
    (hrej : ∀ g ∈ l, rejects known minNew g = true) (rest : List FetchResult) (a : Nat)
    (last : Option (List Record × List String)) :
    (fetchGo known minNew maxR (l ++ rest) a last).result
      = (fetchGo known minNew maxR rest (a + l.length) (lastGot l last)).result := by
  induction l generalizing a last with
  | nil => simp [lastGot]
  | cons g l ih =>
    have hg := hrej g (by simp)
    have hl : ∀ g ∈ l, rejects known minNew g = true := fun g hgl => hrej g (by simp [hgl])
    have ihl := ih hl
    have harith : a + 1 + l.length = a + (l.length + 1) := by omega
    cases hstep : attemptStep g with
    | blockedEvent =>
      simp only [List.cons_append, fetchGo, hstep, consSleep, lastGot, List.append_eq,
        List.length_cons]
      rw [ihl, harith]
    | got ps ids =>
      simp only [rejects, hstep] at hg
      simp only [List.cons_append, fetchGo, hstep, lastGot, List.append_eq, List.length_cons]
      by_cases hemp : ps.isEmpty
      · rw [if_pos hemp]
        simp only [consSleep]
        rw [ihl, harith]
      · have hlt : (newIds known ids).length < minNew := by
          rcases Bool.or_eq_true_iff.mp hg with h | h
          · exact absurd h hemp
          · exact of_decide_eq_true h
        rw [if_neg hemp, if_neg (Nat.not_le.mpr hlt)]
        simp only [consSleep]
        rw [ihl, harith]

/-- When every attempt is rejected, the loop exhausts and returns the last
assigned locals (or raises) with the full retry budget. -/
theorem fetchGo_exhaust (known : List String) (minNew maxR : Nat) (l : List FetchResult)
    (hrej : ∀ g ∈ l, rejects known minNew g = true) (a : Nat)
    (last : Option (List Record × List String)) :
    (fetchGo known minNew maxR l a last).result
      = match lastGot l last with
        | none => .error .unboundLocalError
        | some (ps, ids) => .ok (ps, ids, maxR) := by
  have := fetchGo_skip known minNew maxR l hrej [] a last
  simp only [List.append_nil] at this
  rw [this]
  cases lastGot l last with
  | none => rfl
  | some v => cases v; rfl

theorem crawl_once_ok_ps_ne_nil {fs : List Fragment} {ps : List Record} {ids : List String}
    (hcrawl : crawl_once fs = .ok (ps, ids)) (hids : ids ≠ []) : ps ≠ [] := by
  unfold crawl_once at hcrawl
  split at hcrawl
  · exact absurd hcrawl (by simp)
  · injection hcrawl with h
    injection h with h1 h2
    intro hps
    rw [hps] at h1
    rw [← h2, h1] at hids
    simp at hids

/-- An accepting head attempt returns immediately. -/
theorem fetchGo_accept_head (known : List String) (minNew maxR : Nat) (fs : List Fragment)
    (ps : List Record) (ids : List String) (rest : List FetchResult) (a : Nat)
    (last : Option (List Record × List String))
    (hmin : 1 ≤ minNew) (hcrawl : crawl_once fs = .ok (ps, ids))
    (hnew : minNew ≤ (newIds known ids).length) :
    fetchGo known minNew maxR (.frags fs :: rest) a last = ⟨.ok (ps, ids, a), []⟩ := by
  have hids : ids ≠ [] := by
    intro h
    subst h
    simp [newIds] at hnew
    omega
  have hps := crawl_once_ok_ps_ne_nil hcrawl hids
  have hstep : attemptStep (.frags fs) = .got ps ids := by
    simp [attemptStep, hcrawl]
  simp [fetchGo, hstep, List.isEmpty_iff, hps, hnew]

/-- Acceptance after a run of rejected attempts: the engine returns that
attempt's records, identities and attempt number, ignoring later attempts. -/
theorem fetchGo_accept_after (known : List String) (minNew : Nat) (pre : List FetchResult)
    (fs : List Fragment) (ps : List Record) (ids : List String) (rest : List FetchResult)
    (hmin : 1 ≤ minNew) (hrej : ∀ g ∈ pre, rejects known minNew g = true)
    (hcrawl : crawl_once fs = .ok (ps, ids))
    (hnew : minNew ≤ (newIds known ids).length) :
    (fetch_until_new known minNew (pre ++ .frags fs :: rest)).result
      = .ok (ps, ids, pre.length + 1) := by
  unfold fetch_until_new
  rw [fetchGo_skip known minNew _ pre hrej _ 1 none]
  rw [fetchGo_accept_head known minNew _ fs ps ids rest _ _ hmin hcrawl hnew]
  simp [Nat.add_comm]

/-! ## Store-merge lemmas -/

theorem mergePage_skip (st : StoreSt) (ps : List Record) (p : Record)
    (h : get_product_id p = "" ∨ st.known.contains (get_product_id p) = true) :
    mergePage st (p :: ps) = mergePage st ps := by
  have hc : ¬ (get_product_id p ≠ "" ∧ ¬ st.known.contains (get_product_id p) = true) := by
    rcases h with h | h
    · simp [h]
    · intro hcon
      exact hcon.2 h
  simp only [mergePage]
  rw [if_neg hc]

theorem storeGet_append_ne (store : List (String × Record)) (q : String) (p : Record)
    (pid : String) (hne : q ≠ pid) :
    (((store ++ [(q, p)]).find? (fun e => e.1 = pid)).map (·.2))
      = ((store.find? (fun e => e.1 = pid)).map (·.2)) := by
  induction store with
  | nil => simp [List.find?, hne]
  | cons e l ih =>
    by_cases he : e.1 = pid
    · rw [List.cons_append, List.find?_cons_of_pos _ (by simpa using he),
        List.find?_cons_of_pos _ (by simpa using he)]
    · rw [List.cons_append, List.find?_cons_of_neg _ (by simpa using he),
        List.find?_cons_of_neg _ (by simpa using he)]
      exact ih

theorem mergePage_get_known (st : StoreSt) (ps : List Record) (pid : String)
    (hk : st.known.contains pid = true) :
    storeGet (mergePage st ps).1 pid = storeGet st pid := by
  induction ps generalizing st with
  | nil => rfl
  | cons p ps ih =>
    by_cases hc : get_product_id p ≠ "" ∧ ¬ st.known.contains (get_product_id p) = true
    · simp only [mergePage]
      rw [if_pos hc]
      have hne : get_product_id p ≠ pid := fun h => hc.2 (h ▸ hk)
      have hkmem : pid ∈ st.known := by simpa using hk
      have hk' : (get_product_id p :: st.known).contains pid = true := by
        simp [hkmem]
      rw [ih ⟨get_product_id p :: st.known, st.store ++ [(get_product_id p, p)]⟩ hk']
      exact storeGet_append_ne st.store _ p pid hne
    · simp only [mergePage]
      rw [if_neg hc]
      exact ih st hk

theorem mergePage_nodup (st : StoreSt) (ps : List Record)
    (hsub : ∀ k ∈ storeKeys st, st.known.contains k = true)
    (hnd : (storeKeys st).Nodup) :
    (storeKeys (mergePage st ps).1).Nodup
      ∧ ∀ k ∈ storeKeys (mergePage st ps).1, (mergePage st ps).1.known.contains k = true := by
  induction ps generalizing st with
  | nil => exact ⟨hnd, hsub⟩
  | cons p ps ih =>
    by_cases hc : get_product_id p ≠ "" ∧ ¬ st.known.contains (get_product_id p) = true
    · simp only [mergePage]
      rw [if_pos hc]
      have hqnotin : get_product_id p ∉ storeKeys st := fun hmem => hc.2 (hsub _ hmem)
      have hnd' : (storeKeys ⟨get_product_id p :: st.known,
          st.store ++ [(get_product_id p, p)]⟩).Nodup := by
        simp only [storeKeys, List.map_append, List.map_cons, List.map_nil]
        rw [List.nodup_append]
        refine ⟨hnd, List.nodup_singleton _, ?_⟩
        intro a ha hb
        simp only [List.mem_singleton] at hb
        exact hqnotin (hb ▸ ha)
      have hsub' : ∀ k ∈ storeKeys ⟨get_product_id p :: st.known,
          st.store ++ [(get_product_id p, p)]⟩,
          (⟨get_product_id p :: st.known,
            st.store ++ [(get_product_id p, p)]⟩ : StoreSt).known.contains k = true := by
        intro k hkmem
        simp only [storeKeys, List.map_append, List.map_cons, List.map_nil,
          List.mem_append, List.mem_singleton] at hkmem
        rcases hkmem with hkmem | hkmem
        · have hm : k ∈ st.known := by simpa using hsub k hkmem
          simp [hm]
        · simp [hkmem]
      exact ih _ hsub' hnd'
    · simp only [mergePage]
      rw [if_neg hc]
      exact ih st hsub hnd

theorem mergePage_pair_self (st : StoreSt) (p : Record) :
    mergePage st [p, p] = mergePage st [p] := by
  by_cases hc : get_product_id p ≠ "" ∧ ¬ st.known.contains (get_product_id p) = true
  · simp only [mergePage]
    rw [if_pos hc, if_pos hc]
    have hk : (get_product_id p :: st.known).contains (get_product_id p) = true := by
      simp [List.contains_cons]
    have hskip : ¬ (get_product_id p ≠ ""
        ∧ ¬ (get_product_id p :: st.known).contains (get_product_id p) = true) := by
      simp [hk]
    rw [if_neg hskip]
  · simp only [mergePage]
    rw [if_neg hc, if_neg hc]

/-! ## Harvest-trace lemmas -/

theorem harvestPage_events (st : StoreSt) (i : Nat) (ps : List Record) :
    ∀ e ∈ (harvestPage st i ps).2, ∃ n, e = WriteEvent.pageFile n := by
  intro e he
  unfold harvestPage at he
  split at he
  · simp at he
  · split at he <;> simp at he <;> exact ⟨i, he.2⟩

theorem harvestGo_structure (l : List (List Record)) (st : StoreSt) (i : Nat) :
    ∃ pre, harvestGo st i l = pre ++ [WriteEvent.productsFile, WriteEvent.pagesIndexFile]
      ∧ ∀ e ∈ pre, ∃ n, e = WriteEvent.pageFile n := by
  induction l generalizing st i with
  | nil => exact ⟨[], rfl, by simp⟩
  | cons ps rest ih =>
    obtain ⟨pre, heq, hall⟩ := ih (harvestPage st i ps).1 (i + 1)
    refine ⟨(harvestPage st i ps).2 ++ pre, ?_, ?_⟩
    · simp only [harvestGo]
      rw [heq, List.append_assoc]
    · intro e he
      rcases List.mem_append.mp he with he | he
      · exact harvestPage_events st i ps e he
      · exact hall e he

/-! ## Canonicalizer lemmas -/

theorem urlsplit_append_https (rest ds : List Char) :
    (urlsplit ("https:".data ++ rest) ds).scheme = "https".data := by
  have h1 : ("https:".data ++ rest).dropWhile isC0OrSpace = "https:".data ++ rest := rfl
  have h2 : removeUnsafe ("https:".data ++ rest) = "https:".data ++ removeUnsafe rest := rfl
  have h3 : pyFindIdx ':' ("https:".data ++ removeUnsafe rest) = some 5 := rfl
  simp only [urlsplit, h1, h2, h3]
  simp +decide

theorem urlparse_scheme (url ds : List Char) :
    (urlparse url ds).scheme = (urlsplit url ds).scheme := by
  simp only [urlparse]
  split <;> rfl

theorem urlunsplit_scheme_starts (r : SplitResult) (h : r.scheme ≠ []) :
    ∃ t, urlunsplit r = r.scheme ++ ':' :: t := by
  unfold urlunsplit
  by_cases hq : r.query = [] <;> by_cases hf : r.fragment = [] <;>
    simp [h, hq, hf, List.append_assoc] <;> first
    | exact ⟨_, rfl⟩
    | skip

theorem urlunparse_scheme_starts (r : ParseResult) (h : r.scheme ≠ []) :
    ∃ t, urlunparse r = r.scheme ++ ':' :: t :=
  urlunsplit_scheme_starts _ h

theorem https_colon_collect (t : List Char) :
    "https".data ++ ':' :: t = "https:".data ++ t := rfl

theorem urlunparse_https_head (s n p pr q f : List Char) (hs : s = "https".data) :
    ∃ t, urlunparse ⟨s, n, p, pr, q, f⟩ = "https:".data ++ t := by
  subst hs
  obtain ⟨t, ht⟩ := urlunparse_scheme_starts ⟨"https".data, n, p, pr, q, f⟩
    (show ("https".data : List Char) ≠ [] by decide)
  exact ⟨t, ht.trans (https_colon_collect t)⟩

theorem urljoin_https_starts (base rest : List Char) :
    ∃ t, urljoin base ("https:".data ++ rest) = "https:".data ++ t := by
  set j := urljoin base ("https:".data ++ rest) with hj
  simp only [urljoin] at hj
  split at hj
  · exact ⟨rest, hj⟩
  split at hj
  · rename_i h2
    exact absurd h2 (by simp)
  split at hj
  · exact ⟨rest, hj⟩
  split at hj
  · rw [hj]
    exact urlunparse_https_head _ _ _ _ _ _ (by rw [urlparse_scheme, urlsplit_append_https])
  split at hj
  · rw [hj]
    exact urlunparse_https_head _ _ _ _ _ _ (by rw [urlparse_scheme, urlsplit_append_https])
  · rw [hj]
    exact urlunparse_https_head _ _ _ _ _ _ (by rw [urlparse_scheme, urlsplit_append_https])

theorem urldefrag_https_starts (rest : List Char) :
    ∃ t, urldefrag ("https:".data ++ rest) = "https:".data ++ t := by
  set d := urldefrag ("https:".data ++ rest) with hd
  simp only [urldefrag] at hd
  split at hd
  · rw [hd]
    exact urlunparse_https_head _ _ _ _ _ _ (by rw [urlparse_scheme, urlsplit_append_https])
  · exact ⟨rest, hd⟩

theorem scanCatKeys_eq_findSome (fields : JObject) (ks : List String) :
    scanCatKeys fields ks = ks.findSome? (fun k =>
      (jobjLookup fields k).bind (fun v =>
        if pyStrip ⟨pyStrOfJValue v⟩ = "" then none else some (pyStrip ⟨pyStrOfJValue v⟩))) := by
  induction ks with
  | nil => rfl
  | cons k ks ih =>
    simp only [scanCatKeys, List.findSome?_cons]
    cases hv : jobjLookup fields k with
    | none => simpa using ih
    | some v =>
      by_cases hs : pyStrip ⟨pyStrOfJValue v⟩ = ""
      · simpa [hs] using ih
      · simp [hs]

theorem dictUpsert_mem (m : List (String × String)) (k v : String)
    (hm : ∀ kv ∈ m, kv.1 ∈ WHITELIST ∧ kv.2 ≠ "")
    (hk : k ∈ WHITELIST) (hv : v ≠ "") :
    ∀ kv ∈ dictUpsert m k v, kv.1 ∈ WHITELIST ∧ kv.2 ≠ "" := by
  intro kv hkv
  unfold dictUpsert at hkv
  split at hkv
  · obtain ⟨kv', hkv', heq⟩ := List.mem_map.mp hkv
    by_cases he : kv'.1 = k
    · rw [if_pos he] at heq
      exact heq ▸ ⟨hk, hv⟩
    · rw [if_neg he] at heq
      exact heq ▸ hm kv' hkv'
  · rcases List.mem_append.mp hkv with h | h
    · exact hm kv h
    · simp only [List.mem_singleton] at h
      exact h ▸ ⟨hk, hv⟩

theorem buildKeep_go_mem (q : List (String × String)) (m : List (String × String))
    (hm : ∀ kv ∈ m, kv.1 ∈ WHITELIST ∧ kv.2 ≠ "") :
    ∀ kv ∈ q.foldl
      (fun m kv => if WHITELIST.contains kv.1 ∧ pyStrip kv.2 ≠ ""
        then dictUpsert m kv.1 (pyStrip kv.2) else m) m,
      kv.1 ∈ WHITELIST ∧ kv.2 ≠ "" := by
  induction q generalizing m with
  | nil => exact hm
  | cons p q ih =>
    simp only [List.foldl_cons]
    split
    · rename_i hcond
      exact ih _ (dictUpsert_mem m p.1 (pyStrip p.2) hm (by simpa using hcond.1) hcond.2)
    · exact ih _ hm

theorem buildKeep_mem (q : List (String × String)) :
    ∀ kv ∈ buildKeep q, kv.1 ∈ WHITELIST ∧ kv.2 ≠ "" :=
  buildKeep_go_mem q [] (by simp)

theorem keepWithFallback_inject (q : List (String × String)) (cat : String)
    (hc : catFromParams (lookupLast q "params") = some cat)
    (hnone : ∀ k ∈ WHITELIST, k ∉ (buildKeep q).map Prod.fst) :
    keepWithFallback q = buildKeep q ++ [("categoryId", cat)] := by
  simp only [keepWithFallback, hc]
  rw [if_pos]
  · unfold dictUpsert
    rw [if_neg]
    intro hmem
    exact hnone "categoryId" (by decide) (by simpa using hmem)
  · simp only [List.any_eq_true, not_exists, not_and]
    intro k hk
    simpa using hnone k (by simpa using hk)

theorem keepWithFallback_kept (q : List (String × String))
    (hsome : ∃ k ∈ WHITELIST, k ∈ (buildKeep q).map Prod.fst) :
    keepWithFallback q = buildKeep q := by
  unfold keepWithFallback
  obtain ⟨k, hk, hmem⟩ := hsome
  cases hcp : catFromParams (lookupLast q "params") with
  | none => simp [keepWithFallback, hcp]
  | some cat =>
    simp only [keepWithFallback, hcp]
    rw [if_neg]
    simp only [not_not, List.any_eq_true]
    exact ⟨k, by simpa using hk, by simpa using hmem⟩

theorem keepWithFallback_nofallback (q : List (String × String))
    (hc : catFromParams (lookupLast q "params") = none) :
    keepWithFallback q = buildKeep q := by
  simp [keepWithFallback, hc]

/-! ## Character-level toolkit -/

theorem char_le_toNat (a b : Char) : (a ≤ b) ↔ (a.toNat ≤ b.toNat) := by
  rw [Char.le_def, UInt32.le_def]
  rfl

theorem char_eq_toNat (a b : Char) : (a = b) ↔ (a.toNat = b.toNat) :=
  ⟨congrArg _, fun h => Char.ext (UInt32.ext h)⟩

theorem isValidChar_of_lt (n : Nat) (h : n < 0xD800) : n.isValidChar := Or.inl h

theorem char_toNat_ofNat (n : Nat) (h : n.isValidChar) : (Char.ofNat n).toNat = n := by
  unfold Char.ofNat
  rw [dif_pos h]
  unfold Char.ofNatAux Char.toNat
  simp [UInt32.toNat, UInt32.ofNat']

theorem char_toNat_ofNat_lt (n : Nat) (h : n < 0xD800) : (Char.ofNat n).toNat = n :=
  char_toNat_ofNat n (isValidChar_of_lt n h)

theorem char_valid_cases (c : Char) :
    c.toNat < 0xD800 ∨ (0xDFFF < c.toNat ∧ c.toNat < 0x110000) := by
  rcases c.valid with h | h
  · exact Or.inl h
  · exact Or.inr h

theorem char_toNat_lt (c : Char) : c.toNat < 0x110000 := by
  rcases char_valid_cases c with h | h
  · omega
  · exact h.2

theorem isAsciiAlpha_iff (c : Char) :
    isAsciiAlpha c = true ↔ (65 ≤ c.toNat ∧ c.toNat ≤ 90) ∨ (97 ≤ c.toNat ∧ c.toNat ≤ 122) := by
  simp only [isAsciiAlpha, Bool.or_eq_true, decide_eq_true_eq]
  rw [char_le_toNat, char_le_toNat, char_le_toNat, char_le_toNat]
  exact Iff.rfl

theorem isAsciiDigit_iff (c : Char) :
    isAsciiDigit c = true ↔ (48 ≤ c.toNat ∧ c.toNat ≤ 57) := by
  simp only [isAsciiDigit, decide_eq_true_eq]
  rw [char_le_toNat, char_le_toNat]
  exact Iff.rfl

theorem SCHEME_CHARS_iff (c : Char) :
    SCHEME_CHARS c = true ↔ (65 ≤ c.toNat ∧ c.toNat ≤ 90) ∨ (97 ≤ c.toNat ∧ c.toNat ≤ 122)
      ∨ (48 ≤ c.toNat ∧ c.toNat ≤ 57) ∨ c.toNat = 43 ∨ c.toNat = 45 ∨ c.toNat = 46 := by
  simp only [SCHEME_CHARS, Bool.or_eq_true, decide_eq_true_eq, isAsciiAlpha_iff,
    isAsciiDigit_iff, char_eq_toNat]
  have h1 : ('+' : Char).toNat = 43 := rfl
  have h2 : ('-' : Char).toNat = 45 := rfl
  have h3 : ('.' : Char).toNat = 46 := rfl
  rw [h1, h2, h3]
  omega

theorem netlocDelim_iff (c : Char) :
    netlocDelim c = true ↔ c.toNat = 47 ∨ c.toNat = 63 ∨ c.toNat = 35 := by
  simp only [netlocDelim, Bool.or_eq_true, decide_eq_true_eq, char_eq_toNat]
  rw [or_assoc]
  exact Iff.rfl

theorem isC0OrSpace_iff (c : Char) : isC0OrSpace c = true ↔ c.toNat < 33 := by
  simp only [isC0OrSpace, decide_eq_true_eq]

theorem unsafeChar_iff (c : Char) :
    (c = '\t' ∨ c = '\r' ∨ c = '\n') ↔ (c.toNat = 9 ∨ c.toNat = 13 ∨ c.toNat = 10) := by
  rw [char_eq_toNat, char_eq_toNat, char_eq_toNat]
  exact Iff.rfl

theorem isHexDigitChar_iff (c : Char) :
    isHexDigitChar c = true ↔ (48 ≤ c.toNat ∧ c.toNat ≤ 57) ∨ (65 ≤ c.toNat ∧ c.toNat ≤ 70)
      ∨ (97 ≤ c.toNat ∧ c.toNat ≤ 102) := by
  simp only [isHexDigitChar, Bool.or_eq_true, decide_eq_true_eq]
  rw [char_le_toNat, char_le_toNat, char_le_toNat, char_le_toNat, char_le_toNat, char_le_toNat]
  exact Iff.rfl

theorem asciiLowerChar_toNat (c : Char) :
    (asciiLowerChar c).toNat
      = if 65 ≤ c.toNat ∧ c.toNat ≤ 90 then c.toNat + 32 else c.toNat := by
  unfold asciiLowerChar
  by_cases h : 'A' ≤ c ∧ c ≤ 'Z'
  · rw [if_pos h]
    rw [char_le_toNat, char_le_toNat] at h
    have h' : 65 ≤ c.toNat ∧ c.toNat ≤ 90 := h
    rw [if_pos h']
    exact char_toNat_ofNat_lt _ (by omega)
  · rw [if_neg h]
    rw [char_le_toNat, char_le_toNat] at h
    rw [if_neg (show ¬ (65 ≤ c.toNat ∧ c.toNat ≤ 90) from h)]

theorem asciiLowerChar_idem (c : Char) :
    asciiLowerChar (asciiLowerChar c) = asciiLowerChar c := by
  rw [char_eq_toNat, asciiLowerChar_toNat, asciiLowerChar_toNat]
  split_ifs <;> omega

theorem map_asciiLower_idem (l : List Char) :
    (l.map asciiLowerChar).map asciiLowerChar = l.map asciiLowerChar := by
  rw [List.map_map]
  exact List.map_congr_left fun c _ => asciiLowerChar_idem c

theorem asciiLower_scheme_char (c : Char) (h : SCHEME_CHARS c = true) :
    SCHEME_CHARS (asciiLowerChar c) = true := by
  rw [SCHEME_CHARS_iff] at h ⊢
  rw [asciiLowerChar_toNat]
  split <;> omega

theorem asciiLower_alpha_char (c : Char) (h : isAsciiAlpha c = true) :
    isAsciiAlpha (asciiLowerChar c) = true := by
  rw [isAsciiAlpha_iff] at h ⊢
  rw [asciiLowerChar_toNat]
  split <;> omega

theorem asciiLower_not_delim (c : Char) (h : ¬ netlocDelim c = true) :
    ¬ netlocDelim (asciiLowerChar c) = true := by
  rw [netlocDelim_iff] at h ⊢
  rw [asciiLowerChar_toNat]
  split <;> omega

theorem asciiLower_not_unsafe (c : Char) (h : ¬ (c = '\t' ∨ c = '\r' ∨ c = '\n')) :
    ¬ (asciiLowerChar c = '\t' ∨ asciiLowerChar c = '\r' ∨ asciiLowerChar c = '\n') := by
  rw [unsafeChar_iff] at h ⊢
  rw [asciiLowerChar_toNat]
  split <;> omega

theorem scheme_char_not_unsafe (c : Char) (h : SCHEME_CHARS c = true) :
    ¬ (c = '\t' ∨ c = '\r' ∨ c = '\n') := by
  rw [SCHEME_CHARS_iff] at h
  rw [unsafeChar_iff]
  omega

theorem scheme_char_ne_colon (c : Char) (h : SCHEME_CHARS c = true) : c ≠ ':' := by
  rw [SCHEME_CHARS_iff] at h
  rw [Ne, char_eq_toNat]
  show ¬ (c.toNat = 58)
  omega

theorem alpha_not_c0 (c : Char) (h : isAsciiAlpha c = true) : isC0OrSpace c = false := by
  rw [isAsciiAlpha_iff] at h
  rw [← Bool.not_eq_true, isC0OrSpace_iff]
  omega

/-! ## List and Python-string utility lemmas -/

theorem pyFindIdx_append_not_mem (sep : Char) (a b : List Char)
    (ha : ∀ ch ∈ a, ch ≠ sep) : pyFindIdx sep (a ++ sep :: b) = some a.length := by
  induction a with
  | nil => simp [pyFindIdx]
  | cons c cs ih =>
    have hc : c ≠ sep := ha c (by simp)
    rw [List.cons_append]
    simp only [pyFindIdx, if_neg hc, ih (fun ch h => ha ch (by simp [h]))]
    rfl

theorem pySplitOnce_not_mem (sep : Char) (l : List Char) (h : ∀ ch ∈ l, ch ≠ sep) :
    pySplitOnce sep l = (l, none) := by
  induction l with
  | nil => rfl
  | cons c cs ih =>
    simp only [pySplitOnce, if_neg (h c (by simp)), ih (fun ch hm => h ch (by simp [hm]))]

theorem pySplitOnce_append (sep : Char) (a b : List Char) (ha : ∀ ch ∈ a, ch ≠ sep) :
    pySplitOnce sep (a ++ sep :: b) = (a, some b) := by
  induction a with
  | nil => simp [pySplitOnce]
  | cons c cs ih =>
    rw [List.cons_append]
    simp only [pySplitOnce, if_neg (ha c (by simp)), ih (fun ch h => ha ch (by simp [h]))]

theorem pySplitOnce_fst_subset (sep : Char) (l : List Char) :
    ∀ ch ∈ (pySplitOnce sep l).1, ch ∈ l := by
  induction l with
  | nil => simp [pySplitOnce]
  | cons c cs ih =>
    intro ch hch
    simp only [pySplitOnce] at hch
    split at hch
    · simp at hch
    · simp only [List.mem_cons] at hch
      rcases hch with h | h
      · simp [h]
      · simp [ih ch h]

theorem pySplitOnce_fst_not_sep (sep : Char) (l : List Char) :
    ∀ ch ∈ (pySplitOnce sep l).1, ch ≠ sep := by
  induction l with
  | nil => simp [pySplitOnce]
  | cons c cs ih =>
    intro ch hch
    simp only [pySplitOnce] at hch
    split at hch
    · simp at hch
    · rename_i hc
      simp only [List.mem_cons] at hch
      rcases hch with h | h
      · exact h ▸ hc
      · exact ih ch h

theorem pySplitOnce_snd_subset (sep : Char) (l : List Char) :
    ∀ ch ∈ (pySplitOnce sep l).2.getD [], ch ∈ l := by
  induction l with
  | nil => simp [pySplitOnce]
  | cons c cs ih =>
    intro ch hch
    simp only [pySplitOnce] at hch
    split at hch
    · simp only [Option.getD_some] at hch
      simp [hch]
    · simp [ih ch hch]

theorem takeWhile_append_all {α} (p : α → Bool) (a b : List α)
    (ha : ∀ x ∈ a, p x = true) : (a ++ b).takeWhile p = a ++ b.takeWhile p := by
  induction a with
  | nil => rfl
  | cons c cs ih =>
    rw [List.cons_append, List.takeWhile_cons, if_pos (ha c (by simp)),
      ih (fun x h => ha x (by simp [h])), List.cons_append]

theorem dropWhile_append_all {α} (p : α → Bool) (a b : List α)
    (ha : ∀ x ∈ a, p x = true) : (a ++ b).dropWhile p = b.dropWhile p := by
  induction a with
  | nil => rfl
  | cons c cs ih =>
    rw [List.cons_append, List.dropWhile_cons, if_pos (ha c (by simp))]
    exact ih (fun x h => ha x (by simp [h]))

theorem dropWhile_eq_self_of_head {α} (p : α → Bool) (l : List α)
    (h : ∀ c, l.head? = some c → p c = false) : l.dropWhile p = l := by
  cases l with
  | nil => rfl
  | cons c cs => rw [List.dropWhile_cons, if_neg (by simp [h c rfl])]

theorem head?_dropWhile {α} (p : α → Bool) (l : List α) :
    ∀ c, (l.dropWhile p).head? = some c → p c = false := by
  induction l with
  | nil => simp
  | cons a as ih =>
    intro c hc
    rw [List.dropWhile_cons] at hc
    split at hc
    · exact ih c hc
    · rename_i hpa
      simp only [List.head?_cons, Option.some.injEq] at hc
      subst hc
      simpa using hpa

theorem splitAllChar_ne_nil (sep : Char) (l : List Char) : splitAllChar sep l ≠ [] := by
  cases l with
  | nil => simp [splitAllChar]
  | cons c cs =>
    simp only [splitAllChar]
    split
    · simp
    · split <;> simp

theorem joinChar_splitAllChar (sep : Char) (l : List Char) :
    joinChar sep (splitAllChar sep l) = l := by
  induction l with
  | nil => rfl
  | cons c cs ih =>
    simp only [splitAllChar]
    split
    · rename_i hc
      subst hc
      cases hs : splitAllChar c cs with
      | nil => exact absurd hs (splitAllChar_ne_nil c cs)
      | cons h t =>
        rw [hs] at ih
        simp only [joinChar]
        rw [ih]
        rfl
    · cases hs : splitAllChar sep cs with
      | nil => exact absurd hs (splitAllChar_ne_nil sep cs)
      | cons h t =>
        rw [hs] at ih
        cases t with
        | nil =>
          simp only [joinChar] at ih ⊢
          rw [ih]
        | cons t1 ts =>
          simp only [joinChar] at ih ⊢
          rw [List.cons_append, ih]

theorem splitAllChar_no_sep (sep : Char) (l : List Char) (h : ∀ ch ∈ l, ch ≠ sep) :
    splitAllChar sep l = [l] := by
  induction l with
  | nil => rfl
  | cons c cs ih =>
    simp only [splitAllChar, if_neg (h c (by simp)), ih (fun ch hm => h ch (by simp [hm]))]

theorem splitAllChar_append_sep (sep : Char) (a r : List Char) (ha : ∀ ch ∈ a, ch ≠ sep) :
    splitAllChar sep (a ++ sep :: r) = a :: splitAllChar sep r := by
  induction a with
  | nil => simp [splitAllChar]
  | cons c cs ih =>
    rw [List.cons_append]
    simp only [splitAllChar, if_neg (ha c (by simp)),
      ih (fun ch h => ha ch (by simp [h]))]

theorem splitAllChar_joinChar (sep : Char) (parts : List (List Char)) (hp : parts ≠ [])
    (hall : ∀ part ∈ parts, ∀ ch ∈ part, ch ≠ sep) :
    splitAllChar sep (joinChar sep parts) = parts := by
  induction parts with
  | nil => exact absurd rfl hp
  | cons x xs ih =>
    cases xs with
    | nil =>
      simp only [joinChar]
      exact splitAllChar_no_sep sep x (hall x (by simp))
    | cons y ys =>
      simp only [joinChar]
      rw [splitAllChar_append_sep sep x _ (hall x (by simp))]
      rw [ih (by simp) (fun part hmem => hall part (by simp [hmem]))]

theorem mem_joinChar (sep : Char) (parts : List (List Char)) :
    ∀ ch ∈ joinChar sep parts, ch = sep ∨ ∃ part ∈ parts, ch ∈ part := by
  induction parts with
  | nil => simp [joinChar]
  | cons x xs ih =>
    intro ch hch
    cases xs with
    | nil =>
      simp only [joinChar] at hch
      exact Or.inr ⟨x, by simp, hch⟩
    | cons y ys =>
      simp only [joinChar] at hch
      rcases List.mem_append.mp hch with h | h
      · exact Or.inr ⟨x, by simp, h⟩
      · simp only [List.mem_cons] at h
        rcases h with h | h
        · exact Or.inl h
        · rcases ih ch h with h' | ⟨part, hmem, hin⟩
          · exact Or.inl h'
          · exact Or.inr ⟨part, by simp [hmem], hin⟩

theorem mem_splitAllChar (sep : Char) (l : List Char) :
    ∀ part ∈ splitAllChar sep l, ∀ ch ∈ part, ch ∈ l := by
  induction l with
  | nil => simp [splitAllChar]
  | cons c cs ih =>
    intro part hpart ch hch
    simp only [splitAllChar] at hpart
    split at hpart
    · simp only [List.mem_cons] at hpart
      rcases hpart with h | h
      · subst h
        simp at hch
      · simp [ih part h ch hch]
    · rcases hs : splitAllChar sep cs with _ | ⟨h0, t0⟩
      · exact absurd hs (splitAllChar_ne_nil sep cs)
      · rw [hs] at hpart
        simp only [List.mem_cons] at hpart
        rcases hpart with h | h
        · subst h
          simp only [List.mem_cons] at hch
          rcases hch with h | h
          · simp [h]
          · have := ih h0 (by simp [hs]) ch h
            simp [this]
        · have := ih part (by simp [hs, h]) ch hch
          simp [this]

/-! ## collapseSlashes / normalize_path lemmas -/

theorem collapseSlashes_cons_head (l : List Char) :
    ∀ c, ∃ t, collapseSlashes (c :: l) = c :: t := by
  induction l with
  | nil => exact fun c => ⟨[], rfl⟩
  | cons c2 rest ih =>
    intro c
    simp only [collapseSlashes]
    split
    · rename_i h
      obtain ⟨t, ht⟩ := ih c2
      exact ⟨t, by rw [ht, h.1, h.2]⟩
    · exact ⟨collapseSlashes (c2 :: rest), rfl⟩

theorem collapseSlashes_ne_nil (l : List Char) (h : l ≠ []) : collapseSlashes l ≠ [] := by
  cases l with
  | nil => exact absurd rfl h
  | cons c cs =>
    obtain ⟨t, ht⟩ := collapseSlashes_cons_head cs c
    simp [ht]

theorem collapseSlashes_subset (l : List Char) : ∀ ch ∈ collapseSlashes l, ch ∈ l := by
  induction l with
  | nil => simp [collapseSlashes]
  | cons c cs ih =>
    intro ch hch
    cases cs with
    | nil =>
      simp only [collapseSlashes] at hch
      simpa using hch
    | cons c2 rest =>
      simp only [collapseSlashes] at hch
      split at hch
      · simp [ih ch hch]
      · simp only [List.mem_cons] at hch
        rcases hch with h | h
        · simp [h]
        · simp [ih ch h]

theorem noDD_collapseSlashes (l : List Char) : noDD (collapseSlashes l) = true := by
  induction l with
  | nil => rfl
  | cons c cs ih =>
    cases cs with
    | nil => rfl
    | cons c2 rest =>
      simp only [collapseSlashes]
      split
      · exact ih
      · rename_i h
        obtain ⟨t, ht⟩ := collapseSlashes_cons_head rest c2
        rw [ht]
        rw [ht] at ih
        simp only [noDD, Bool.and_eq_true, decide_eq_true_eq]
        exact ⟨by simpa using h, ih⟩

theorem collapseSlashes_eq_self (l : List Char) (h : noDD l = true) :
    collapseSlashes l = l := by
  induction l with
  | nil => rfl
  | cons c cs ih =>
    cases cs with
    | nil => rfl
    | cons c2 rest =>
      simp only [noDD, Bool.and_eq_true, decide_eq_true_eq] at h
      simp only [collapseSlashes, if_neg h.1]
      rw [ih h.2]

theorem noDD_dropLast (l : List Char) (h : noDD l = true) : noDD l.dropLast = true := by
  induction l with
  | nil => rfl
  | cons c cs ih =>
    cases cs with
    | nil => rfl
    | cons c2 rest =>
      simp only [noDD, Bool.and_eq_true, decide_eq_true_eq] at h
      have := ih h.2
      cases rest with
      | nil => rfl
      | cons c3 r2 =>
        simp only [List.dropLast_cons₂] at this ⊢
        simp only [noDD, Bool.and_eq_true, decide_eq_true_eq]
        exact ⟨h.1, this⟩

theorem noDD_append_dd (x : List Char) : noDD (x ++ ['/', '/']) = false := by
  induction x with
  | nil => simp [noDD]
  | cons c cs ih =>
    cases cs with
    | nil => simp_all [noDD]
    | cons c2 rest =>
      rw [List.cons_append]
      simp only [noDD]
      rw [List.cons_append] at ih
      simp [ih]

theorem normalize_path_ne_nil (q : List Char) : normalize_path q ≠ [] := by
  simp only [normalize_path]
  split
  · simp
  · rename_i hq
    split
    · rename_i hc
      have h2 := hc.1
      intro he
      have : (collapseSlashes q).length ≤ 1 := by
        have := congrArg List.length he
        simp only [List.length_dropLast, List.length_nil] at this
        omega
      omega
    · exact collapseSlashes_ne_nil q hq

theorem normalize_path_noDD (q : List Char) : noDD (normalize_path q) = true := by
  simp only [normalize_path]
  split
  · rfl
  · split
    · exact noDD_dropLast _ (noDD_collapseSlashes q)
    · exact noDD_collapseSlashes q

theorem getLastD_concat (a d : Char) (l : List Char) : (l ++ [a]).getLastD d = a := by
  induction l generalizing d with
  | nil => rfl
  | cons c cs ih =>
    rw [List.cons_append, List.getLastD_cons]
    exact ih c

theorem normalize_path_no_trailing (q : List Char) :
    ¬ (1 < (normalize_path q).length ∧ (normalize_path q).getLastD ' ' = '/') := by
  simp only [normalize_path]
  split
  · simp
  · rename_i hq
    split
    · rename_i hc
      rintro ⟨hlen, hlast⟩
      set p := collapseSlashes q with hp
      have hpne : p ≠ [] := collapseSlashes_ne_nil q hq
      have hdne : p.dropLast ≠ [] := by
        intro he
        rw [he] at hlen
        simp at hlen
      have h1 : p.dropLast.dropLast ++ [p.dropLast.getLast hdne] = p.dropLast :=
        List.dropLast_append_getLast hdne
      have h2 : p.dropLast.getLast hdne = '/' := by
        have hgl := getLastD_concat (p.dropLast.getLast hdne) ' ' p.dropLast.dropLast
        rw [h1] at hgl
        rw [hlast] at hgl
        exact hgl.symm
      have h3 : p.dropLast ++ [p.getLast hpne] = p := List.dropLast_append_getLast hpne
      have h4 : p.getLast hpne = '/' := by
        have hgl := getLastD_concat (p.getLast hpne) ' ' p.dropLast
        rw [h3] at hgl
        rw [hc.2] at hgl
        exact hgl.symm
      have h5 : p = p.dropLast.dropLast ++ ['/', '/'] := by
        conv_lhs => rw [← h3, ← h1]
        rw [h2, h4]
        simp
      have hno := noDD_collapseSlashes q
      rw [← hp, h5, noDD_append_dd] at hno
      simp at hno
    · rename_i hc
      push_neg at hc
      rintro ⟨hlen, hlast⟩
      exact absurd hlast (hc hlen)

theorem normalize_path_idem (q : List Char) :
    normalize_path (normalize_path q) = normalize_path q := by
  have h1 := normalize_path_ne_nil q
  have h2 := normalize_path_noDD q
  have h3 := normalize_path_no_trailing q
  set N := normalize_path q with hN
  simp only [normalize_path, if_neg h1, collapseSlashes_eq_self _ h2, if_neg h3]

theorem normalize_path_subset (q : List Char) :
    ∀ ch ∈ normalize_path q, ch ∈ q ∨ ch = '/' := by
  simp only [normalize_path]
  split
  · simp
  · split
    · intro ch hch
      exact Or.inl (collapseSlashes_subset q ch (List.dropLast_subset _ hch))
    · intro ch hch
      exact Or.inl (collapseSlashes_subset q ch hch)

theorem normalize_path_starts (q : List Char) (h : q = [] ∨ q.take 1 = ['/']) :
    ∃ t, normalize_path q = '/' :: t := by
  simp only [normalize_path]
  rcases h with h | h
  · rw [if_pos h]
    exact ⟨[], rfl⟩
  · have hq : q ≠ [] := by
      intro he
      rw [he] at h
      simp at h
    rw [if_neg hq]
    obtain ⟨c, cs, hccs⟩ : ∃ c cs, q = c :: cs := by
      cases q with
      | nil => exact absurd rfl hq
      | cons c cs => exact ⟨c, cs, rfl⟩
    have hc : c = '/' := by
      rw [hccs] at h
      simpa using h
    subst hccs
    subst hc
    obtain ⟨t, ht⟩ := collapseSlashes_cons_head cs '/'
    rw [ht]
    split
    · rename_i hcond
      cases t with
      | nil => simp at hcond
      | cons t1 ts => exact ⟨(t1 :: ts).dropLast, by simp⟩
    · exact ⟨t, rfl⟩

/-! ## pyStrip idempotence -/

theorem pyStripList_idem (l : List Char) : pyStripList (pyStripList l) = pyStripList l := by
  set m := l.dropWhile pyWhitespace with hm
  set r := m.reverse.dropWhile pyWhitespace with hr
  have hs : pyStripList l = r.reverse := rfl
  rcases hrn : r with _ | ⟨r0, rt⟩
  · rw [hs, hrn]
    rfl
  · rw [hs]
    have hsub : r <:+ m.reverse := List.dropWhile_suffix pyWhitespace
    have hlast : r.getLast? = m.reverse.getLast? := by
      obtain ⟨pre, hpre⟩ := hsub
      rw [← hpre, List.getLast?_append_of_ne_nil pre (by rw [hrn]; simp)]
    have hstep1 : r.reverse.dropWhile pyWhitespace = r.reverse := by
      apply dropWhile_eq_self_of_head
      intro c hc
      rw [List.head?_reverse] at hc
      rw [hlast, List.getLast?_reverse] at hc
      exact head?_dropWhile pyWhitespace l c hc
    show ((r.reverse.dropWhile pyWhitespace).reverse.dropWhile pyWhitespace).reverse = r.reverse
    rw [hstep1, List.reverse_reverse]
    rw [dropWhile_eq_self_of_head pyWhitespace r
      (fun c hc => head?_dropWhile pyWhitespace m.reverse c (by rw [← hr]; exact hc))]

theorem pyStrip_idem (s : String) : pyStrip (pyStrip s) = pyStrip s := by
  unfold pyStrip
  rw [pyStripList_idem]

/-! ## UTF-8 round trip -/

theorem utf8Head_ascii (b : Nat) (h : b < 0x80) : utf8Head b = ([Char.ofNat b], none) := by
  unfold utf8Head
  rw [if_pos h]

theorem utf8Head_c2 (b : Nat) (h1 : 0xC2 ≤ b) (h2 : b < 0xE0) :
    utf8Head b = ([], some (1, b - 0xC0, 2)) := by
  unfold utf8Head
  rw [if_neg (by omega), if_neg (by omega), if_pos h2]

theorem utf8Head_e (b : Nat) (h1 : 0xE0 ≤ b) (h2 : b < 0xF0) :
    utf8Head b = ([], some (2, b - 0xE0, 3)) := by
  unfold utf8Head
  rw [if_neg (by omega), if_neg (by omega), if_neg (by omega), if_pos h2]

theorem utf8Head_f (b : Nat) (h1 : 0xF0 ≤ b) (h2 : b < 0xF5) :
    utf8Head b = ([], some (3, b - 0xF0, 4)) := by
  unfold utf8Head
  rw [if_neg (by omega), if_neg (by omega), if_neg (by omega), if_neg (by omega), if_pos h2]

theorem sm_none_cons (b : Nat) (bs : List Nat) :
    utf8DecodeSM none (b :: bs) = (utf8Head b).1 ++ utf8DecodeSM (utf8Head b).2 bs := by
  simp only [utf8DecodeSM]

theorem sm_cont_step (k acc w b : Nat) (bs : List Nat) (hc : contByte b = true) (hk : ¬ k = 1) :
    utf8DecodeSM (some (k, acc, w)) (b :: bs)
      = utf8DecodeSM (some (k - 1, acc * 64 + (b - 0x80), w)) bs := by
  simp only [utf8DecodeSM, hc, if_true, if_neg hk]

theorem sm_cont_final (acc w b : Nat) (bs : List Nat) (hc : contByte b = true) :
    utf8DecodeSM (some (1, acc, w)) (b :: bs)
      = (if utf8Valid w (acc * 64 + (b - 0x80)) then [Char.ofNat (acc * 64 + (b - 0x80))]
         else [replChar]) ++ utf8DecodeSM none bs := by
  simp only [utf8DecodeSM, hc, if_true, if_pos rfl]

theorem utf8Valid_two (n : Nat) : utf8Valid 2 n = true := by
  simp [utf8Valid]

theorem utf8Valid_three (n : Nat) (h1 : 0x800 ≤ n) (h2 : ¬ (0xD800 ≤ n ∧ n < 0xE000)) :
    utf8Valid 3 n = true := by
  simp [utf8Valid]
  omega

theorem utf8Valid_four (n : Nat) (h1 : 0x10000 ≤ n) (h2 : n < 0x110000) :
    utf8Valid 4 n = true := by
  simp [utf8Valid]
  omega

theorem utf8_sm_encode_char (c : Char) (rest : List Nat) :
    utf8DecodeSM none (utf8EncodeChar c ++ rest) = c :: utf8DecodeSM none rest := by
  have hv := char_valid_cases c
  have hofn : Char.ofNat c.toNat = c := Char.ofNat_toNat c
  have hlt := char_toNat_lt c
  unfold utf8EncodeChar
  by_cases h1 : c.toNat < 0x80
  · rw [if_pos h1, List.cons_append, List.nil_append, sm_none_cons,
      utf8Head_ascii _ h1, hofn]
    rfl
  rw [if_neg h1]
  by_cases h2 : c.toNat < 0x800
  · rw [if_pos h2, List.cons_append, List.cons_append, List.nil_append, sm_none_cons,
      utf8Head_c2 _ (by omega) (by omega)]
    simp only [List.nil_append]
    rw [sm_cont_final _ _ _ _ (by simp [contByte]; omega)]
    have harith : (0xC0 + c.toNat / 64 - 0xC0) * 64 + (0x80 + c.toNat % 64 - 0x80)
        = c.toNat := by omega
    rw [harith, utf8Valid_two, if_pos rfl, hofn]
    rfl
  rw [if_neg h2]
  by_cases h3 : c.toNat < 0x10000
  · rw [if_pos h3, List.cons_append, List.cons_append, List.cons_append, List.nil_append,
      sm_none_cons, utf8Head_e _ (by omega) (by omega)]
    simp only [List.nil_append]
    rw [sm_cont_step _ _ _ _ _ (by simp [contByte]; omega) (by omega)]
    rw [sm_cont_final _ _ _ _ (by simp [contByte]; omega)]
    have harith : ((0xE0 + c.toNat / 4096 - 0xE0) * 64 + (0x80 + c.toNat / 64 % 64 - 0x80)) * 64
        + (0x80 + c.toNat % 64 - 0x80) = c.toNat := by omega
    rw [harith, utf8Valid_three _ (by omega) (by omega), if_pos rfl, hofn]
    rfl
  · rw [if_neg h3, List.cons_append, List.cons_append, List.cons_append, List.cons_append,
      List.nil_append, sm_none_cons, utf8Head_f _ (by omega) (by omega)]
    simp only [List.nil_append]
    rw [sm_cont_step _ _ _ _ _ (by simp [contByte]; omega) (by omega)]
    rw [sm_cont_step _ _ _ _ _ (by simp [contByte]; omega) (by omega)]
    rw [sm_cont_final _ _ _ _ (by simp [contByte]; omega)]
    have harith : (((0xF0 + c.toNat / 262144 - 0xF0) * 64 + (0x80 + c.toNat / 4096 % 64 - 0x80))
        * 64 + (0x80 + c.toNat / 64 % 64 - 0x80)) * 64 + (0x80 + c.toNat % 64 - 0x80)
        = c.toNat := by omega
    rw [harith, utf8Valid_four _ (by omega) (by omega), if_pos rfl, hofn]
    rfl

theorem utf8Decode_utf8Encode (l : List Char) : utf8Decode (utf8Encode l) = l := by
  unfold utf8Decode
  induction l with
  | nil => rfl
  | cons c cs ih =>
    show utf8DecodeSM none (((c :: cs).map utf8EncodeChar).flatten) = c :: cs
    rw [List.map_cons, List.flatten_cons, utf8_sm_encode_char]
    exact congrArg (c :: ·) ih

theorem utf8EncodeChar_lt (c : Char) : ∀ b ∈ utf8EncodeChar c, b < 256 := by
  have hlt := char_toNat_lt c
  simp only [utf8EncodeChar]
  split
  · intro b hb
    simp only [List.mem_singleton] at hb
    omega
  split
  · intro b hb
    simp only [List.mem_cons, List.not_mem_nil, or_false] at hb
    rcases hb with h | h <;> omega
  split
  · intro b hb
    simp only [List.mem_cons, List.not_mem_nil, or_false] at hb
    rcases hb with h | h | h <;> omega
  · intro b hb
    simp only [List.mem_cons, List.not_mem_nil, or_false] at hb
    rcases hb with h | h | h | h <;> omega

theorem utf8Encode_lt (l : List Char) : ∀ b ∈ utf8Encode l, b < 256 := by
  intro b hb
  unfold utf8Encode at hb
  rw [List.mem_flatten] at hb
  obtain ⟨bs, hbs, hbin⟩ := hb
  rw [List.mem_map] at hbs
  obtain ⟨c, _, hc⟩ := hbs
  exact utf8EncodeChar_lt c b (hc ▸ hbin)

/-! ## Percent-encoding round trip -/

theorem percentDecode_cons_safe (c : Char) (L : List Char) (h : c ≠ '%') :
    percentDecodeBytes (c :: L) = c.toNat :: percentDecodeBytes L := by
  match L with
  | [] => rfl
  | [c1] => rfl
  | c1 :: c2 :: t =>
    rw [percentDecodeBytes, if_neg]
    rintro ⟨hc, _⟩
    exact h hc

theorem hexUpper_toNat (d : Nat) (hd : d < 16) :
    (hexUpper d).toNat = if d < 10 then 48 + d else 55 + d := by
  unfold hexUpper
  split
  · exact char_toNat_ofNat_lt _ (by omega)
  · exact char_toNat_ofNat_lt _ (by omega)

theorem isHexDigitChar_hexUpper (d : Nat) (hd : d < 16) :
    isHexDigitChar (hexUpper d) = true := by
  rw [isHexDigitChar_iff, hexUpper_toNat d hd]
  split <;> omega

theorem hexVal_hexUpper (d : Nat) (hd : d < 16) : hexVal (hexUpper d) = d := by
  unfold hexVal
  have ht := hexUpper_toNat d hd
  have h9 : ('9' : Char).toNat = 57 := rfl
  have hF : ('F' : Char).toNat = 70 := rfl
  by_cases hlt : d < 10
  · rw [if_pos (by rw [char_le_toNat, ht, if_pos hlt, h9]; omega)]
    rw [ht, if_pos hlt]
    omega
  · rw [if_neg (by rw [char_le_toNat, ht, if_neg hlt, h9]; omega)]
    rw [if_pos (by rw [char_le_toNat, ht, if_neg hlt, hF]; omega)]
    rw [ht, if_neg hlt]
    omega

theorem ALWAYS_SAFE_lt (b : Nat) (h : ALWAYS_SAFE b = true) : b < 0x80 := by
  simp only [ALWAYS_SAFE, Bool.or_eq_true, decide_eq_true_eq] at h
  omega

theorem pdb_quote (safe : List Char) (bytes : List Nat)
    (hb : ∀ b ∈ bytes, b < 256)
    (hpn : ∀ b, b < 256 → (ALWAYS_SAFE b = true ∨ safe.contains (Char.ofNat b) = true)
      → b ≠ 0x25) :
    percentDecodeBytes ((bytes.map (quoteByte safe)).flatten) = bytes := by
  induction bytes with
  | nil => rfl
  | cons b bs ih =>
    have hblt : b < 256 := hb b (by simp)
    rw [List.map_cons, List.flatten_cons]
    by_cases hq : ALWAYS_SAFE b = true ∨ safe.contains (Char.ofNat b) = true
    · have hqb : quoteByte safe b = [Char.ofNat b] := by
        unfold quoteByte
        rw [if_pos hq]
      rw [hqb, List.cons_append, List.nil_append]
      rw [percentDecode_cons_safe _ _ (by
        intro he
        have hto := char_toNat_ofNat_lt b (by omega)
        rw [he] at hto
        exact hpn b hblt hq (by rw [← hto]; rfl))]
      rw [char_toNat_ofNat_lt b (by omega)]
      rw [ih (fun x hx => hb x (by simp [hx]))]
    · have hqb : quoteByte safe b = ['%', hexUpper (b / 16), hexUpper (b % 16)] := by
        unfold quoteByte
        rw [if_neg hq]
      rw [hqb, List.cons_append, List.cons_append, List.cons_append, List.nil_append]
      rw [percentDecodeBytes, if_pos
        ⟨rfl, isHexDigitChar_hexUpper _ (by omega), isHexDigitChar_hexUpper _ (by omega)⟩]
      rw [hexVal_hexUpper _ (by omega), hexVal_hexUpper _ (by omega)]
      rw [ih (fun x hx => hb x (by simp [hx]))]
      congr 1
      omega

/-! ## quote_plus output classification and unquote round trip -/

theorem pyQuote_class (s : String) (safe : List Char)
    (hs : ∀ b, b < 256 → safe.contains (Char.ofNat b) = true → b = 0x20) :
    ∀ ch ∈ (pyQuote s safe).data,
      ALWAYS_SAFE ch.toNat = true ∨ ch = '%' ∨ (ch = ' ' ∧ safe.contains ' ' = true) := by
  intro ch hch
  unfold pyQuote at hch
  simp only [List.mem_flatten] at hch
  obtain ⟨grp, hgrp, hin⟩ := hch
  rw [List.mem_map] at hgrp
  obtain ⟨b, hbmem, hbeq⟩ := hgrp
  have hblt : b < 256 := utf8Encode_lt _ b hbmem
  subst hbeq
  unfold quoteByte at hin
  split at hin
  · rename_i hcond
    simp only [List.mem_singleton] at hin
    subst hin
    rcases hcond with hc | hc
    · left
      rw [char_toNat_ofNat_lt b (by omega)]
      exact hc
    · right; right
      have hb20 := hs b hblt hc
      subst hb20
      exact ⟨rfl, hc⟩
  · simp only [List.mem_cons, List.not_mem_nil, or_false] at hin
    rcases hin with h | h | h
    · right; left; exact h
    · left
      subst h
      rw [hexUpper_toNat _ (by omega)]
      simp only [ALWAYS_SAFE, Bool.or_eq_true, decide_eq_true_eq]
      split <;> omega
    · left
      subst h
      rw [hexUpper_toNat _ (by omega)]
      simp only [ALWAYS_SAFE, Bool.or_eq_true, decide_eq_true_eq]
      split <;> omega

theorem space_safe_singleton :
    ∀ b, b < 256 → ([' '] : List Char).contains (Char.ofNat b) = true → b = 0x20 := by
  intro b hb hc
  simp only [List.contains_cons, List.contains_nil, Bool.or_false, beq_iff_eq] at hc
  have := congrArg Char.toNat hc
  rw [char_toNat_ofNat_lt b (by omega)] at this
  exact this

theorem pyQuotePlus_class (s : String) :
    ∀ ch ∈ (pyQuotePlus s).data, ALWAYS_SAFE ch.toNat = true ∨ ch = '%' ∨ ch = '+' := by
  intro ch hch
  unfold pyQuotePlus at hch
  split at hch
  · rcases pyQuote_class s [] (by simp) ch hch with h | h | ⟨_, hc⟩
    · exact Or.inl h
    · exact Or.inr (Or.inl h)
    · simp at hc
  · replace hch : ch ∈ (pyQuote s [' ']).data.map (fun c => if c = ' ' then '+' else c) := hch
    obtain ⟨ch', hmem, heq⟩ := List.mem_map.mp hch
    rcases pyQuote_class s [' '] space_safe_singleton ch' hmem with h | h | ⟨hsp, _⟩
    · have hne : ¬ ch' = ' ' := by
        intro he
        subst he
        exact absurd h (by decide)
      rw [if_neg hne] at heq
      subst heq
      exact Or.inl h
    · have hne : ¬ ch' = ' ' := by
        intro he
        subst he
        exact absurd h (by decide)
      rw [if_neg hne] at heq
      subst heq
      exact Or.inr (Or.inl h)
    · subst hsp
      rw [if_pos rfl] at heq
      subst heq
      exact Or.inr (Or.inr rfl)

theorem quotePlus_char_lt (s : String) : ∀ ch ∈ (pyQuotePlus s).data, ch.toNat < 0x80 := by
  intro ch hch
  rcases pyQuotePlus_class s ch hch with h | h | h
  · exact ALWAYS_SAFE_lt _ h
  · subst h; decide
  · subst h; decide

theorem pyUnquoteAux_ascii (l : List Char) :
    ∀ acc, (∀ ch ∈ l, ch.toNat < 0x80) →
      pyUnquoteAux acc l = utf8Decode (percentDecodeBytes (acc.reverse ++ l)) := by
  induction l with
  | nil =>
    intro acc _
    simp [pyUnquoteAux]
  | cons c cs ih =>
    intro acc h
    unfold pyUnquoteAux
    rw [if_pos (h c (by simp))]
    rw [ih (c :: acc) (fun ch hm => h ch (by simp [hm]))]
    simp [List.append_assoc]

theorem pyUnquote_pyQuote (s : String) (safe : List Char)
    (hs : ∀ b, b < 256 → safe.contains (Char.ofNat b) = true → b = 0x20)
    (hpn : ∀ b, b < 256 → (ALWAYS_SAFE b = true ∨ safe.contains (Char.ofNat b) = true)
      → b ≠ 0x25) :
    pyUnquote (pyQuote s safe) = s := by
  have hascii : ∀ ch ∈ (pyQuote s safe).data, ch.toNat < 0x80 := by
    intro ch hch
    rcases pyQuote_class s safe hs ch hch with h | h | ⟨h, _⟩
    · exact ALWAYS_SAFE_lt _ h
    · subst h; decide
    · subst h; decide
  unfold pyUnquote
  rw [pyUnquoteAux_ascii _ [] hascii]
  simp only [List.reverse_nil, List.nil_append]
  show (⟨utf8Decode (percentDecodeBytes
    (((utf8Encode s.data).map (quoteByte safe)).flatten))⟩ : String) = s
  rw [pdb_quote safe _ (utf8Encode_lt _) hpn, utf8Decode_utf8Encode]

theorem nil_safe_vacuous :
    ∀ b, b < 256 → ([] : List Char).contains (Char.ofNat b) = true → b = 0x20 := by
  intro b _ hc
  simp at hc

theorem nil_safe_hpn :
    ∀ b, b < 256 → (ALWAYS_SAFE b = true ∨ ([] : List Char).contains (Char.ofNat b) = true)
      → b ≠ 0x25 := by
  intro b _ hc
  rcases hc with hc | hc
  · intro he
    subst he
    exact absurd hc (by decide)
  · simp at hc

theorem space_safe_hpn :
    ∀ b, b < 256 → (ALWAYS_SAFE b = true ∨ ([' '] : List Char).contains (Char.ofNat b) = true)
      → b ≠ 0x25 := by
  intro b hb hc
  rcases hc with hc | hc
  · intro he
    subst he
    exact absurd hc (by decide)
  · have := space_safe_singleton b hb hc
    omega

theorem pyUnquotePlus_pyQuotePlus (s : String) : pyUnquotePlus (pyQuotePlus s) = s := by
  unfold pyUnquotePlus pyQuotePlus
  split
  · have hid : (pyQuote s []).data.map (fun c => if c = '+' then ' ' else c)
        = (pyQuote s []).data := by
      rw [List.map_congr_left (g := id) (fun ch hch => by
        rcases pyQuote_class s [] nil_safe_vacuous ch hch with h | h | ⟨_, hc⟩
        · have hne : ¬ ch = '+' := by
            intro he
            subst he
            exact absurd h (by decide)
          simp [hne]
        · subst h
          simp
        · simp at hc)]
      exact List.map_id _
    rw [hid]
    show pyUnquote (pyQuote s []) = s
    exact pyUnquote_pyQuote s [] nil_safe_vacuous nil_safe_hpn
  · show pyUnquote ⟨((pyQuote s [' ']).data.map (fun c => if c = ' ' then '+' else c)).map
      (fun c => if c = '+' then ' ' else c)⟩ = s
    rw [List.map_map]
    have hid : (pyQuote s [' ']).data.map
        ((fun c => if c = '+' then ' ' else c) ∘ (fun c => if c = ' ' then '+' else c))
        = (pyQuote s [' ']).data := by
      rw [List.map_congr_left (g := id) (fun ch hch => by
        simp only [Function.comp_apply, id]
        by_cases hsp : ch = ' '
        · subst hsp
          simp
        · rw [if_neg hsp]
          have hne : ¬ ch = '+' := by
            rcases pyQuote_class s [' '] space_safe_singleton ch hch with h | h | ⟨h, _⟩
            · intro he
              subst he
              exact absurd h (by decide)
            · intro he
              subst he
              exact absurd h (by decide)
            · exact absurd h hsp
          rw [if_neg hne])]
      exact List.map_id _
    rw [hid]
    show pyUnquote (pyQuote s [' ']) = s
    exact pyUnquote_pyQuote s [' '] space_safe_singleton space_safe_hpn

/-! ## parse_qsl / urlencode round trip -/

theorem pyQuotePlus_ne (s : String) (c : Char) (hc : ALWAYS_SAFE c.toNat = false)
    (h1 : c ≠ '%') (h2 : c ≠ '+') : ∀ ch ∈ (pyQuotePlus s).data, ch ≠ c := by
  intro ch hch he
  subst he
  rcases pyQuotePlus_class s ch hch with h | h | h
  · rw [h] at hc
    exact absurd hc (by simp)
  · exact h1 h
  · exact h2 h

theorem enc_pair_ne_nil (kv : String × String) :
    (pyQuotePlus kv.1).data ++ '=' :: (pyQuotePlus kv.2).data ≠ [] := by
  simp

theorem enc_pair_no_amp (kv : String × String) :
    ∀ ch ∈ (pyQuotePlus kv.1).data ++ '=' :: (pyQuotePlus kv.2).data, ch ≠ '&' := by
  intro ch hch
  rcases List.mem_append.mp hch with h | h
  · exact pyQuotePlus_ne _ _ (by decide) (by decide) (by decide) ch h
  · rcases List.mem_cons.mp h with h | h
    · subst h
      decide
    · exact pyQuotePlus_ne _ _ (by decide) (by decide) (by decide) ch h

theorem joinChar_cons_ne_nil (sep : Char) (x : List Char) (t : List (List Char)) (hx : x ≠ []) :
    joinChar sep (x :: t) ≠ [] := by
  cases t with
  | nil => exact hx
  | cons y ys => simp [joinChar]

theorem parse_qsl_urlencodePairs (xs : List (String × String)) (hne : xs ≠ []) :
    parse_qsl (urlencodePairs xs) = xs := by
  obtain ⟨kv0, rest, rfl⟩ : ∃ kv0 rest, xs = kv0 :: rest := by
    cases xs with
    | nil => exact absurd rfl hne
    | cons a t => exact ⟨a, t, rfl⟩
  set P := (kv0 :: rest).map
    (fun kv => (pyQuotePlus kv.1).data ++ '=' :: (pyQuotePlus kv.2).data) with hP
  have hPne : ∀ part ∈ P, part ≠ [] := by
    intro part hpart
    rw [hP, List.mem_map] at hpart
    obtain ⟨kv, _, hkv⟩ := hpart
    exact hkv ▸ enc_pair_ne_nil kv
  have hPamp : ∀ part ∈ P, ∀ ch ∈ part, ch ≠ '&' := by
    intro part hpart
    rw [hP, List.mem_map] at hpart
    obtain ⟨kv, _, hkv⟩ := hpart
    exact hkv ▸ enc_pair_no_amp kv
  have hqs : ¬ (⟨joinChar '&' P⟩ : String) = "" := by
    intro he
    have hd : joinChar '&' P = [] := congrArg String.data he
    rw [hP, List.map_cons] at hd
    exact joinChar_cons_ne_nil '&' _ _ (enc_pair_ne_nil kv0) hd
  show parse_qsl ⟨joinChar '&' P⟩ = kv0 :: rest
  unfold parse_qsl
  rw [if_neg hqs]
  have hdata : (⟨joinChar '&' P⟩ : String).data = joinChar '&' P := rfl
  rw [hdata, splitAllChar_joinChar '&' P (by rw [hP]; simp) hPamp]
  rw [List.filter_eq_self.mpr (fun part hpart => by simpa using hPne part hpart)]
  rw [hP, List.map_map]
  rw [List.map_congr_left (g := id) (fun kv _ => by
    simp only [Function.comp_apply]
    rw [pySplitOnce_append '=' _ _
      (pyQuotePlus_ne kv.1 '=' (by decide) (by decide) (by decide))]
    show (pyUnquotePlus (pyQuotePlus kv.1), pyUnquotePlus (pyQuotePlus kv.2)) = kv
    rw [pyUnquotePlus_pyQuotePlus, pyUnquotePlus_pyQuotePlus])]
  exact List.map_id _

/-! ## Kept-parameter second-pass lemmas -/

theorem dictUpsert_mem_strong (m : List (String × String)) (k v : String)
    (hm : ∀ kv ∈ m, kv.1 ∈ WHITELIST ∧ kv.2 ≠ "" ∧ pyStrip kv.2 = kv.2)
    (hk : k ∈ WHITELIST) (hv : v ≠ "") (hsv : pyStrip v = v) :
    ∀ kv ∈ dictUpsert m k v, kv.1 ∈ WHITELIST ∧ kv.2 ≠ "" ∧ pyStrip kv.2 = kv.2 := by
  intro kv hkv
  unfold dictUpsert at hkv
  split at hkv
  · obtain ⟨kv', hkv', heq⟩ := List.mem_map.mp hkv
    by_cases he : kv'.1 = k
    · rw [if_pos he] at heq
      exact heq ▸ ⟨hk, hv, hsv⟩
    · rw [if_neg he] at heq
      exact heq ▸ hm kv' hkv'
  · rcases List.mem_append.mp hkv with h | h
    · exact hm kv h
    · simp only [List.mem_singleton] at h
      exact h ▸ ⟨hk, hv, hsv⟩

theorem buildKeep_go_mem_strong (q : List (String × String)) :
    ∀ m, (∀ kv ∈ m, kv.1 ∈ WHITELIST ∧ kv.2 ≠ "" ∧ pyStrip kv.2 = kv.2) →
    ∀ kv ∈ q.foldl
      (fun m kv => if WHITELIST.contains kv.1 ∧ pyStrip kv.2 ≠ ""
        then dictUpsert m kv.1 (pyStrip kv.2) else m) m,
      kv.1 ∈ WHITELIST ∧ kv.2 ≠ "" ∧ pyStrip kv.2 = kv.2 := by
  induction q with
  | nil => exact fun m hm => hm
  | cons p q ih =>
    intro m hm
    simp only [List.foldl_cons]
    split
    · rename_i hcond
      exact ih _ (dictUpsert_mem_strong m p.1 (pyStrip p.2) hm (by simpa using hcond.1)
        hcond.2 (pyStrip_idem p.2))
    · exact ih _ hm

theorem buildKeep_mem_strong (q : List (String × String)) :
    ∀ kv ∈ buildKeep q, kv.1 ∈ WHITELIST ∧ kv.2 ≠ "" ∧ pyStrip kv.2 = kv.2 :=
  buildKeep_go_mem_strong q [] (by simp)

theorem dictUpsert_keys (m : List (String × String)) (k v : String) :
    (dictUpsert m k v).map Prod.fst = m.map Prod.fst
      ∨ (dictUpsert m k v).map Prod.fst = m.map Prod.fst ++ [k] := by
  unfold dictUpsert
  split
  · left
    rw [List.map_map]
    apply List.map_congr_left
    intro kv _
    simp only [Function.comp_apply]
    split
    · rename_i he
      exact he.symm
    · rfl
  · right
    simp

theorem dictUpsert_keys_nodup (m : List (String × String)) (k v : String)
    (hnd : (m.map Prod.fst).Nodup) : ((dictUpsert m k v).map Prod.fst).Nodup := by
  rcases dictUpsert_keys m k v with h | h
  · rw [h]
    exact hnd
  · rw [h]
    have hki : k ∉ m.map Prod.fst := by
      unfold dictUpsert at h
      split at h
      · rename_i hc
        have := congrArg List.length h
        simp at this
      · rename_i hc
        simpa using hc
    simp only [List.nodup_append, List.nodup_singleton]
    exact ⟨hnd, trivial, by
      intro a ha hb
      simp only [List.mem_singleton] at hb
      exact hki (hb ▸ ha)⟩

theorem buildKeep_go_nodup (q : List (String × String)) :
    ∀ m, (m.map Prod.fst).Nodup →
    ((q.foldl (fun m kv => if WHITELIST.contains kv.1 ∧ pyStrip kv.2 ≠ ""
        then dictUpsert m kv.1 (pyStrip kv.2) else m) m).map Prod.fst).Nodup := by
  induction q with
  | nil => exact fun m hm => hm
  | cons p q ih =>
    intro m hm
    simp only [List.foldl_cons]
    split
    · exact ih _ (dictUpsert_keys_nodup m p.1 (pyStrip p.2) hm)
    · exact ih _ hm

theorem buildKeep_nodup (q : List (String × String)) :
    ((buildKeep q).map Prod.fst).Nodup :=
  buildKeep_go_nodup q [] (by simp)

theorem scanCatKeys_stripped (fields : JObject) (ks : List String) (cat : String)
    (h : scanCatKeys fields ks = some cat) : cat ≠ "" ∧ pyStrip cat = cat := by
  induction ks with
  | nil => simp [scanCatKeys] at h
  | cons k ks ih =>
    simp only [scanCatKeys] at h
    split at h
    · split at h
      · rename_i hv
        simp only [Option.some.injEq] at h
        subst h
        exact ⟨hv, pyStrip_idem _⟩
      · exact ih h
    · exact ih h

theorem catFromParams_stripped (pv : Option String) (cat : String)
    (h : catFromParams pv = some cat) : cat ≠ "" ∧ pyStrip cat = cat := by
  unfold catFromParams at h
  split at h
  · split at h
    · split at h
      · exact scanCatKeys_stripped _ _ _ h
      · exact absurd h (by simp)
    · exact absurd h (by simp)
  · exact absurd h (by simp)

theorem keepWithFallback_mem (q : List (String × String)) :
    ∀ kv ∈ keepWithFallback q, kv.1 ∈ WHITELIST ∧ kv.2 ≠ "" ∧ pyStrip kv.2 = kv.2 := by
  cases hcat : catFromParams (lookupLast q "params") with
  | none =>
    rw [keepWithFallback_nofallback q hcat]
    exact buildKeep_mem_strong q
  | some cat =>
    by_cases hc : ∀ k ∈ WHITELIST, k ∉ (buildKeep q).map Prod.fst
    · rw [keepWithFallback_inject q cat hcat hc]
      intro kv hkv
      rcases List.mem_append.mp hkv with h | h
      · exact buildKeep_mem_strong q kv h
      · simp only [List.mem_singleton] at h
        have hstr := catFromParams_stripped _ _ hcat
        subst h
        exact ⟨show ("categoryId" : String) ∈ WHITELIST by decide, hstr.1, hstr.2⟩
    · push_neg at hc
      obtain ⟨k, hk1, hk2⟩ := hc
      rw [keepWithFallback_kept q ⟨k, hk1, not_not.mp (by simpa using hk2)⟩]
      exact buildKeep_mem_strong q

theorem keepWithFallback_nodup (q : List (String × String)) :
    ((keepWithFallback q).map Prod.fst).Nodup := by
  cases hcat : catFromParams (lookupLast q "params") with
  | none =>
    rw [keepWithFallback_nofallback q hcat]
    exact buildKeep_nodup q
  | some cat =>
    by_cases hc : ∀ k ∈ WHITELIST, k ∉ (buildKeep q).map Prod.fst
    · rw [keepWithFallback_inject q cat hcat hc]
      simp only [List.map_append, List.map_cons, List.map_nil, List.nodup_append,
        List.nodup_singleton]
      refine ⟨buildKeep_nodup q, trivial, ?_⟩
      intro a ha hb
      simp only [List.mem_singleton] at hb
      subst hb
      exact hc "categoryId" (by decide) ha
    · push_neg at hc
      obtain ⟨k, hk1, hk2⟩ := hc
      rw [keepWithFallback_kept q ⟨k, hk1, not_not.mp (by simpa using hk2)⟩]
      exact buildKeep_nodup q

/-! ## sortPairs lemmas -/

theorem insertPairSorted_perm (p : String × String) (l : List (String × String)) :
    (insertPairSorted p l).Perm (p :: l) := by
  induction l with
  | nil => exact List.Perm.refl _
  | cons q qs ih =>
    unfold insertPairSorted
    split
    · exact List.Perm.refl _
    · exact (List.Perm.cons q ih).trans (List.Perm.swap p q qs)

theorem sortPairs_perm (l : List (String × String)) : (sortPairs l).Perm l := by
  induction l with
  | nil => exact List.Perm.refl _
  | cons p t ih =>
    show (insertPairSorted p (sortPairs t)).Perm (p :: t)
    exact (insertPairSorted_perm p (sortPairs t)).trans (List.Perm.cons p ih)

theorem pairLE_total (a b : String × String) (h : ¬ pairLE a b) : pairLE b a := by
  unfold pairLE at h ⊢
  rcases lt_trichotomy a.1 b.1 with h1 | h1 | h1
  · exact absurd (Or.inl h1) h
  · exact absurd (Or.inr h1) h
  · exact Or.inl h1

theorem pairLE_trans (a b c : String × String) (h1 : pairLE a b) (h2 : pairLE b c) :
    pairLE a c := by
  unfold pairLE at h1 h2 ⊢
  rcases h1 with h1 | h1 <;> rcases h2 with h2 | h2
  · exact Or.inl (h1.trans h2)
  · exact Or.inl (h2 ▸ h1)
  · exact Or.inl (h1 ▸ h2)
  · exact Or.inr (h1.trans h2)

theorem insertPairSorted_sorted (p : String × String) (l : List (String × String))
    (hl : l.Pairwise pairLE) : (insertPairSorted p l).Pairwise pairLE := by
  induction l with
  | nil => simp [insertPairSorted]
  | cons q qs ih =>
    unfold insertPairSorted
    rw [List.pairwise_cons] at hl
    split
    · rename_i hle
      rw [List.pairwise_cons]
      refine ⟨?_, List.pairwise_cons.mpr hl⟩
      intro b hb
      rcases List.mem_cons.mp hb with h | h
      · exact h ▸ hle
      · exact pairLE_trans p q b hle (hl.1 b h)
    · rename_i hle
      rw [List.pairwise_cons]
      refine ⟨?_, ih hl.2⟩
      intro b hb
      have hb' := (insertPairSorted_perm p qs).mem_iff.mp hb
      rcases List.mem_cons.mp hb' with h | h
      · exact h ▸ pairLE_total p q hle
      · exact hl.1 b h

theorem sortPairs_sorted (l : List (String × String)) : (sortPairs l).Pairwise pairLE := by
  induction l with
  | nil => simp [sortPairs]
  | cons p t ih => exact insertPairSorted_sorted p (sortPairs t) ih

theorem sortPairs_of_sorted (l : List (String × String)) (hl : l.Pairwise pairLE) :
    sortPairs l = l := by
  induction l with
  | nil => rfl
  | cons p t ih =>
    rw [List.pairwise_cons] at hl
    show insertPairSorted p (sortPairs t) = p :: t
    rw [ih hl.2]
    cases t with
    | nil => rfl
    | cons q qs =>
      unfold insertPairSorted
      rw [if_pos (show p.1 < q.1 ∨ p.1 = q.1 from hl.1 q (by simp))]

theorem sortPairs_idem (l : List (String × String)) : sortPairs (sortPairs l) = sortPairs l :=
  sortPairs_of_sorted _ (sortPairs_sorted l)

theorem sortPairs_ne_nil (l : List (String × String)) (h : l ≠ []) : sortPairs l ≠ [] := by
  intro he
  have := (sortPairs_perm l).length_eq
  rw [he] at this
  cases l with
  | nil => exact h rfl
  | cons a t => simp at this

theorem lookupLast_not_mem (l : List (String × String)) (k : String)
    (h : ∀ kv ∈ l, kv.1 ≠ k) : lookupLast l k = none := by
  unfold lookupLast
  rw [List.find?_eq_none.mpr]
  · rfl
  · intro kv hkv
    simp only [decide_eq_true_eq]
    exact h kv (List.mem_reverse.mp hkv)

theorem buildKeep_go_canonical (m : List (String × String)) :
    ∀ acc, (∀ kv ∈ m, kv.1 ∈ WHITELIST ∧ kv.2 ≠ "" ∧ pyStrip kv.2 = kv.2) →
    (m.map Prod.fst).Nodup →
    (∀ k ∈ m.map Prod.fst, k ∉ acc.map Prod.fst) →
    m.foldl (fun a kv => if WHITELIST.contains kv.1 ∧ pyStrip kv.2 ≠ ""
      then dictUpsert a kv.1 (pyStrip kv.2) else a) acc = acc ++ m := by
  induction m with
  | nil => simp
  | cons p t ih =>
    intro acc hmem hnd hdisj
    have hp := hmem p (by simp)
    simp only [List.foldl_cons]
    rw [if_pos ⟨by simpa using hp.1, by rw [hp.2.2]; exact hp.2.1⟩]
    have hupd : dictUpsert acc p.1 (pyStrip p.2) = acc ++ [p] := by
      unfold dictUpsert
      rw [if_neg (by simpa using hdisj p.1 (by simp))]
      rw [hp.2.2]
    rw [hupd]
    rw [List.map_cons, List.nodup_cons] at hnd
    rw [ih (acc ++ [p]) (fun kv hkv => hmem kv (by simp [hkv])) hnd.2 (fun k hk => by
      simp only [List.map_append, List.mem_append, List.map_cons, List.map_nil,
        List.mem_singleton]
      rintro (h | h)
      · exact hdisj k (by simp [hk]) h
      · exact hnd.1 (h ▸ hk))]
    simp

theorem buildKeep_canonical (m : List (String × String))
    (hmem : ∀ kv ∈ m, kv.1 ∈ WHITELIST ∧ kv.2 ≠ "" ∧ pyStrip kv.2 = kv.2)
    (hnd : (m.map Prod.fst).Nodup) : buildKeep m = m := by
  unfold buildKeep
  rw [buildKeep_go_canonical m [] hmem hnd (by simp)]
  rfl

theorem wl_ne_params (k : String) (h : k ∈ WHITELIST) : k ≠ "params" := by
  rcases (by simpa [WHITELIST] using h : k = "categoryId" ∨ k = "catId" ∨ k = "catIdLv1"
    ∨ k = "cat") with rfl | rfl | rfl | rfl <;> decide

theorem keep_second_pass (q : List (String × String)) :
    keepWithFallback (sortPairs (keepWithFallback q)) = sortPairs (keepWithFallback q) := by
  set K := keepWithFallback q with hK
  have hmemK : ∀ kv ∈ sortPairs K, kv.1 ∈ WHITELIST ∧ kv.2 ≠ "" ∧ pyStrip kv.2 = kv.2 :=
    fun kv hkv => keepWithFallback_mem q kv ((sortPairs_perm K).mem_iff.mp hkv)
  have hndK : ((sortPairs K).map Prod.fst).Nodup := by
    have := (sortPairs_perm K).map Prod.fst
    exact this.nodup_iff.mpr (keepWithFallback_nodup q)
  have hnp : catFromParams (lookupLast (sortPairs K) "params") = none := by
    rw [lookupLast_not_mem _ _ (fun kv hkv => wl_ne_params kv.1 (hmemK kv hkv).1)]
    rfl
  rw [keepWithFallback_nofallback _ hnp, buildKeep_canonical _ hmemK hndK]

/-! ## urlsplit evaluation lemmas -/

theorem removeUnsafe_eq_self (l : List Char)
    (h : ∀ ch ∈ l, ¬ (ch = '\t' ∨ ch = '\r' ∨ ch = '\n')) : removeUnsafe l = l := by
  unfold removeUnsafe
  rw [List.filter_eq_self.mpr]
  intro a ha
  simpa using h a ha

theorem removeUnsafe_subset (l : List Char) : ∀ ch ∈ removeUnsafe l, ch ∈ l :=
  fun _ h => List.mem_of_mem_filter h

theorem removeUnsafe_clean (l : List Char) :
    ∀ ch ∈ removeUnsafe l, ¬ (ch = '\t' ∨ ch = '\r' ∨ ch = '\n') := by
  intro ch hch
  have := List.of_mem_filter hch
  simpa using this

theorem take_one_append (S x : List Char) (h : S ≠ []) : (S ++ x).take 1 = S.take 1 := by
  cases S with
  | nil => exact absurd rfl h
  | cons c cs => simp

theorem drop_len_succ_append (S rest : List Char) :
    (S ++ ':' :: rest).drop (S.length + 1) = rest := by
  rw [show (S ++ ':' :: rest) = (S ++ [':']) ++ rest by simp,
    show S.length + 1 = (S ++ [':']).length by simp]
  exact List.drop_left _ _

theorem urlsplit_scheme_rest (S rest ds : List Char)
    (hS : S ≠ []) (hSa : (S.take 1).all isAsciiAlpha = true)
    (hSc : S.all SCHEME_CHARS = true) (hSlow : S.map asciiLowerChar = S)
    (hclean : ∀ ch ∈ S ++ ':' :: rest, ¬ (ch = '\t' ∨ ch = '\r' ∨ ch = '\n')) :
    urlsplit (S ++ ':' :: rest) ds =
      ⟨S,
       (if rest.take 2 = ['/', '/']
          then (rest.drop 2).takeWhile (fun c => ¬ netlocDelim c) else []),
       (pySplitOnce '?' (pySplitOnce '#'
          (if rest.take 2 = ['/', '/']
            then (rest.drop 2).dropWhile (fun c => ¬ netlocDelim c) else rest)).1).1,
       (pySplitOnce '?' (pySplitOnce '#'
          (if rest.take 2 = ['/', '/']
            then (rest.drop 2).dropWhile (fun c => ¬ netlocDelim c) else rest)).1).2.getD [],
       (pySplitOnce '#'
          (if rest.take 2 = ['/', '/']
            then (rest.drop 2).dropWhile (fun c => ¬ netlocDelim c) else rest)).2.getD []⟩ := by
  obtain ⟨s0, S', rfl⟩ : ∃ s0 S', S = s0 :: S' := by
    cases S with
    | nil => exact absurd rfl hS
    | cons a t => exact ⟨a, t, rfl⟩
  have hs0a : isAsciiAlpha s0 = true := by simpa using hSa
  have hdw : ((s0 :: S') ++ ':' :: rest).dropWhile isC0OrSpace = (s0 :: S') ++ ':' :: rest := by
    apply dropWhile_eq_self_of_head
    intro c hc
    simp only [List.cons_append, List.head?_cons, Option.some.injEq] at hc
    exact hc ▸ alpha_not_c0 s0 hs0a
  have hru : removeUnsafe ((s0 :: S') ++ ':' :: rest) = (s0 :: S') ++ ':' :: rest :=
    removeUnsafe_eq_self _ hclean
  have hfi : pyFindIdx ':' ((s0 :: S') ++ ':' :: rest) = some (s0 :: S').length := by
    apply pyFindIdx_append_not_mem
    intro ch hch
    exact scheme_char_ne_colon ch (by
      rw [List.all_eq_true] at hSc
      exact hSc ch hch)
  have hcond : 0 < (s0 :: S').length
      ∧ (((s0 :: S') ++ ':' :: rest).take 1).all isAsciiAlpha = true
      ∧ (((s0 :: S') ++ ':' :: rest).take (s0 :: S').length).all SCHEME_CHARS = true := by
    refine ⟨by simp, ?_, ?_⟩
    · rw [take_one_append _ _ (by simp)]
      exact hSa
    · rw [List.take_left]
      exact hSc
  show urlsplit _ ds = _
  simp only [urlsplit]
  rw [hdw, hru, hfi]
  simp only []
  rw [if_pos hcond, List.take_left, hSlow, drop_len_succ_append]
  simp only [Prod.fst, Prod.snd]
  split <;> rfl

theorem urlunsplit_canonical_eval (S H P Q : List Char) (hS : S ≠ []) (hPne : P ≠ [])
    (hP2 : P.take 2 ≠ ['/', '/']) :
    urlunsplit ⟨S, H, P, Q, []⟩
      = S ++ ':' :: ((if H ≠ [] ∨ uses_netloc.contains ⟨S⟩ = true
          then '/' :: '/' :: (H ++ (if P.take 1 = ['/'] then P else '/' :: P))
          else P)
        ++ (if Q ≠ [] then '?' :: Q else [])) := by
  simp only [urlunsplit]
  rw [if_neg (show ¬ ([] : List Char) ≠ [] by simp)]
  have hfix : (if P ≠ [] ∧ P.take 1 ≠ ['/'] then '/' :: P else P)
      = (if P.take 1 = ['/'] then P else '/' :: P) := by
    by_cases hp1 : P.take 1 = ['/']
    · rw [if_neg (show ¬ (P ≠ [] ∧ P.take 1 ≠ ['/']) by tauto), if_pos hp1]
    · rw [if_pos (show P ≠ [] ∧ P.take 1 ≠ ['/'] from ⟨hPne, hp1⟩), if_neg hp1]
  rw [hfix]
  by_cases hc : H ≠ [] ∨ uses_netloc.contains ⟨S⟩ = true
  · rw [if_pos (show H ≠ [] ∨ (S ≠ [] ∧ uses_netloc.contains ⟨S⟩ = true
        ∧ P.take 2 ≠ ['/', '/']) by tauto),
      if_pos (show S ≠ [] from hS), if_pos hc]
    by_cases hQ : Q ≠ []
    · rw [if_pos (show Q ≠ [] from hQ)]
      simp [hQ, List.append_assoc]
    · have hQnil : Q = [] := by
        rcases Q with _ | ⟨q0, qt⟩
        · rfl
        · exact absurd (by simp) hQ
      rw [if_neg (show ¬ Q ≠ [] from hQ)]
      simp [hQnil, List.append_assoc]
  · rw [if_neg (show ¬ (H ≠ [] ∨ (S ≠ [] ∧ uses_netloc.contains ⟨S⟩ = true
        ∧ P.take 2 ≠ ['/', '/'])) by tauto),
      if_neg (show ¬ (H ≠ [] ∨ uses_netloc.contains ⟨S⟩ = true) from hc),
      if_pos (show S ≠ [] from hS)]
    by_cases hQ : Q ≠ []
    · rw [if_pos (show Q ≠ [] from hQ)]
      simp [hQ, List.append_assoc]
    · have hQnil : Q = [] := by
        rcases Q with _ | ⟨q0, qt⟩
        · rfl
        · exact absurd (by simp) hQ
      rw [if_neg (show ¬ Q ≠ [] from hQ)]
      simp [hQnil, List.append_assoc]

theorem take_two_append_ne (P qp : List Char) (hne : P ≠ []) (h2 : P.take 2 ≠ ['/', '/'])
    (hq : qp = [] ∨ ∃ t, qp = '?' :: t) : (P ++ qp).take 2 ≠ ['/', '/'] := by
  match P, hne with
  | [a], _ =>
    rcases hq with rfl | ⟨t, rfl⟩
    · simpa using h2
    · simp only [List.cons_append, List.nil_append]
      intro he
      simp at he
  | a :: b :: t', _ =>
    simpa using h2

theorem urlsplit_canonical (S H P Q ds : List Char)
    (hS : S ≠ [])
    (hSa : (S.take 1).all isAsciiAlpha = true)
    (hSc : S.all SCHEME_CHARS = true)
    (hSlow : S.map asciiLowerChar = S)
    (hH : ∀ ch ∈ H, ¬ netlocDelim ch = true)
    (hHu : ∀ ch ∈ H, ¬ (ch = '\t' ∨ ch = '\r' ∨ ch = '\n'))
    (hPne : P ≠ [])
    (hPq : ∀ ch ∈ P, ch ≠ '?' ∧ ch ≠ '#')
    (hPu : ∀ ch ∈ P, ¬ (ch = '\t' ∨ ch = '\r' ∨ ch = '\n'))
    (hP2 : P.take 2 ≠ ['/', '/'])
    (hQh : ∀ ch ∈ Q, ch ≠ '#')
    (hQu : ∀ ch ∈ Q, ¬ (ch = '\t' ∨ ch = '\r' ∨ ch = '\n')) :
    urlsplit (urlunsplit ⟨S, H, P, Q, []⟩) ds
      = ⟨S, H,
         (if H ≠ [] ∨ uses_netloc.contains ⟨S⟩ = true
          then (if P.take 1 = ['/'] then P else '/' :: P) else P),
         Q, []⟩ := by
  rw [urlunsplit_canonical_eval S H P Q hS hPne hP2]
  set mid := (if H ≠ [] ∨ uses_netloc.contains ⟨S⟩ = true
    then '/' :: '/' :: (H ++ (if P.take 1 = ['/'] then P else '/' :: P))
    else P) with hmid
  set qp := (if Q ≠ [] then '?' :: Q else []) with hqp
  have hPp : ∀ ch ∈ (if P.take 1 = ['/'] then P else '/' :: P), ch = '/' ∨ ch ∈ P := by
    intro ch hch
    split at hch
    · exact Or.inr hch
    · rcases List.mem_cons.mp hch with h | h
      · exact Or.inl h
      · exact Or.inr h
  have hmid_mem : ∀ ch ∈ mid, ch = '/' ∨ ch ∈ H ∨ ch ∈ P := by
    intro ch hch
    rw [hmid] at hch
    split at hch
    · rcases List.mem_cons.mp hch with h | h
      · exact Or.inl h
      rcases List.mem_cons.mp h with h | h
      · exact Or.inl h
      rcases List.mem_append.mp h with h | h
      · exact Or.inr (Or.inl h)
      · rcases hPp ch h with h | h
        · exact Or.inl h
        · exact Or.inr (Or.inr h)
    · exact Or.inr (Or.inr hch)
  have hqp_mem : ∀ ch ∈ qp, ch = '?' ∨ ch ∈ Q := by
    intro ch hch
    rw [hqp] at hch
    split at hch
    · rcases List.mem_cons.mp hch with h | h
      · exact Or.inl h
      · exact Or.inr h
    · simp at hch
  have hclean : ∀ ch ∈ S ++ ':' :: (mid ++ qp), ¬ (ch = '\t' ∨ ch = '\r' ∨ ch = '\n') := by
    intro ch hch
    rcases List.mem_append.mp hch with h | h
    · exact scheme_char_not_unsafe ch (by
        rw [List.all_eq_true] at hSc
        exact hSc ch h)
    rcases List.mem_cons.mp h with h | h
    · subst h
      decide
    rcases List.mem_append.mp h with h | h
    · rcases hmid_mem ch h with h | h | h
      · subst h
        decide
      · exact hHu ch h
      · exact hPu ch h
    · rcases hqp_mem ch h with h | h
      · subst h
        decide
      · exact hQu ch h
  rw [urlsplit_scheme_rest S (mid ++ qp) ds hS hSa hSc hSlow hclean]
  have hqcase : qp = [] ∨ ∃ t, qp = '?' :: t := by
    rw [hqp]
    split
    · exact Or.inr ⟨Q, rfl⟩
    · exact Or.inl rfl
  by_cases hc : H ≠ [] ∨ uses_netloc.contains ⟨S⟩ = true
  · rw [hmid, if_pos hc]
    obtain ⟨P2, hP2eq⟩ : ∃ P2, (if P.take 1 = ['/'] then P else '/' :: P) = '/' :: P2 := by
      split
      · rename_i h1
        cases P with
        | nil => exact absurd rfl hPne
        | cons a t =>
          have ha : a = '/' := by simpa using h1
          exact ⟨t, by rw [ha]⟩
      · exact ⟨P, rfl⟩
    rw [hP2eq]
    rw [if_pos (show (('/' :: '/' :: (H ++ '/' :: P2)) ++ qp).take 2 = ['/', '/'] from rfl)]
    rw [if_pos (show (('/' :: '/' :: (H ++ '/' :: P2)) ++ qp).take 2 = ['/', '/'] from rfl)]
    have hdrop : (('/' :: '/' :: (H ++ '/' :: P2)) ++ qp).drop 2 = H ++ '/' :: (P2 ++ qp) := by
      simp
    rw [hdrop]
    have hpred : ∀ ch ∈ H, (fun c => decide (¬ netlocDelim c = true)) ch = true := by
      intro ch hch
      simpa using hH ch hch
    rw [takeWhile_append_all _ H _ hpred, dropWhile_append_all _ H _ hpred]
    rw [show List.takeWhile (fun c => decide (¬ netlocDelim c = true)) ('/' :: (P2 ++ qp))
      = [] from rfl]
    rw [show List.dropWhile (fun c => decide (¬ netlocDelim c = true)) ('/' :: (P2 ++ qp))
      = '/' :: (P2 ++ qp) from rfl]
    have hmemP2 : ∀ ch ∈ '/' :: P2, ch = '/' ∨ ch ∈ P := by
      intro ch hch
      rw [← hP2eq] at hch
      exact hPp ch hch
    have hmemP2' : ∀ ch ∈ '/' :: (P2 ++ qp), (ch = '/' ∨ ch ∈ P) ∨ (ch = '?' ∨ ch ∈ Q) := by
      intro ch hch
      rcases List.mem_cons.mp hch with h | h
      · exact Or.inl (Or.inl h)
      rcases List.mem_append.mp h with h | h
      · exact Or.inl (hmemP2 ch (by simp [h]))
      · exact Or.inr (hqp_mem ch h)
    rw [pySplitOnce_not_mem '#' ('/' :: (P2 ++ qp)) (by
      intro ch hch
      rcases hmemP2' ch hch with (h | h) | (h | h)
      · subst h; decide
      · exact (hPq ch h).2
      · subst h; decide
      · exact hQh ch h)]
    have hnoq : ∀ ch ∈ '/' :: P2, ch ≠ '?' := by
      intro ch hch
      rcases hmemP2 ch hch with h' | h'
      · subst h'
        decide
      · exact (hPq ch h').1
    by_cases hQ : Q ≠ []
    · rw [hqp, if_pos hQ]
      rw [show ('/' :: (P2 ++ '?' :: Q)) = ('/' :: P2) ++ '?' :: Q from rfl]
      rw [pySplitOnce_append '?' ('/' :: P2) Q hnoq]
      rw [if_pos hc]
      simp
    · have hQnil : Q = [] := by
        rcases Q with _ | ⟨q0, qt⟩
        · rfl
        · exact absurd (by simp) hQ
      rw [hqp, if_neg hQ, List.append_nil]
      rw [show ('/' :: (P2 ++ ([] : List Char))) = '/' :: P2 from by simp]
      rw [pySplitOnce_not_mem '?' ('/' :: P2) hnoq, hQnil]
      rw [if_pos hc]
      simp
  · have hHnil : H = [] := by
      rcases H with _ | ⟨h0, ht⟩
      · rfl
      · exact absurd (Or.inl (by simp)) hc
    rw [hmid, if_neg hc]
    rw [if_neg (take_two_append_ne P qp hPne hP2 hqcase)]
    rw [if_neg (take_two_append_ne P qp hPne hP2 hqcase)]
    rw [pySplitOnce_not_mem '#' (P ++ qp) (by
      intro ch hch
      rcases List.mem_append.mp hch with h | h
      · exact (hPq ch h).2
      · rcases hqp_mem ch h with h' | h'
        · subst h'
          decide
        · exact hQh ch h')]
    have hnoq : ∀ ch ∈ P, ch ≠ '?' := fun ch h => (hPq ch h).1
    by_cases hQ : Q ≠ []
    · rw [hqp, if_pos hQ]
      rw [pySplitOnce_append '?' P Q hnoq]
      rw [hHnil]
      have hc2 : ¬ ((⟨S⟩ : String) ∈ uses_netloc) := by
        have := not_or.mp hc
        simpa using this.2
      simp [hc2]
    · have hQnil : Q = [] := by
        rcases Q with _ | ⟨q0, qt⟩
        · rfl
        · exact absurd (by simp) hQ
      rw [hqp, if_neg hQ, List.append_nil, pySplitOnce_not_mem '?' P hnoq, hHnil, hQnil]
      have hc2 : ¬ ((⟨S⟩ : String) ∈ uses_netloc) := by
        have := not_or.mp hc
        simpa using this.2
      simp [hc2]

theorem urlparse_netloc (url ds : List Char) :
    (urlparse url ds).netloc = (urlsplit url ds).netloc := by
  simp only [urlparse]
  split <;> rfl

theorem urlparse_query (url ds : List Char) :
    (urlparse url ds).query = (urlsplit url ds).query := by
  simp only [urlparse]
  split <;> rfl

theorem urlparse_canonical (S H P Q ds : List Char)
    (hS : S ≠ [])
    (hSa : (S.take 1).all isAsciiAlpha = true)
    (hSc : S.all SCHEME_CHARS = true)
    (hSlow : S.map asciiLowerChar = S)
    (hH : ∀ ch ∈ H, ¬ netlocDelim ch = true)
    (hHu : ∀ ch ∈ H, ¬ (ch = '\t' ∨ ch = '\r' ∨ ch = '\n'))
    (hPne : P ≠ [])
    (hPq : ∀ ch ∈ P, ch ≠ '?' ∧ ch ≠ '#')
    (hPu : ∀ ch ∈ P, ¬ (ch = '\t' ∨ ch = '\r' ∨ ch = '\n'))
    (hP2 : P.take 2 ≠ ['/', '/'])
    (hQh : ∀ ch ∈ Q, ch ≠ '#')
    (hQu : ∀ ch ∈ Q, ¬ (ch = '\t' ∨ ch = '\r' ∨ ch = '\n'))
    (hPsemi : ∀ ch ∈ P, ch ≠ ';') :
    urlparse (urlunsplit ⟨S, H, P, Q, []⟩) ds
      = ⟨S, H,
         (if H ≠ [] ∨ uses_netloc.contains ⟨S⟩ = true
          then (if P.take 1 = ['/'] then P else '/' :: P) else P),
         [], Q, []⟩ := by
  simp only [urlparse]
  rw [urlsplit_canonical S H P Q ds hS hSa hSc hSlow hH hHu hPne hPq hPu hP2 hQh hQu]
  rw [if_neg]
  intro hcond
  have hmem : ';' ∈ (if H ≠ [] ∨ uses_netloc.contains ⟨S⟩ = true
      then (if P.take 1 = ['/'] then P else '/' :: P) else P) := by
    simpa using hcond.2
  have : (';' : Char) = '/' ∨ ';' ∈ P := by
    split at hmem
    · split at hmem
      · exact Or.inr hmem
      · rcases List.mem_cons.mp hmem with h | h
        · exact Or.inl h
        · exact Or.inr h
    · exact Or.inr hmem
  rcases this with h | h
  · simp at h
  · exact hPsemi ';' h rfl

/-! ## urlsplit output wellformedness -/

theorem pyFindIdx_ne_nil (c : Char) (i : Nat) (h : pyFindIdx c [] = some i) : False := by
  simp [pyFindIdx] at h

theorem urlsplit_scheme_wf (u : List Char) :
    (urlsplit u []).scheme = [] ∨
      ((urlsplit u []).scheme ≠ []
        ∧ ((urlsplit u []).scheme.take 1).all isAsciiAlpha = true
        ∧ (urlsplit u []).scheme.all SCHEME_CHARS = true
        ∧ (urlsplit u []).scheme.map asciiLowerChar = (urlsplit u []).scheme) := by
  simp only [urlsplit]
  split
  · rename_i i heq
    split
    · rename_i hcond
      right
      obtain ⟨c0, t, hct⟩ : ∃ c0 t, removeUnsafe (u.dropWhile isC0OrSpace) = c0 :: t := by
        cases hu : removeUnsafe (u.dropWhile isC0OrSpace) with
        | nil =>
          rw [hu] at heq
          exact absurd heq (by simp [pyFindIdx])
        | cons a b => exact ⟨a, b, rfl⟩
      obtain ⟨j, rfl⟩ : ∃ j, i = j + 1 := ⟨i - 1, by omega⟩
      have h1 : isAsciiAlpha c0 = true := by
        have h := hcond.2.1
        rw [hct] at h
        simpa using h
      have h2 : ∀ ch ∈ c0 :: t.take j, SCHEME_CHARS ch = true := by
        have h := hcond.2.2
        rw [hct, show (c0 :: t).take (j + 1) = c0 :: t.take j from rfl] at h
        rw [List.all_eq_true] at h
        exact h
      rw [hct, show (c0 :: t).take (j + 1) = c0 :: t.take j from rfl]
      refine ⟨by simp, ?_, ?_, map_asciiLower_idem _⟩
      · rw [show ((c0 :: t.take j).map asciiLowerChar).take 1 = [asciiLowerChar c0] from rfl]
        simpa using asciiLower_alpha_char c0 h1
      · rw [List.all_eq_true]
        intro ch hch
        rw [List.mem_map] at hch
        obtain ⟨ch', hch', rfl⟩ := hch
        exact asciiLower_scheme_char ch' (h2 ch' hch')
    · exact Or.inl rfl
  · exact Or.inl rfl

theorem rest_fields_subset (rest : List Char) :
    (∀ ch ∈ (if rest.take 2 = ['/', '/']
        then ((rest.drop 2).takeWhile (fun c => ¬ netlocDelim c),
              (rest.drop 2).dropWhile (fun c => ¬ netlocDelim c))
        else ([], rest)).1, ch ∈ rest)
    ∧ (∀ ch ∈ (pySplitOnce '?' (pySplitOnce '#'
        (if rest.take 2 = ['/', '/']
          then ((rest.drop 2).takeWhile (fun c => ¬ netlocDelim c),
                (rest.drop 2).dropWhile (fun c => ¬ netlocDelim c))
          else ([], rest)).2).1).1, ch ∈ rest)
    ∧ (∀ ch ∈ (pySplitOnce '?' (pySplitOnce '#'
        (if rest.take 2 = ['/', '/']
          then ((rest.drop 2).takeWhile (fun c => ¬ netlocDelim c),
                (rest.drop 2).dropWhile (fun c => ¬ netlocDelim c))
          else ([], rest)).2).1).2.getD [], ch ∈ rest) := by
  have hmid : ∀ ch ∈ (if rest.take 2 = ['/', '/']
      then ((rest.drop 2).takeWhile (fun c => ¬ netlocDelim c),
            (rest.drop 2).dropWhile (fun c => ¬ netlocDelim c))
      else ([], rest)).2, ch ∈ rest := by
    intro ch hch
    split at hch
    · exact List.drop_subset 2 rest ((List.dropWhile_suffix _).subset hch)
    · exact hch
  refine ⟨?_, ?_, ?_⟩
  · intro ch hch
    split at hch
    · exact List.drop_subset 2 rest ((List.takeWhile_prefix _).subset hch)
    · exact absurd (show ch ∈ ([] : List Char) from hch) (by simp)
  · intro ch hch
    exact hmid ch (pySplitOnce_fst_subset '#' _ ch (pySplitOnce_fst_subset '?' _ ch hch))
  · intro ch hch
    exact hmid ch (pySplitOnce_fst_subset '#' _ ch (pySplitOnce_snd_subset '?' _ ch hch))

theorem urlsplit_shape (u ds : List Char) :
    ∃ rest,
      ((urlsplit u ds).netloc = (if rest.take 2 = ['/', '/']
          then ((rest.drop 2).takeWhile (fun c => ¬ netlocDelim c),
                (rest.drop 2).dropWhile (fun c => ¬ netlocDelim c))
          else ([], rest)).1)
      ∧ ((urlsplit u ds).path = (pySplitOnce '?' (pySplitOnce '#'
          (if rest.take 2 = ['/', '/']
            then ((rest.drop 2).takeWhile (fun c => ¬ netlocDelim c),
                  (rest.drop 2).dropWhile (fun c => ¬ netlocDelim c))
            else ([], rest)).2).1).1)
      ∧ ((urlsplit u ds).query = (pySplitOnce '?' (pySplitOnce '#'
          (if rest.take 2 = ['/', '/']
            then ((rest.drop 2).takeWhile (fun c => ¬ netlocDelim c),
                  (rest.drop 2).dropWhile (fun c => ¬ netlocDelim c))
            else ([], rest)).2).1).2.getD [])
      ∧ (∀ ch ∈ rest, ch ∈ removeUnsafe (u.dropWhile isC0OrSpace)) := by
  simp only [urlsplit]
  refine ⟨(match pyFindIdx ':' (removeUnsafe (u.dropWhile isC0OrSpace)) with
    | some i =>
      if 0 < i ∧ ((removeUnsafe (u.dropWhile isC0OrSpace)).take 1).all isAsciiAlpha = true
          ∧ ((removeUnsafe (u.dropWhile isC0OrSpace)).take i).all SCHEME_CHARS = true then
        (((removeUnsafe (u.dropWhile isC0OrSpace)).take i).map asciiLowerChar,
         (removeUnsafe (u.dropWhile isC0OrSpace)).drop (i + 1))
      else (removeUnsafe ((ds.dropWhile isC0OrSpace).reverse.dropWhile isC0OrSpace).reverse,
            removeUnsafe (u.dropWhile isC0OrSpace))
    | none => (removeUnsafe ((ds.dropWhile isC0OrSpace).reverse.dropWhile isC0OrSpace).reverse,
               removeUnsafe (u.dropWhile isC0OrSpace))).2, rfl, rfl, rfl, ?_⟩
  intro ch hch
  split at hch
  · split at hch
    · exact List.drop_subset _ _ hch
    · exact hch
  · exact hch

theorem urlsplit_fields_subset (u ds : List Char) :
    (∀ ch ∈ (urlsplit u ds).netloc, ch ∈ removeUnsafe (u.dropWhile isC0OrSpace))
      ∧ (∀ ch ∈ (urlsplit u ds).path, ch ∈ removeUnsafe (u.dropWhile isC0OrSpace))
      ∧ (∀ ch ∈ (urlsplit u ds).query, ch ∈ removeUnsafe (u.dropWhile isC0OrSpace)) := by
  obtain ⟨rest, hnet, hpath, hq, hsub⟩ := urlsplit_shape u ds
  have h := rest_fields_subset rest
  rw [hnet, hpath, hq]
  exact ⟨fun ch hch => hsub ch (h.1 ch hch),
    fun ch hch => hsub ch (h.2.1 ch hch),
    fun ch hch => hsub ch (h.2.2 ch hch)⟩

theorem urlsplit_fields_clean (u ds : List Char) :
    (∀ ch ∈ (urlsplit u ds).netloc, ¬ (ch = '\t' ∨ ch = '\r' ∨ ch = '\n'))
      ∧ (∀ ch ∈ (urlsplit u ds).path, ¬ (ch = '\t' ∨ ch = '\r' ∨ ch = '\n'))
      ∧ (∀ ch ∈ (urlsplit u ds).query, ¬ (ch = '\t' ∨ ch = '\r' ∨ ch = '\n')) := by
  obtain ⟨h1, h2, h3⟩ := urlsplit_fields_subset u ds
  exact ⟨fun ch hch => removeUnsafe_clean _ ch (h1 ch hch),
    fun ch hch => removeUnsafe_clean _ ch (h2 ch hch),
    fun ch hch => removeUnsafe_clean _ ch (h3 ch hch)⟩

theorem urlsplit_netloc_nodelim (u ds : List Char) :
    ∀ ch ∈ (urlsplit u ds).netloc, ¬ netlocDelim ch = true := by
  obtain ⟨rest, hnet, _, _, _⟩ := urlsplit_shape u ds
  rw [hnet]
  intro ch hch
  split at hch
  · have := List.mem_takeWhile_imp (show ch ∈ (rest.drop 2).takeWhile
      (fun c => ¬ netlocDelim c) from hch)
    simpa using this
  · exact absurd (show ch ∈ ([] : List Char) from hch) (by simp)

theorem urlsplit_path_no_qf (u ds : List Char) :
    ∀ ch ∈ (urlsplit u ds).path, ch ≠ '?' ∧ ch ≠ '#' := by
  obtain ⟨rest, _, hpath, _, _⟩ := urlsplit_shape u ds
  rw [hpath]
  intro ch hch
  exact ⟨pySplitOnce_fst_not_sep '?' _ ch hch,
    pySplitOnce_fst_not_sep '#' _ ch (pySplitOnce_fst_subset '?' _ ch hch)⟩

theorem urlsplit_query_no_f (u ds : List Char) :
    ∀ ch ∈ (urlsplit u ds).query, ch ≠ '#' := by
  obtain ⟨rest, _, _, hq, _⟩ := urlsplit_shape u ds
  rw [hq]
  intro ch hch
  exact pySplitOnce_fst_not_sep '#' _ ch (pySplitOnce_snd_subset '?' _ ch hch)

theorem urlsplit_fragment_shape (u ds : List Char) :
    ∃ rest,
      ((urlsplit u ds).fragment = (pySplitOnce '#'
          (if rest.take 2 = ['/', '/']
            then ((rest.drop 2).takeWhile (fun c => ¬ netlocDelim c),
                  (rest.drop 2).dropWhile (fun c => ¬ netlocDelim c))
            else ([], rest)).2).2.getD [])
      ∧ (∀ ch ∈ rest, ch ∈ removeUnsafe (u.dropWhile isC0OrSpace)) := by
  simp only [urlsplit]
  refine ⟨(match pyFindIdx ':' (removeUnsafe (u.dropWhile isC0OrSpace)) with
    | some i =>
      if 0 < i ∧ ((removeUnsafe (u.dropWhile isC0OrSpace)).take 1).all isAsciiAlpha = true
          ∧ ((removeUnsafe (u.dropWhile isC0OrSpace)).take i).all SCHEME_CHARS = true then
        (((removeUnsafe (u.dropWhile isC0OrSpace)).take i).map asciiLowerChar,
         (removeUnsafe (u.dropWhile isC0OrSpace)).drop (i + 1))
      else (removeUnsafe ((ds.dropWhile isC0OrSpace).reverse.dropWhile isC0OrSpace).reverse,
            removeUnsafe (u.dropWhile isC0OrSpace))
    | none => (removeUnsafe ((ds.dropWhile isC0OrSpace).reverse.dropWhile isC0OrSpace).reverse,
               removeUnsafe (u.dropWhile isC0OrSpace))).2, rfl, ?_⟩
  intro ch hch
  split at hch
  · split at hch
    · exact List.drop_subset _ _ hch
    · exact hch
  · exact hch

theorem urlsplit_fragment_clean (u ds : List Char) :
    ∀ ch ∈ (urlsplit u ds).fragment, ¬ (ch = '\t' ∨ ch = '\r' ∨ ch = '\n') := by
  obtain ⟨rest, hf, hsub⟩ := urlsplit_fragment_shape u ds
  rw [hf]
  intro ch hch
  have hmid : ∀ c ∈ (if rest.take 2 = ['/', '/']
      then ((rest.drop 2).takeWhile (fun c => ¬ netlocDelim c),
            (rest.drop 2).dropWhile (fun c => ¬ netlocDelim c))
      else ([], rest)).2, c ∈ rest := by
    intro c hc
    split at hc
    · exact List.drop_subset 2 rest ((List.dropWhile_suffix _).subset hc)
    · exact hc
  exact removeUnsafe_clean _ ch
    (hsub ch (hmid ch (pySplitOnce_snd_subset '#' _ ch hch)))

theorem urlparse_fragment (url ds : List Char) :
    (urlparse url ds).fragment = (urlsplit url ds).fragment := by
  simp only [urlparse]
  split <;> rfl

/-! ## resolveDots / filterMiddle / path lemmas -/

theorem getLastD_mem {α} (l : List α) (d : α) (h : l ≠ []) : l.getLastD d ∈ l := by
  induction l generalizing d with
  | nil => exact absurd rfl h
  | cons a t ih =>
    rw [List.getLastD_cons]
    cases t with
    | nil => simp [List.getLastD]
    | cons b u => exact List.mem_cons_of_mem a (ih a (by simp))

theorem getLastD_default_irrel (l : List Char) (a b : Char) (h : l ≠ []) :
    l.getLastD a = l.getLastD b := by
  induction l generalizing a b with
  | nil => exact absurd rfl h
  | cons c t ih =>
    rw [List.getLastD_cons, List.getLastD_cons]

theorem resolveDots_foldl (segs : List (List Char))
    (h : ∀ s ∈ segs, s ≠ ['.'] ∧ s ≠ ['.', '.']) :
    ∀ acc, segs.foldl
      (fun acc seg => if seg = ['.', '.'] then acc.dropLast
        else if seg = ['.'] then acc else acc ++ [seg]) acc = acc ++ segs := by
  induction segs with
  | nil => simp
  | cons s t ih =>
    intro acc
    have hs := h s (by simp)
    simp only [List.foldl_cons, if_neg hs.2, if_neg hs.1]
    rw [ih (fun x hx => h x (by simp [hx])) (acc ++ [s])]
    simp

theorem resolveDots_id (segs : List (List Char))
    (h : ∀ s ∈ segs, s ≠ ['.'] ∧ s ≠ ['.', '.']) : resolveDots segs = segs := by
  unfold resolveDots
  rw [resolveDots_foldl segs h []]
  rw [if_neg]
  · rfl
  rcases hsegs : segs with _ | ⟨s0, t⟩
  · simp
  · rintro (he | he)
    · exact (h _ (by rw [hsegs]; exact getLastD_mem _ [] (by simp))).1 he
    · exact (h _ (by rw [hsegs]; exact getLastD_mem _ [] (by simp))).2 he

theorem noDD_take2 (l : List Char) (h : noDD l = true) : l.take 2 ≠ ['/', '/'] := by
  intro he
  match l, h, he with
  | c1 :: c2 :: t, h, he =>
    have h1 : c1 = '/' := by simpa using congrArg (fun x => x.headD ' ') he
    have h2 : c2 = '/' := by
      simpa using congrArg (fun x => (x.drop 1).headD ' ') he
    subst h1
    subst h2
    simp [noDD] at h

theorem generic_starts (P : List Char) (h : generic_paths.contains ⟨P⟩ = true) :
    P.take 1 = ['/'] := by
  have hmem : (⟨P⟩ : String) ∈ generic_paths := by simpa using h
  simp only [generic_paths, List.mem_cons, List.not_mem_nil, or_false] at hmem
  rcases hmem with he | he | he | he <;>
    · have := congrArg String.data he
      simp only at this
      rw [this]
      rfl

theorem pySplitOnce_cons_ne (sep c : Char) (t : List Char) (h : ¬ c = sep) :
    pySplitOnce sep (c :: t) = (c :: (pySplitOnce sep t).1, (pySplitOnce sep t).2) := by
  simp only [pySplitOnce, if_neg h]

theorem urlsplit_netloc_path (u ds : List Char) (h : (urlsplit u ds).netloc ≠ []) :
    (urlsplit u ds).path = [] ∨ (urlsplit u ds).path.take 1 = ['/'] := by
  obtain ⟨rest, hnet, hpath, _, _⟩ := urlsplit_shape u ds
  rw [hnet] at h
  rw [hpath]
  split at h
  · rename_i hc2
    rw [if_pos hc2]
    cases hD : (rest.drop 2).dropWhile (fun c => ¬ netlocDelim c) with
    | nil => simp [pySplitOnce]
    | cons d t =>
      have hdel : netlocDelim d = true := by
        have := head?_dropWhile (fun c => ¬ netlocDelim c) (rest.drop 2) d (by rw [hD]; rfl)
        simpa using this
      have hd3 : d = '/' ∨ d = '?' ∨ d = '#' := by
        rcases (netlocDelim_iff d).mp hdel with h' | h' | h'
        · exact Or.inl ((char_eq_toNat d '/').mpr h')
        · exact Or.inr (Or.inl ((char_eq_toNat d '?').mpr h'))
        · exact Or.inr (Or.inr ((char_eq_toNat d '#').mpr h'))
      rcases hd3 with rfl | rfl | rfl
      · right
        rw [pySplitOnce_cons_ne '#' '/' t (by decide)]
        rw [pySplitOnce_cons_ne '?' '/' _ (by decide)]
        rfl
      · left
        rw [pySplitOnce_cons_ne '#' '?' t (by decide)]
        rw [show pySplitOnce '?' ('?' :: (pySplitOnce '#' t).1)
          = ([], some (pySplitOnce '#' t).1) from by simp [pySplitOnce]]
      · left
        rw [show pySplitOnce '#' ('#' :: t) = ([], some t) from by simp [pySplitOnce]]
        rfl
  · exact absurd rfl (by exact h)

theorem splitparams_fst_subset (url : List Char) :
    ∀ ch ∈ (splitparams url).1, ch ∈ url := by
  unfold splitparams
  split
  · cases hfi : pyFindIdxFrom ';' url ((pyRfindIdx '/' url).getD 0) with
    | none => exact fun ch hch => hch
    | some i => exact fun ch hch => List.take_subset i url hch
  · cases hfi : pyFindIdx ';' url with
    | none => exact fun ch hch => hch
    | some i => exact fun ch hch => List.take_subset i url hch

theorem splitparams_snd_subset (url : List Char) :
    ∀ ch ∈ (splitparams url).2, ch ∈ url := by
  unfold splitparams
  split
  · cases hfi : pyFindIdxFrom ';' url ((pyRfindIdx '/' url).getD 0) with
    | none => simp
    | some i => exact fun ch hch => List.drop_subset (i + 1) url hch
  · cases hfi : pyFindIdx ';' url with
    | none => simp
    | some i => exact fun ch hch => List.drop_subset (i + 1) url hch

theorem pyFindIdx_zero (c : Char) (l : List Char) (h : pyFindIdx c l = some 0) :
    l.take 1 = [c] := by
  cases l with
  | nil => simp [pyFindIdx] at h
  | cons x xs =>
    simp only [pyFindIdx] at h
    split at h
    · rename_i hx
      rw [hx]
      rfl
    · simp only [Option.map_eq_some'] at h
      obtain ⟨a, _, ha⟩ := h
      omega

theorem splitparams_fst_take1 (url : List Char) (h : url.take 1 = ['/']) :
    (splitparams url).1.take 1 = ['/'] := by
  have hcont : url.contains '/' = true := by
    cases url with
    | nil => simp at h
    | cons a t =>
      have : a = '/' := by simpa using h
      simp [this]
  unfold splitparams
  rw [if_pos hcont]
  cases hfi : pyFindIdxFrom ';' url ((pyRfindIdx '/' url).getD 0) with
  | none => exact h
  | some i =>
    have hipos : 0 < i := by
      rcases Nat.eq_zero_or_pos i with hz | hp
      · subst hz
        unfold pyFindIdxFrom at hfi
        simp only [Option.map_eq_some'] at hfi
        obtain ⟨j, hj, hj0⟩ := hfi
        have hj1 : j = 0 := by omega
        have hj2 : (pyRfindIdx '/' url).getD 0 = 0 := by omega
        rw [hj1, hj2, List.drop_zero] at hj
        have := pyFindIdx_zero ';' url hj
        rw [h] at this
        simp at this
      · exact hp
    show (url.take i).take 1 = ['/']
    rw [List.take_take, show min 1 i = 1 by omega]
    exact h

theorem urlparse_path_subset (u ds : List Char) :
    ∀ ch ∈ (urlparse u ds).path, ch ∈ (urlsplit u ds).path := by
  simp only [urlparse]
  split
  · exact splitparams_fst_subset _
  · exact fun ch hch => hch

theorem urlparse_params_subset (u ds : List Char) :
    ∀ ch ∈ (urlparse u ds).params, ch ∈ (urlsplit u ds).path := by
  simp only [urlparse]
  split
  · exact splitparams_snd_subset _
  · simp

theorem urlparse_path_start (u ds : List Char) (h : (urlsplit u ds).path.take 1 = ['/']) :
    (urlparse u ds).path.take 1 = ['/'] := by
  simp only [urlparse]
  split
  · exact splitparams_fst_take1 _ h
  · exact h

theorem urlparse_path_nil (u ds : List Char) (h : (urlsplit u ds).path = []) :
    (urlparse u ds).path = [] := by
  simp only [urlparse]
  split
  · rename_i hcond
    rw [h] at hcond
    simp at hcond
  · exact h

theorem urlsplit_scheme_nil (u : List Char)
    (h : ((removeUnsafe (u.dropWhile isC0OrSpace)).take 1).all isAsciiAlpha = false) :
    (urlsplit u []).scheme = [] := by
  simp only [urlsplit]
  split
  · split
    · rename_i hcond
      rw [hcond.2.1] at h
      simp at h
    · rfl
  · rfl

/-! ## Reparse lemmas: urlunsplit output fed back through urlsplit -/

theorem urlunsplit_body (r : SplitResult) (h : r.scheme ≠ []) :
    ∃ body, urlunsplit r = r.scheme ++ ':' :: body
      ∧ ∀ ch ∈ body, ch ∈ r.netloc ∨ ch ∈ r.path ∨ ch ∈ r.query ∨ ch ∈ r.fragment
        ∨ ch = '/' ∨ ch = '?' ∨ ch = '#' := by
  refine ⟨(if r.netloc ≠ [] ∨ (r.scheme ≠ [] ∧ uses_netloc.contains ⟨r.scheme⟩ = true
        ∧ r.path.take 2 ≠ ['/', '/'])
      then ('/' :: '/' :: r.netloc)
        ++ (if r.path ≠ [] ∧ r.path.take 1 ≠ ['/'] then '/' :: r.path else r.path)
      else r.path)
    ++ ((if r.query ≠ [] then '?' :: r.query else [])
    ++ (if r.fragment ≠ [] then '#' :: r.fragment else [])), ?_, ?_⟩
  · simp only [urlunsplit]
    by_cases hq : r.query = [] <;> by_cases hf : r.fragment = [] <;>
      simp [hq, hf, h, List.append_assoc]
  · intro ch hch
    rw [List.mem_append] at hch
    rcases hch with hch | hch
    · split at hch
      · simp only [List.cons_append, List.mem_cons, List.mem_append] at hch
        rcases hch with rfl | rfl | hch | hch
        · tauto
        · tauto
        · tauto
        · split at hch
          · rcases List.mem_cons.mp hch with rfl | hch <;> tauto
          · tauto
      · tauto
    · rw [List.mem_append] at hch
      rcases hch with hch | hch
      · split at hch
        · rcases List.mem_cons.mp hch with rfl | hch <;> tauto
        · simp at hch
      · split at hch
        · rcases List.mem_cons.mp hch with rfl | hch <;> tauto
        · simp at hch

theorem urlunsplit_scheme_reparse (r : SplitResult) (ds : List Char)
    (hS : r.scheme ≠ []) (hSa : (r.scheme.take 1).all isAsciiAlpha = true)
    (hSc : r.scheme.all SCHEME_CHARS = true)
    (hSlow : r.scheme.map asciiLowerChar = r.scheme)
    (hnu : ∀ ch ∈ r.netloc, ¬ (ch = '\t' ∨ ch = '\r' ∨ ch = '\n'))
    (hpu : ∀ ch ∈ r.path, ¬ (ch = '\t' ∨ ch = '\r' ∨ ch = '\n'))
    (hqu : ∀ ch ∈ r.query, ¬ (ch = '\t' ∨ ch = '\r' ∨ ch = '\n'))
    (hfu : ∀ ch ∈ r.fragment, ¬ (ch = '\t' ∨ ch = '\r' ∨ ch = '\n')) :
    (urlsplit (urlunsplit r) ds).scheme = r.scheme := by
  obtain ⟨body, hb, hmem⟩ := urlunsplit_body r hS
  have hclean : ∀ ch ∈ r.scheme ++ ':' :: body, ¬ (ch = '\t' ∨ ch = '\r' ∨ ch = '\n') := by
    intro ch hch
    rw [List.mem_append, List.mem_cons] at hch
    rcases hch with hch | rfl | hch
    · exact scheme_char_not_unsafe ch (by
        rw [List.all_eq_true] at hSc
        exact hSc ch hch)
    · decide
    · rcases hmem ch hch with h' | h' | h' | h' | rfl | rfl | rfl
      · exact hnu ch h'
      · exact hpu ch h'
      · exact hqu ch h'
      · exact hfu ch h'
      · decide
      · decide
      · decide
  rw [hb, urlsplit_scheme_rest r.scheme body ds hS hSa hSc hSlow hclean]

theorem urlunsplit_netloc_body (r : SplitResult) (hn : r.netloc ≠ []) :
    ∃ tail,
      urlunsplit r = (if r.scheme = [] then [] else r.scheme ++ [':'])
        ++ '/' :: '/' :: (r.netloc ++ tail)
      ∧ (∀ c, tail.head? = some c → netlocDelim c = true)
      ∧ (∀ ch ∈ tail, ch ∈ r.path ∨ ch ∈ r.query ∨ ch ∈ r.fragment
          ∨ ch = '/' ∨ ch = '?' ∨ ch = '#') := by
  refine ⟨(if r.path ≠ [] ∧ r.path.take 1 ≠ ['/'] then '/' :: r.path else r.path)
      ++ ((if r.query ≠ [] then '?' :: r.query else [])
      ++ (if r.fragment ≠ [] then '#' :: r.fragment else [])), ?_, ?_, ?_⟩
  · simp only [urlunsplit]
    rw [if_pos (Or.inl hn)]
    by_cases hs : r.scheme = [] <;> by_cases hq : r.query = [] <;>
      by_cases hf : r.fragment = [] <;> simp [hs, hq, hf, List.append_assoc]
  · intro c hc
    by_cases hp : r.path ≠ [] ∧ r.path.take 1 ≠ ['/']
    · rw [if_pos hp, List.cons_append, List.head?_cons, Option.some.injEq] at hc
      rw [← hc]
      decide
    · rw [if_neg hp] at hc
      cases hpath : r.path with
      | nil =>
        rw [hpath, List.nil_append] at hc
        by_cases hqe : r.query = []
        · rw [if_neg (show ¬ r.query ≠ [] by simp [hqe]), List.nil_append] at hc
          by_cases hfe : r.fragment = []
          · rw [if_neg (show ¬ r.fragment ≠ [] by simp [hfe])] at hc
            simp at hc
          · rw [if_pos (show r.fragment ≠ [] from hfe), List.head?_cons,
              Option.some.injEq] at hc
            rw [← hc]
            decide
        · rw [if_pos (show r.query ≠ [] from hqe), List.cons_append, List.head?_cons,
            Option.some.injEq] at hc
          rw [← hc]
          decide
      | cons p0 pt =>
        have h1 : r.path.take 1 = ['/'] := by
          by_contra hne
          exact hp ⟨by rw [hpath]; simp, hne⟩
        have hp0 : p0 = '/' := by
          rw [hpath] at h1
          simpa using h1
        rw [hpath, hp0, List.cons_append, List.head?_cons, Option.some.injEq] at hc
        rw [← hc]
        decide
  · intro ch hch
    rw [List.mem_append] at hch
    rcases hch with hch | hch
    · split at hch
      · rcases List.mem_cons.mp hch with rfl | hch <;> tauto
      · tauto
    · rw [List.mem_append] at hch
      rcases hch with hch | hch
      · split at hch
        · rcases List.mem_cons.mp hch with rfl | hch <;> tauto
        · simp at hch
      · split at hch
        · rcases List.mem_cons.mp hch with rfl | hch <;> tauto
        · simp at hch

theorem urlsplit_noscheme (u : List Char)
    (hclean : ∀ ch ∈ u, ¬ (ch = '\t' ∨ ch = '\r' ∨ ch = '\n'))
    (hns : ∀ c, u.head? = some c → isC0OrSpace c = false)
    (halpha : (u.take 1).all isAsciiAlpha = false) :
    urlsplit u [] =
      ⟨[],
       (if u.take 2 = ['/', '/']
          then (u.drop 2).takeWhile (fun c => ¬ netlocDelim c) else []),
       (pySplitOnce '?' (pySplitOnce '#'
          (if u.take 2 = ['/', '/']
            then (u.drop 2).dropWhile (fun c => ¬ netlocDelim c) else u)).1).1,
       (pySplitOnce '?' (pySplitOnce '#'
          (if u.take 2 = ['/', '/']
            then (u.drop 2).dropWhile (fun c => ¬ netlocDelim c) else u)).1).2.getD [],
       (pySplitOnce '#'
          (if u.take 2 = ['/', '/']
            then (u.drop 2).dropWhile (fun c => ¬ netlocDelim c) else u)).2.getD []⟩ := by
  have hdw : u.dropWhile isC0OrSpace = u := dropWhile_eq_self_of_head _ _ hns
  have hru : removeUnsafe u = u := removeUnsafe_eq_self _ hclean
  simp only [urlsplit]
  rw [hdw, hru]
  cases hfi : pyFindIdx ':' u with
  | none =>
    simp only []
    split <;> rfl
  | some i =>
    simp only []
    rw [if_neg (fun hcond => by simp [hcond.2.1] at halpha)]
    split <;> rfl

theorem urlunsplit_netloc_reparse (r : SplitResult)
    (hn : r.netloc ≠ [])
    (hnd : ∀ ch ∈ r.netloc, ¬ netlocDelim ch = true)
    (hnu : ∀ ch ∈ r.netloc, ¬ (ch = '\t' ∨ ch = '\r' ∨ ch = '\n'))
    (hpu : ∀ ch ∈ r.path, ¬ (ch = '\t' ∨ ch = '\r' ∨ ch = '\n'))
    (hqu : ∀ ch ∈ r.query, ¬ (ch = '\t' ∨ ch = '\r' ∨ ch = '\n'))
    (hfu : ∀ ch ∈ r.fragment, ¬ (ch = '\t' ∨ ch = '\r' ∨ ch = '\n'))
    (hSwf : r.scheme = [] ∨ (r.scheme ≠ []
      ∧ (r.scheme.take 1).all isAsciiAlpha = true
      ∧ r.scheme.all SCHEME_CHARS = true
      ∧ r.scheme.map asciiLowerChar = r.scheme)) :
    (urlsplit (urlunsplit r) []).netloc = r.netloc := by
  obtain ⟨tail, heq, hhead, hmem⟩ := urlunsplit_netloc_body r hn
  have htc : ∀ ch ∈ tail, ¬ (ch = '\t' ∨ ch = '\r' ∨ ch = '\n') := by
    intro ch hch
    rcases hmem ch hch with h' | h' | h' | rfl | rfl | rfl
    · exact hpu ch h'
    · exact hqu ch h'
    · exact hfu ch h'
    · decide
    · decide
    · decide
  have htw : (r.netloc ++ tail).takeWhile (fun c => ¬ netlocDelim c) = r.netloc := by
    rw [takeWhile_append_all _ _ _ (fun x hx => by simpa using hnd x hx)]
    have hztail : tail.takeWhile (fun c => ¬ netlocDelim c) = [] := by
      cases ht : tail with
      | nil => rfl
      | cons c t =>
        rw [List.takeWhile_cons, if_neg (by simp [hhead c (by rw [ht]; rfl)])]
    rw [hztail, List.append_nil]
  rcases hSwf with hs | ⟨hs, hsa, hsc, hslow⟩
  · rw [heq, if_pos hs, List.nil_append]
    rw [urlsplit_noscheme ('/' :: '/' :: (r.netloc ++ tail))
      (by
        intro ch hch
        rcases List.mem_cons.mp hch with rfl | hch
        · decide
        rcases List.mem_cons.mp hch with rfl | hch
        · decide
        rcases List.mem_append.mp hch with h' | h'
        · exact hnu ch h'
        · exact htc ch h')
      (by
        intro c hc
        simp only [List.head?_cons, Option.some.injEq] at hc
        rw [← hc]
        decide)
      (by rfl)]
    rw [if_pos (show ('/' :: '/' :: (r.netloc ++ tail)).take 2 = ['/', '/'] from rfl)]
    exact htw
  · rw [heq, if_neg hs]
    have hcollect : (r.scheme ++ [':']) ++ '/' :: '/' :: (r.netloc ++ tail)
        = r.scheme ++ ':' :: '/' :: '/' :: (r.netloc ++ tail) := by simp
    have hclean : ∀ ch ∈ r.scheme ++ ':' :: '/' :: '/' :: (r.netloc ++ tail),
        ¬ (ch = '\t' ∨ ch = '\r' ∨ ch = '\n') := by
      intro ch hch
      rcases List.mem_append.mp hch with h' | h'
      · exact scheme_char_not_unsafe ch (by
          rw [List.all_eq_true] at hsc
          exact hsc ch h')
      rcases List.mem_cons.mp h' with rfl | h'
      · decide
      rcases List.mem_cons.mp h' with rfl | h'
      · decide
      rcases List.mem_cons.mp h' with rfl | h'
      · decide
      rcases List.mem_append.mp h' with h' | h'
      · exact hnu ch h'
      · exact htc ch h'
    rw [hcollect, urlsplit_scheme_rest r.scheme ('/' :: '/' :: (r.netloc ++ tail)) []
      hs hsa hsc hslow hclean]
    rw [if_pos (show ('/' :: '/' :: (r.netloc ++ tail)).take 2 = ['/', '/'] from rfl)]
    exact htw

theorem parse_defrag_scheme_of_detected (x : List Char)
    (h : (urlparse x []).scheme ≠ []) :
    (urlparse (urldefrag x) []).scheme = (urlparse x []).scheme := by
  unfold urldefrag
  by_cases hcont : x.contains '#' = true
  · rw [if_pos hcont]
    simp only [urlunparse]
    rw [urlparse_scheme]
    have hwf := urlsplit_scheme_wf x
    rw [← urlparse_scheme x []] at hwf
    rcases hwf with hwf | ⟨h1, h2, h3, h4⟩
    · exact absurd hwf h
    have hclean := urlsplit_fields_clean x []
    refine urlunsplit_scheme_reparse
      ⟨(urlparse x []).scheme, (urlparse x []).netloc,
        (if (urlparse x []).params ≠ []
          then (urlparse x []).path ++ ';' :: (urlparse x []).params
          else (urlparse x []).path),
        (urlparse x []).query, []⟩ [] h1 h2 h3 h4 ?_ ?_ ?_ ?_
    · intro ch hch
      have hch' : ch ∈ (urlparse x []).netloc := hch
      rw [urlparse_netloc] at hch'
      exact hclean.1 ch hch'
    · intro ch hch
      have hch' : ch ∈ (if (urlparse x []).params ≠ []
          then (urlparse x []).path ++ ';' :: (urlparse x []).params
          else (urlparse x []).path) := hch
      split at hch'
      · rcases List.mem_append.mp hch' with h' | h'
        · exact hclean.2.1 ch (urlparse_path_subset x [] ch h')
        rcases List.mem_cons.mp h' with rfl | h'
        · decide
        · exact hclean.2.1 ch (urlparse_params_subset x [] ch h')
      · exact hclean.2.1 ch (urlparse_path_subset x [] ch hch')
    · intro ch hch
      have hch' : ch ∈ (urlparse x []).query := hch
      rw [urlparse_query] at hch'
      exact hclean.2.2 ch hch'
    · intro ch hch
      have hch' : ch ∈ ([] : List Char) := hch
      simp at hch'
  · rw [if_neg hcont]

theorem parse_defrag_netloc (r : SplitResult)
    (hn : r.netloc ≠ [])
    (hnd : ∀ ch ∈ r.netloc, ¬ netlocDelim ch = true)
    (hnu : ∀ ch ∈ r.netloc, ¬ (ch = '\t' ∨ ch = '\r' ∨ ch = '\n'))
    (hpu : ∀ ch ∈ r.path, ¬ (ch = '\t' ∨ ch = '\r' ∨ ch = '\n'))
    (hqu : ∀ ch ∈ r.query, ¬ (ch = '\t' ∨ ch = '\r' ∨ ch = '\n'))
    (hfu : ∀ ch ∈ r.fragment, ¬ (ch = '\t' ∨ ch = '\r' ∨ ch = '\n'))
    (hSwf : r.scheme = [] ∨ (r.scheme ≠ []
      ∧ (r.scheme.take 1).all isAsciiAlpha = true
      ∧ r.scheme.all SCHEME_CHARS = true
      ∧ r.scheme.map asciiLowerChar = r.scheme)) :
    (urlparse (urldefrag (urlunsplit r)) []).netloc = r.netloc := by
  have hbase : (urlparse (urlunsplit r) []).netloc = r.netloc := by
    rw [urlparse_netloc]
    exact urlunsplit_netloc_reparse r hn hnd hnu hpu hqu hfu hSwf
  unfold urldefrag
  by_cases hcont : (urlunsplit r).contains '#' = true
  · rw [if_pos hcont]
    simp only [urlunparse]
    have hclean := urlsplit_fields_clean (urlunsplit r) []
    have hwf := urlsplit_scheme_wf (urlunsplit r)
    rw [← urlparse_scheme (urlunsplit r) []] at hwf
    rw [urlparse_netloc]
    have hstep := urlunsplit_netloc_reparse
      ⟨(urlparse (urlunsplit r) []).scheme, (urlparse (urlunsplit r) []).netloc,
        (if (urlparse (urlunsplit r) []).params ≠ []
          then (urlparse (urlunsplit r) []).path
            ++ ';' :: (urlparse (urlunsplit r) []).params
          else (urlparse (urlunsplit r) []).path),
        (urlparse (urlunsplit r) []).query, []⟩
      (show (urlparse (urlunsplit r) []).netloc ≠ [] by rw [hbase]; exact hn)
      (by
        intro ch hch
        have hch' : ch ∈ (urlparse (urlunsplit r) []).netloc := hch
        rw [urlparse_netloc] at hch'
        exact urlsplit_netloc_nodelim (urlunsplit r) [] ch hch')
      (by
        intro ch hch
        have hch' : ch ∈ (urlparse (urlunsplit r) []).netloc := hch
        rw [urlparse_netloc] at hch'
        exact hclean.1 ch hch')
      (by
        intro ch hch
        have hch' : ch ∈ (if (urlparse (urlunsplit r) []).params ≠ []
            then (urlparse (urlunsplit r) []).path
              ++ ';' :: (urlparse (urlunsplit r) []).params
            else (urlparse (urlunsplit r) []).path) := hch
        split at hch'
        · rcases List.mem_append.mp hch' with h' | h'
          · exact hclean.2.1 ch (urlparse_path_subset (urlunsplit r) [] ch h')
          rcases List.mem_cons.mp h' with rfl | h'
          · decide
          · exact hclean.2.1 ch (urlparse_params_subset (urlunsplit r) [] ch h')
        · exact hclean.2.1 ch (urlparse_path_subset (urlunsplit r) [] ch hch'))
      (by
        intro ch hch
        have hch' : ch ∈ (urlparse (urlunsplit r) []).query := hch
        rw [urlparse_query] at hch'
        exact hclean.2.2 ch hch')
      (by
        intro ch hch
        have hch' : ch ∈ ([] : List Char) := hch
        simp at hch')
      (show (urlparse (urlunsplit r) []).scheme = [] ∨ _ from hwf)
    rw [show (urlsplit (urlunsplit
        ⟨(urlparse (urlunsplit r) []).scheme, (urlparse (urlunsplit r) []).netloc,
          (if (urlparse (urlunsplit r) []).params ≠ []
            then (urlparse (urlunsplit r) []).path
              ++ ';' :: (urlparse (urlunsplit r) []).params
            else (urlparse (urlunsplit r) []).path),
          (urlparse (urlunsplit r) []).query, []⟩) []).netloc
        = (urlparse (urlunsplit r) []).netloc from hstep]
    exact hbase
  · rw [if_neg hcont]
    exact hbase

theorem relative_sub_netloc (s : String) (h : uses_relative.contains s = true) :
    uses_netloc.contains s = true := by
  have hmem : s ∈ uses_relative := by simpa using h
  have hall : ∀ x ∈ uses_relative, uses_netloc.contains x = true := by decide
  exact hall s hmem

/-! ## urljoin branch equations and default-scheme transfer -/

theorem dropWhile_eq_self_of_all {α} (p : α → Bool) (l : List α)
    (h : ∀ x ∈ l, p x = false) : l.dropWhile p = l := by
  cases l with
  | nil => rfl
  | cons a t => rw [List.dropWhile_cons, if_neg (by simp [h a (by simp)])]

theorem scheme_char_not_c0 (c : Char) (h : SCHEME_CHARS c = true) :
    isC0OrSpace c = false := by
  rw [SCHEME_CHARS_iff] at h
  rw [← Bool.not_eq_true, isC0OrSpace_iff]
  omega

theorem clean_ds_scheme (ds : List Char) (h : ds = [] ∨ ds.all SCHEME_CHARS = true) :
    removeUnsafe ((ds.dropWhile isC0OrSpace).reverse.dropWhile isC0OrSpace).reverse = ds := by
  rcases h with rfl | h
  · rfl
  · rw [List.all_eq_true] at h
    rw [dropWhile_eq_self_of_all _ _ (fun x hx => scheme_char_not_c0 x (h x hx)),
      dropWhile_eq_self_of_all _ _ (fun x hx => scheme_char_not_c0 x (h x (by
        rw [← List.mem_reverse]; exact hx))),
      List.reverse_reverse]
    exact removeUnsafe_eq_self _ (fun ch hch => scheme_char_not_unsafe ch (h ch hch))

theorem urlsplit_ds (u ds : List Char)
    (hds : removeUnsafe ((ds.dropWhile isC0OrSpace).reverse.dropWhile
      isC0OrSpace).reverse = ds) :
    (urlsplit u ds).netloc = (urlsplit u []).netloc
    ∧ (urlsplit u ds).path = (urlsplit u []).path
    ∧ (urlsplit u ds).query = (urlsplit u []).query
    ∧ (urlsplit u ds).fragment = (urlsplit u []).fragment
    ∧ ((urlsplit u ds).scheme = (urlsplit u []).scheme
       ∨ ((urlsplit u []).scheme = [] ∧ (urlsplit u ds).scheme = ds)) := by
  simp only [urlsplit]
  cases hfi : pyFindIdx ':' (removeUnsafe (u.dropWhile isC0OrSpace)) with
  | none =>
    exact ⟨rfl, rfl, rfl, rfl, Or.inr ⟨rfl, hds⟩⟩
  | some i =>
    simp only []
    by_cases hcond : 0 < i
        ∧ ((removeUnsafe (u.dropWhile isC0OrSpace)).take 1).all isAsciiAlpha = true
        ∧ ((removeUnsafe (u.dropWhile isC0OrSpace)).take i).all SCHEME_CHARS = true
    · rw [if_pos hcond, if_pos hcond]
      exact ⟨rfl, rfl, rfl, rfl, Or.inl rfl⟩
    · rw [if_neg hcond, if_neg hcond]
      exact ⟨rfl, rfl, rfl, rfl, Or.inr ⟨rfl, hds⟩⟩

theorem urlsplit_scheme_nil_ds (u ds : List Char)
    (hds : removeUnsafe ((ds.dropWhile isC0OrSpace).reverse.dropWhile
      isC0OrSpace).reverse = ds)
    (h : (urlsplit u ds).scheme = []) : ds = [] := by
  simp only [urlsplit] at h
  split at h
  · rename_i i hfi
    split at h
    · rename_i hcond
      have htake : (removeUnsafe (u.dropWhile isC0OrSpace)).take i = [] := by
        simpa using h
      have hnil : removeUnsafe (u.dropWhile isC0OrSpace) = [] := by
        cases hl : removeUnsafe (u.dropWhile isC0OrSpace) with
        | nil => rfl
        | cons a t =>
          rw [hl] at htake
          have h0 := hcond.1
          obtain ⟨j, rfl⟩ : ∃ j, i = j + 1 := ⟨i - 1, by omega⟩
          simp at htake
      rw [hnil] at hfi
      exact absurd hfi (by simp [pyFindIdx])
    · rw [← hds]
      exact h
  · rw [← hds]
    exact h

theorem urljoin_nil_base (url : List Char) : urljoin [] url = url := rfl

theorem urljoin_branch1 (base url : List Char) (hb : ¬ base = []) (hu0 : ¬ url = [])
    (hc1 : (urlparse url (urlparse base []).scheme).scheme ≠ (urlparse base []).scheme
      ∨ ¬ uses_relative.contains
          ⟨(urlparse url (urlparse base []).scheme).scheme⟩ = true) :
    urljoin base url = url := by
  simp only [urljoin]
  rw [if_neg hb, if_neg hu0, if_pos hc1]

theorem urljoin_branch2 (base url : List Char) (hb : ¬ base = []) (hu0 : ¬ url = [])
    (hc1 : ¬ ((urlparse url (urlparse base []).scheme).scheme
        ≠ (urlparse base []).scheme
      ∨ ¬ uses_relative.contains
          ⟨(urlparse url (urlparse base []).scheme).scheme⟩ = true))
    (hc2 : uses_netloc.contains
        ⟨(urlparse url (urlparse base []).scheme).scheme⟩ = true
      ∧ (urlparse url (urlparse base []).scheme).netloc ≠ []) :
    urljoin base url = urlunparse
      ⟨(urlparse url (urlparse base []).scheme).scheme,
       (urlparse url (urlparse base []).scheme).netloc,
       (urlparse url (urlparse base []).scheme).path,
       (urlparse url (urlparse base []).scheme).params,
       (urlparse url (urlparse base []).scheme).query,
       (urlparse url (urlparse base []).scheme).fragment⟩ := by
  simp only [urljoin]
  rw [if_neg hb, if_neg hu0, if_neg hc1, if_pos hc2]

theorem urljoin_branch3 (base url : List Char) (hb : ¬ base = []) (hu0 : ¬ url = [])
    (hc1 : ¬ ((urlparse url (urlparse base []).scheme).scheme
        ≠ (urlparse base []).scheme
      ∨ ¬ uses_relative.contains
          ⟨(urlparse url (urlparse base []).scheme).scheme⟩ = true))
    (hc2 : ¬ (uses_netloc.contains
        ⟨(urlparse url (urlparse base []).scheme).scheme⟩ = true
      ∧ (urlparse url (urlparse base []).scheme).netloc ≠ []))
    (hc3 : (urlparse url (urlparse base []).scheme).path = []
      ∧ (urlparse url (urlparse base []).scheme).params = []) :
    urljoin base url = urlunparse
      ⟨(urlparse url (urlparse base []).scheme).scheme,
       (if uses_netloc.contains
          ⟨(urlparse url (urlparse base []).scheme).scheme⟩ = true
        then (urlparse base []).netloc
        else (urlparse url (urlparse base []).scheme).netloc),
       (urlparse base []).path,
       (urlparse base []).params,
       (if (urlparse url (urlparse base []).scheme).query = []
        then (urlparse base []).query
        else (urlparse url (urlparse base []).scheme).query),
       (urlparse url (urlparse base []).scheme).fragment⟩ := by
  simp only [urljoin]
  rw [if_neg hb, if_neg hu0, if_neg hc1, if_neg hc2, if_pos hc3]

theorem urljoin_else (base url : List Char) (hb : ¬ base = []) (hu0 : ¬ url = [])
    (hc1 : ¬ ((urlparse url (urlparse base []).scheme).scheme
        ≠ (urlparse base []).scheme
      ∨ ¬ uses_relative.contains
          ⟨(urlparse url (urlparse base []).scheme).scheme⟩ = true))
    (hc2 : ¬ (uses_netloc.contains
        ⟨(urlparse url (urlparse base []).scheme).scheme⟩ = true
      ∧ (urlparse url (urlparse base []).scheme).netloc ≠ []))
    (hc3 : ¬ ((urlparse url (urlparse base []).scheme).path = []
      ∧ (urlparse url (urlparse base []).scheme).params = [])) :
    urljoin base url = urlunparse
      ⟨(urlparse url (urlparse base []).scheme).scheme,
       (if uses_netloc.contains
          ⟨(urlparse url (urlparse base []).scheme).scheme⟩ = true
        then (urlparse base []).netloc
        else (urlparse url (urlparse base []).scheme).netloc),
       joinMergePath (urlparse base []).path
         (urlparse url (urlparse base []).scheme).path,
       (urlparse url (urlparse base []).scheme).params,
       (urlparse url (urlparse base []).scheme).query,
       (urlparse url (urlparse base []).scheme).fragment⟩ := by
  simp only [urljoin]
  rw [if_neg hb, if_neg hu0, if_neg hc1, if_neg hc2, if_neg hc3]
  rfl

/-! ## Character content of rebuilt URLs and of urlencode output -/

theorem urlunsplit_canonical_mem (S H P Q : List Char) (hS : S ≠ []) (hPne : P ≠ [])
    (hP2 : P.take 2 ≠ ['/', '/']) :
    ∀ ch ∈ urlunsplit ⟨S, H, P, Q, []⟩,
      ch ∈ S ∨ ch ∈ H ∨ ch ∈ P ∨ ch ∈ Q ∨ ch = ':' ∨ ch = '/' ∨ ch = '?' := by
  rw [urlunsplit_canonical_eval S H P Q hS hPne hP2]
  intro ch hch
  rcases List.mem_append.mp hch with h' | h'
  · tauto
  rcases List.mem_cons.mp h' with rfl | h'
  · tauto
  rcases List.mem_append.mp h' with h' | h'
  · split at h'
    · rcases List.mem_cons.mp h' with rfl | h'
      · tauto
      rcases List.mem_cons.mp h' with rfl | h'
      · tauto
      rcases List.mem_append.mp h' with h' | h'
      · tauto
      · split at h' <;> [tauto; skip]
        rcases List.mem_cons.mp h' with rfl | h' <;> tauto
    · tauto
  · split at h'
    · rcases List.mem_cons.mp h' with rfl | h' <;> tauto
    · simp at h'

theorem urlencodePairs_chars (pairs : List (String × String)) :
    ∀ ch ∈ (urlencodePairs pairs).data,
      ALWAYS_SAFE ch.toNat = true ∨ ch = '%' ∨ ch = '+' ∨ ch = '=' ∨ ch = '&' := by
  intro ch hch
  unfold urlencodePairs at hch
  rcases mem_joinChar '&' _ ch hch with rfl | ⟨part, hpart, hin⟩
  · tauto
  · rw [List.mem_map] at hpart
    obtain ⟨kv, _, rfl⟩ := hpart
    rcases List.mem_append.mp hin with h' | h'
    · rcases pyQuotePlus_class kv.1 ch h' with h | h | h <;> tauto
    · rcases List.mem_cons.mp h' with rfl | h'
      · tauto
      · rcases pyQuotePlus_class kv.2 ch h' with h | h | h <;> tauto

theorem urlencodePairs_clean (pairs : List (String × String)) :
    ∀ ch ∈ (urlencodePairs pairs).data,
      ch ≠ '#' ∧ ¬ (ch = '\t' ∨ ch = '\r' ∨ ch = '\n') := by
  intro ch hch
  rcases urlencodePairs_chars pairs ch hch with h | rfl | rfl | rfl | rfl
  · constructor
    · intro he
      subst he
      exact absurd h (by decide)
    · rintro (rfl | rfl | rfl) <;> exact absurd h (by decide)
  · exact ⟨by decide, by decide⟩
  · exact ⟨by decide, by decide⟩
  · exact ⟨by decide, by decide⟩
  · exact ⟨by decide, by decide⟩

/-! ## Membership for resolveDots / filterMiddle -/

theorem resolveDots_foldl_mem (segs : List (List Char)) :
    ∀ acc s, s ∈ segs.foldl
      (fun acc seg => if seg = ['.', '.'] then acc.dropLast
        else if seg = ['.'] then acc else acc ++ [seg]) acc →
      s ∈ acc ∨ s ∈ segs := by
  induction segs with
  | nil => exact fun acc s h => Or.inl h
  | cons x t ih =>
    intro acc s h
    rw [List.foldl_cons] at h
    rcases ih _ s h with h' | h'
    · split at h'
      · exact Or.inl (List.dropLast_subset _ h')
      · split at h'
        · exact Or.inl h'
        · rcases List.mem_append.mp h' with h'' | h''
          · exact Or.inl h''
          · exact Or.inr (by simp at h''; simp [h''])
    · exact Or.inr (List.mem_cons_of_mem x h')

theorem resolveDots_mem (segs : List (List Char)) :
    ∀ s ∈ resolveDots segs, s ∈ segs ∨ s = [] := by
  intro s h
  unfold resolveDots at h
  split at h
  · rcases List.mem_append.mp h with h' | h'
    · rcases resolveDots_foldl_mem segs [] s h' with h'' | h''
      · simp at h''
      · exact Or.inl h''
    · simp at h'
      exact Or.inr h'
  · rcases resolveDots_foldl_mem segs [] s h with h'' | h''
    · simp at h''
    · exact Or.inl h''

theorem filterMiddleAux_mem (l : List (List Char)) : ∀ s ∈ filterMiddleAux l, s ∈ l := by
  induction l with
  | nil => simp [filterMiddleAux]
  | cons x t ih =>
    cases t with
    | nil => simp [filterMiddleAux]
    | cons y xs =>
      intro s hs
      rw [show filterMiddleAux (x :: y :: xs)
        = if x.isEmpty then filterMiddleAux (y :: xs)
          else x :: filterMiddleAux (y :: xs) from rfl] at hs
      split at hs
      · exact List.mem_cons_of_mem x (ih s hs)
      · rcases List.mem_cons.mp hs with rfl | hs
        · simp
        · exact List.mem_cons_of_mem x (ih s hs)

theorem filterMiddle_mem (l : List (List Char)) : ∀ s ∈ filterMiddle l, s ∈ l := by
  cases l with
  | nil => simp [filterMiddle]
  | cons x t =>
    cases t with
    | nil => simp [filterMiddle]
    | cons y xs =>
      intro s hs
      rw [show filterMiddle (x :: y :: xs) = x :: filterMiddleAux (y :: xs) from rfl] at hs
      rcases List.mem_cons.mp hs with rfl | hs
      · simp
      · exact List.mem_cons_of_mem x (filterMiddleAux_mem (y :: xs) s hs)

theorem urljoin_fpath_mem (bpath upath : List Char) :
    ∀ ch ∈ joinChar '/' (resolveDots
      (if upath.take 1 = ['/'] then splitAllChar '/' upath
       else filterMiddle
        ((if (splitAllChar '/' bpath).getLastD [] ≠ []
            then (splitAllChar '/' bpath).dropLast else splitAllChar '/' bpath)
          ++ splitAllChar '/' upath))),
      ch ∈ bpath ∨ ch ∈ upath ∨ ch = '/' := by
  intro ch hch
  rcases mem_joinChar '/' _ ch hch with rfl | ⟨part, hpart, hin⟩
  · tauto
  rcases resolveDots_mem _ part hpart with hp | rfl
  · split at hp
    · exact Or.inr (Or.inl (mem_splitAllChar '/' upath part hp ch hin))
    · rcases List.mem_append.mp (filterMiddle_mem _ part hp) with h' | h'
      · have hp0 : part ∈ splitAllChar '/' bpath := by
          split at h'
          · exact List.dropLast_subset _ h'
          · exact h'
        exact Or.inl (mem_splitAllChar '/' bpath part hp0 ch hin)
      · exact Or.inr (Or.inl (mem_splitAllChar '/' upath part h' ch hin))
  · simp at hin

theorem joinMergePath_mem (bpath upath : List Char) :
    ∀ ch ∈ joinMergePath bpath upath, ch ∈ bpath ∨ ch ∈ upath ∨ ch = '/' := by
  intro ch hch
  unfold joinMergePath at hch
  by_cases hJ : joinChar '/' (resolveDots
      (if upath.take 1 = ['/'] then splitAllChar '/' upath
       else filterMiddle
        ((if (splitAllChar '/' bpath).getLastD [] ≠ []
          then (splitAllChar '/' bpath).dropLast else splitAllChar '/' bpath)
         ++ splitAllChar '/' upath))) = []
  · rw [if_pos hJ] at hch
    rcases List.mem_singleton.mp hch with rfl
    tauto
  · rw [if_neg hJ] at hch
    exact urljoin_fpath_mem bpath upath ch hch

/-! ## Path-shift invariance of urlunsplit on netloc-carrying schemes -/

theorem urlunsplit_slash_swap (S P Q : List Char) (hS : S ≠ []) (hPne : P ≠ [])
    (hP1 : P.take 1 ≠ ['/']) (hP2 : P.take 2 ≠ ['/', '/'])
    (hnet : uses_netloc.contains ⟨S⟩ = true) :
    urlunsplit ⟨S, [], '/' :: P, Q, []⟩ = urlunsplit ⟨S, [], P, Q, []⟩ := by
  have h2 : ('/' :: P).take 2 ≠ ['/', '/'] := by
    intro he
    cases P with
    | nil => simp at he
    | cons p0 pt =>
      apply hP1
      have : p0 = '/' := by simpa using he
      simp [this]
  rw [urlunsplit_canonical_eval S [] P Q hS hPne hP2,
    urlunsplit_canonical_eval S [] ('/' :: P) Q hS (by simp) h2]
  have hmem : (⟨S⟩ : String) ∈ uses_netloc := by simpa using hnet
  simp [hmem, hP1]

theorem normalize_slash_cons (P : List Char) (hPne : P ≠ []) (hP1 : P.take 1 ≠ ['/'])
    (hdd : noDD P = true)
    (htrP : ¬ (1 < P.length ∧ P.getLastD ' ' = '/')) :
    normalize_path ('/' :: P) = '/' :: P := by
  obtain ⟨p0, pt, rfl⟩ : ∃ p0 pt, P = p0 :: pt := by
    cases P with
    | nil => exact absurd rfl hPne
    | cons a t => exact ⟨a, t, rfl⟩
  have hp0 : ¬ p0 = '/' := fun he => hP1 (by simp [he])
  have hdd' : noDD ('/' :: p0 :: pt) = true := by
    simp only [noDD, Bool.and_eq_true, decide_eq_true_eq] at hdd ⊢
    exact ⟨fun hand => hp0 hand.2, by
      cases pt with
      | nil => rfl
      | cons b u => simpa [noDD] using hdd⟩
  have hcondne : ¬ (1 < ('/' :: p0 :: pt).length
      ∧ ('/' :: p0 :: pt).getLastD ' ' = '/') := by
    intro hand
    apply htrP
    constructor
    · cases pt with
      | nil =>
        exfalso
        have : p0 = '/' := by simpa [List.getLastD] using hand.2
        exact hp0 this
      | cons b u => simp
    · have h1 : ('/' :: p0 :: pt).getLastD ' ' = (p0 :: pt).getLastD ' ' := by
        rw [List.getLastD_cons]
        exact getLastD_default_irrel (p0 :: pt) '/' ' ' (by simp)
      rw [← h1]
      exact hand.2
  simp only [normalize_path]
  rw [if_neg (show ¬ ('/' :: p0 :: pt) = [] by simp),
    collapseSlashes_eq_self _ hdd', if_neg hcondne]

/-! ## Facts about the canonical components -/

theorem canonicalize_fst (base href : String) (hne : ¬ href = "") :
    (canonicalize_category_link base href).1
      = ⟨urlunparse ⟨canonScheme base href, canonHost base href, canonPath base href,
          [], canonQs base href, []⟩⟩ := by
  simp only [canonicalize_category_link]
  rw [if_neg hne]
  rfl

theorem canonScheme_wf (base href : String) :
    canonScheme base href ≠ []
    ∧ ((canonScheme base href).take 1).all isAsciiAlpha = true
    ∧ (canonScheme base href).all SCHEME_CHARS = true
    ∧ (canonScheme base href).map asciiLowerChar = canonScheme base href := by
  unfold canonScheme
  by_cases hs : (canonP base href).scheme = []
  · rw [if_pos hs]
    exact ⟨by decide, by decide, by decide, by decide⟩
  · rw [if_neg hs]
    have hwf := urlsplit_scheme_wf (canonAbs base href)
    rw [← urlparse_scheme (canonAbs base href) []] at hwf
    rcases hwf with hwf | hwf
    · exact absurd hwf hs
    · exact hwf

theorem canonHost_facts (base href : String) :
    (∀ ch ∈ canonHost base href, ¬ netlocDelim ch = true)
    ∧ (∀ ch ∈ canonHost base href, ¬ (ch = '\t' ∨ ch = '\r' ∨ ch = '\n'))
    ∧ (canonHost base href).map asciiLowerChar = canonHost base href := by
  refine ⟨?_, ?_, map_asciiLower_idem _⟩
  · intro ch hch
    rw [show canonHost base href
      = (urlparse (canonAbs base href) []).netloc.map asciiLowerChar from rfl,
      List.mem_map] at hch
    obtain ⟨c0, hc0, rfl⟩ := hch
    rw [urlparse_netloc] at hc0
    exact asciiLower_not_delim c0 (urlsplit_netloc_nodelim (canonAbs base href) [] c0 hc0)
  · intro ch hch
    rw [show canonHost base href
      = (urlparse (canonAbs base href) []).netloc.map asciiLowerChar from rfl,
      List.mem_map] at hch
    obtain ⟨c0, hc0, rfl⟩ := hch
    rw [urlparse_netloc] at hc0
    exact asciiLower_not_unsafe c0
      ((urlsplit_fields_clean (canonAbs base href) []).1 c0 hc0)

theorem canonPath_facts (base href : String) :
    canonPath base href ≠ []
    ∧ (∀ ch ∈ canonPath base href, ch ≠ '?' ∧ ch ≠ '#')
    ∧ (∀ ch ∈ canonPath base href, ¬ (ch = '\t' ∨ ch = '\r' ∨ ch = '\n'))
    ∧ (canonPath base href).take 2 ≠ ['/', '/']
    ∧ normalize_path (canonPath base href) = canonPath base href := by
  refine ⟨normalize_path_ne_nil _, ?_, ?_, noDD_take2 _ (normalize_path_noDD _),
    normalize_path_idem _⟩
  · intro ch hch
    rcases normalize_path_subset _ ch hch with h' | rfl
    · have h'' : ch ∈ (urlsplit (canonAbs base href) []).path :=
        urlparse_path_subset (canonAbs base href) [] ch h'
      exact urlsplit_path_no_qf (canonAbs base href) [] ch h''
    · exact ⟨by decide, by decide⟩
  · intro ch hch
    rcases normalize_path_subset _ ch hch with h' | rfl
    · exact (urlsplit_fields_clean (canonAbs base href) []).2.1 ch
        (urlparse_path_subset (canonAbs base href) [] ch h')
    · decide

theorem canonHost_path_start (base href : String) (h : canonHost base href ≠ []) :
    (canonPath base href).take 1 = ['/'] := by
  have hn : (urlsplit (canonAbs base href) []).netloc ≠ [] := by
    intro he
    apply h
    rw [show canonHost base href
      = (urlparse (canonAbs base href) []).netloc.map asciiLowerChar from rfl,
      urlparse_netloc, he]
    rfl
  rcases urlsplit_netloc_path (canonAbs base href) [] hn with hnil | hst
  · obtain ⟨t, ht⟩ := normalize_path_starts (urlparse (canonAbs base href) []).path
      (Or.inl (urlparse_path_nil (canonAbs base href) [] hnil))
    rw [show canonPath base href
      = normalize_path (urlparse (canonAbs base href) []).path from rfl, ht]
    rfl
  · obtain ⟨t, ht⟩ := normalize_path_starts (urlparse (canonAbs base href) []).path
      (Or.inr (urlparse_path_start (canonAbs base href) [] hst))
    rw [show canonPath base href
      = normalize_path (urlparse (canonAbs base href) []).path from rfl, ht]
    rfl

theorem canonQs_cases (base href : String) :
    (canonQs base href = []
      ∧ ¬ (generic_paths.contains ⟨canonPath base href⟩ = true
          ∧ ¬ canonKeep base href = []))
    ∨ (generic_paths.contains ⟨canonPath base href⟩ = true
      ∧ ¬ canonKeep base href = []
      ∧ canonQs base href = (urlencodePairs (sortPairs (canonKeep base href))).data) := by
  unfold canonQs
  split
  · rename_i h
    exact Or.inr ⟨h.1, h.2, rfl⟩
  · rename_i h
    exact Or.inl ⟨rfl, h⟩

theorem canonQs_facts (base href : String) :
    (∀ ch ∈ canonQs base href, ch ≠ '#')
    ∧ (∀ ch ∈ canonQs base href, ¬ (ch = '\t' ∨ ch = '\r' ∨ ch = '\n')) := by
  rcases canonQs_cases base href with ⟨hq, _⟩ | ⟨_, _, hq⟩
  · rw [hq]
    exact ⟨by simp, by simp⟩
  · rw [hq]
    exact ⟨fun ch hch => (urlencodePairs_clean _ ch hch).1,
      fun ch hch => (urlencodePairs_clean _ ch hch).2⟩

theorem canonPath_sub_PP (base href : String) :
    ∀ ch ∈ canonPath base href, ch ∈ canonPP base href := by
  unfold canonPP
  intro ch hch
  split
  · split
    · exact hch
    · exact List.mem_cons_of_mem _ hch
  · exact hch

theorem canonPP_ne (base href : String) : canonPP base href ≠ [] := by
  unfold canonPP
  have h1 := (canonPath_facts base href).1
  split
  · split
    · exact h1
    · simp
  · exact h1

theorem canon_data (base href : String) (hne : ¬ href = "") :
    (canonicalize_category_link base href).1.data
      = urlunsplit ⟨canonScheme base href, canonHost base href,
          canonPath base href, canonQs base href, []⟩ := by
  rw [canonicalize_fst base href hne]
  rfl

theorem canon_reparse (base href : String) (hne : ¬ href = "") (ds : List Char) :
    urlsplit (canonicalize_category_link base href).1.data ds
      = ⟨canonScheme base href, canonHost base href, canonPP base href,
         canonQs base href, []⟩ := by
  obtain ⟨hS, hSa, hSc, hSlow⟩ := canonScheme_wf base href
  obtain ⟨hH, hHu, _⟩ := canonHost_facts base href
  obtain ⟨hPne, hPq, hPu, hP2, _⟩ := canonPath_facts base href
  obtain ⟨hQh, hQu⟩ := canonQs_facts base href
  rw [canon_data base href hne,
    urlsplit_canonical _ _ _ _ ds hS hSa hSc hSlow hH hHu hPne hPq hPu hP2 hQh hQu,
    show canonPP base href
      = (if canonHost base href ≠ []
            ∨ uses_netloc.contains ⟨canonScheme base href⟩ = true
         then (if (canonPath base href).take 1 = ['/'] then canonPath base href
               else '/' :: canonPath base href)
         else canonPath base href) from rfl]

theorem canon_reparse_parse (base href : String) (hne : ¬ href = "") (ds : List Char)
    (hPsemi : ∀ ch ∈ canonPath base href, ch ≠ ';') :
    urlparse (canonicalize_category_link base href).1.data ds
      = ⟨canonScheme base href, canonHost base href, canonPP base href, [],
         canonQs base href, []⟩ := by
  obtain ⟨hS, hSa, hSc, hSlow⟩ := canonScheme_wf base href
  obtain ⟨hH, hHu, _⟩ := canonHost_facts base href
  obtain ⟨hPne, hPq, hPu, hP2, _⟩ := canonPath_facts base href
  obtain ⟨hQh, hQu⟩ := canonQs_facts base href
  rw [canon_data base href hne,
    urlparse_canonical _ _ _ _ ds hS hSa hSc hSlow hH hHu hPne hPq hPu hP2 hQh hQu
      hPsemi,
    show canonPP base href
      = (if canonHost base href ≠ []
            ∨ uses_netloc.contains ⟨canonScheme base href⟩ = true
         then (if (canonPath base href).take 1 = ['/'] then canonPath base href
               else '/' :: canonPath base href)
         else canonPath base href) from rfl]

theorem canonicalize_fst_ne (base href : String) (hne : ¬ href = "") :
    ¬ (canonicalize_category_link base href).1 = "" := by
  rw [canonicalize_fst base href hne]
  intro he
  have hd := congrArg String.data he
  obtain ⟨t, ht⟩ := urlunparse_scheme_starts
    ⟨canonScheme base href, canonHost base href, canonPath base href, [],
      canonQs base href, []⟩ (canonScheme_wf base href).1
  rw [show (⟨urlunparse ⟨canonScheme base href, canonHost base href,
      canonPath base href, [], canonQs base href, []⟩⟩ : String).data
    = urlunparse ⟨canonScheme base href, canonHost base href,
      canonPath base href, [], canonQs base href, []⟩ from rfl, ht] at hd
  have hS := (canonScheme_wf base href).1
  cases hcs : canonScheme base href with
  | nil => exact hS hcs
  | cons a t' =>
    rw [hcs] at hd
    simp at hd

/-! ## The base URL carries no netloc when the canonical host is empty -/

theorem urlparse_pp_clean (u ds : List Char) :
    ∀ ch ∈ (if (urlparse u ds).params ≠ []
        then (urlparse u ds).path ++ ';' :: (urlparse u ds).params
        else (urlparse u ds).path), ¬ (ch = '\t' ∨ ch = '\r' ∨ ch = '\n') := by
  intro ch hch
  split at hch
  · rcases List.mem_append.mp hch with h' | h'
    · exact (urlsplit_fields_clean u ds).2.1 ch (urlparse_path_subset u ds ch h')
    · rcases List.mem_cons.mp h' with rfl | h'
      · decide
      · exact (urlsplit_fields_clean u ds).2.1 ch (urlparse_params_subset u ds ch h')
  · exact (urlsplit_fields_clean u ds).2.1 ch (urlparse_path_subset u ds ch hch)

theorem urlparse_scheme_wf_ds (u bs0 : List Char)
    (hbs0 : bs0 = [] ∨ (bs0 ≠ [] ∧ (bs0.take 1).all isAsciiAlpha = true
      ∧ bs0.all SCHEME_CHARS = true ∧ bs0.map asciiLowerChar = bs0))
    (hds : removeUnsafe ((bs0.dropWhile isC0OrSpace).reverse.dropWhile
      isC0OrSpace).reverse = bs0) :
    (urlparse u bs0).scheme = [] ∨ ((urlparse u bs0).scheme ≠ []
      ∧ ((urlparse u bs0).scheme.take 1).all isAsciiAlpha = true
      ∧ (urlparse u bs0).scheme.all SCHEME_CHARS = true
      ∧ (urlparse u bs0).scheme.map asciiLowerChar = (urlparse u bs0).scheme) := by
  rw [urlparse_scheme]
  rcases (urlsplit_ds u bs0 hds).2.2.2.2 with h | ⟨_, h⟩
  · rw [h]
    exact urlsplit_scheme_wf u
  · rw [h]
    exact hbs0

theorem canon_inv1 (base href : String) (hne : ¬ href = "")
    (hH0 : canonHost base href = [])
    (hSb : (urlparse base.data []).scheme = canonScheme base href)
    (hrel : uses_relative.contains ⟨canonScheme base href⟩ = true) :
    (urlparse base.data []).netloc = [] := by
  by_cases hb0 : base.data = []
  · rw [hb0]
    decide
  have hpn : (canonP base href).netloc = [] := by
    have h := hH0
    rw [show canonHost base href
      = (canonP base href).netloc.map asciiLowerChar from rfl] at h
    simpa using h
  by_contra hbn
  have hA : canonAbs base href = urldefrag (urljoin base.data (canonHref1 href)) := rfl
  have hh1ne : ¬ canonHref1 href = [] := by
    unfold canonHref1
    split
    · simp
    · intro he
      exact hne ((congrArg String.mk he).trans (by decide))
  have hbwf : (urlparse base.data []).scheme = []
      ∨ ((urlparse base.data []).scheme ≠ []
        ∧ ((urlparse base.data []).scheme.take 1).all isAsciiAlpha = true
        ∧ (urlparse base.data []).scheme.all SCHEME_CHARS = true
        ∧ (urlparse base.data []).scheme.map asciiLowerChar
            = (urlparse base.data []).scheme) := by
    rw [urlparse_scheme]
    exact urlsplit_scheme_wf base.data
  have hds : removeUnsafe (((urlparse base.data []).scheme.dropWhile
      isC0OrSpace).reverse.dropWhile isC0OrSpace).reverse
      = (urlparse base.data []).scheme := by
    apply clean_ds_scheme
    rcases hbwf with h | h
    · exact Or.inl h
    · exact Or.inr h.2.2.1
  by_cases hc1 : (urlparse (canonHref1 href) (urlparse base.data []).scheme).scheme
        ≠ (urlparse base.data []).scheme
      ∨ ¬ uses_relative.contains
          ⟨(urlparse (canonHref1 href) (urlparse base.data []).scheme).scheme⟩ = true
  · have hj := urljoin_branch1 base.data (canonHref1 href) hb0 hh1ne hc1
    rcases (urlsplit_ds (canonHref1 href) (urlparse base.data []).scheme hds).2.2.2.2
      with hsch | ⟨hdnil, hsch⟩
    · by_cases hd : (urlparse (canonHref1 href) []).scheme = []
      · have hu0s : (urlparse (canonHref1 href)
            (urlparse base.data []).scheme).scheme = [] := by
          rw [urlparse_scheme, hsch, ← urlparse_scheme]
          exact hd
        have hbs0 : (urlparse base.data []).scheme = [] := by
          apply urlsplit_scheme_nil_ds (canonHref1 href) _ hds
          rw [← urlparse_scheme]
          exact hu0s
        rcases hc1 with h' | h'
        · exact h' (by rw [hu0s, hbs0])
        · exact h' (by rw [hu0s]; decide)
      · have hps : (canonP base href).scheme
            = (urlparse (canonHref1 href) []).scheme := by
          show (urlparse (canonAbs base href) []).scheme = _
          rw [hA, hj]
          exact parse_defrag_scheme_of_detected (canonHref1 href) hd
        have hS : canonScheme base href = (urlparse (canonHref1 href) []).scheme := by
          unfold canonScheme
          rw [if_neg (by rw [hps]; exact hd)]
          exact hps
        rcases hc1 with h' | h'
        · apply h'
          rw [urlparse_scheme, hsch, ← urlparse_scheme, ← hS, ← hSb]
        · apply h'
          rw [urlparse_scheme, hsch, ← urlparse_scheme, ← hS]
          exact hrel
    · rcases hc1 with h' | h'
      · apply h'
        rw [urlparse_scheme]
        exact hsch
      · apply h'
        rw [urlparse_scheme, hsch, hSb]
        exact hrel
  · have hueq : (urlparse (canonHref1 href) (urlparse base.data []).scheme).scheme
        = (urlparse base.data []).scheme := of_not_not (not_or.mp hc1).1
    have hurel : uses_relative.contains
        ⟨(urlparse (canonHref1 href) (urlparse base.data []).scheme).scheme⟩ = true :=
      of_not_not (not_or.mp hc1).2
    have hunet : uses_netloc.contains
        ⟨(urlparse (canonHref1 href) (urlparse base.data []).scheme).scheme⟩ = true :=
      relative_sub_netloc _ hurel
    have hu0wf := urlparse_scheme_wf_ds (canonHref1 href)
      (urlparse base.data []).scheme hbwf hds
    have hu0nd : ∀ ch ∈ (urlparse (canonHref1 href)
        (urlparse base.data []).scheme).netloc, ¬ netlocDelim ch = true := by
      intro ch hch
      rw [urlparse_netloc] at hch
      exact urlsplit_netloc_nodelim _ _ ch hch
    have hu0ncl : ∀ ch ∈ (urlparse (canonHref1 href)
        (urlparse base.data []).scheme).netloc,
        ¬ (ch = '\t' ∨ ch = '\r' ∨ ch = '\n') := by
      intro ch hch
      rw [urlparse_netloc] at hch
      exact (urlsplit_fields_clean _ _).1 ch hch
    have hu0qcl : ∀ ch ∈ (urlparse (canonHref1 href)
        (urlparse base.data []).scheme).query,
        ¬ (ch = '\t' ∨ ch = '\r' ∨ ch = '\n') := by
      intro ch hch
      rw [urlparse_query] at hch
      exact (urlsplit_fields_clean _ _).2.2 ch hch
    have hu0fcl : ∀ ch ∈ (urlparse (canonHref1 href)
        (urlparse base.data []).scheme).fragment,
        ¬ (ch = '\t' ∨ ch = '\r' ∨ ch = '\n') := by
      intro ch hch
      rw [urlparse_fragment] at hch
      exact urlsplit_fragment_clean _ _ ch hch
    have hbnd : ∀ ch ∈ (urlparse base.data []).netloc, ¬ netlocDelim ch = true := by
      intro ch hch
      rw [urlparse_netloc] at hch
      exact urlsplit_netloc_nodelim _ _ ch hch
    have hbncl : ∀ ch ∈ (urlparse base.data []).netloc,
        ¬ (ch = '\t' ∨ ch = '\r' ∨ ch = '\n') := by
      intro ch hch
      rw [urlparse_netloc] at hch
      exact (urlsplit_fields_clean _ _).1 ch hch
    by_cases hc2 : uses_netloc.contains
          ⟨(urlparse (canonHref1 href) (urlparse base.data []).scheme).scheme⟩ = true
        ∧ (urlparse (canonHref1 href) (urlparse base.data []).scheme).netloc ≠ []
    · have hj := urljoin_branch2 base.data (canonHref1 href) hb0 hh1ne hc1 hc2
      have hpnet : (canonP base href).netloc
          = (urlparse (canonHref1 href) (urlparse base.data []).scheme).netloc := by
        show (urlparse (canonAbs base href) []).netloc = _
        rw [hA, hj]
        rw [show urlunparse
            ⟨(urlparse (canonHref1 href) (urlparse base.data []).scheme).scheme,
             (urlparse (canonHref1 href) (urlparse base.data []).scheme).netloc,
             (urlparse (canonHref1 href) (urlparse base.data []).scheme).path,
             (urlparse (canonHref1 href) (urlparse base.data []).scheme).params,
             (urlparse (canonHref1 href) (urlparse base.data []).scheme).query,
             (urlparse (canonHref1 href) (urlparse base.data []).scheme).fragment⟩
          = urlunsplit
            ⟨(urlparse (canonHref1 href) (urlparse base.data []).scheme).scheme,
             (urlparse (canonHref1 href) (urlparse base.data []).scheme).netloc,
             (if (urlparse (canonHref1 href) (urlparse base.data []).scheme).params ≠ []
              then (urlparse (canonHref1 href) (urlparse base.data []).scheme).path
                ++ ';' :: (urlparse (canonHref1 href)
                  (urlparse base.data []).scheme).params
              else (urlparse (canonHref1 href) (urlparse base.data []).scheme).path),
             (urlparse (canonHref1 href) (urlparse base.data []).scheme).query,
             (urlparse (canonHref1 href) (urlparse base.data []).scheme).fragment⟩
          from rfl]
        exact parse_defrag_netloc
          ⟨(urlparse (canonHref1 href) (urlparse base.data []).scheme).scheme,
           (urlparse (canonHref1 href) (urlparse base.data []).scheme).netloc,
           (if (urlparse (canonHref1 href) (urlparse base.data []).scheme).params ≠ []
            then (urlparse (canonHref1 href) (urlparse base.data []).scheme).path
              ++ ';' :: (urlparse (canonHref1 href)
                (urlparse base.data []).scheme).params
            else (urlparse (canonHref1 href) (urlparse base.data []).scheme).path),
           (urlparse (canonHref1 href) (urlparse base.data []).scheme).query,
           (urlparse (canonHref1 href) (urlparse base.data []).scheme).fragment⟩
          hc2.2 hu0nd hu0ncl
          (urlparse_pp_clean (canonHref1 href) (urlparse base.data []).scheme)
          hu0qcl hu0fcl hu0wf
      exact hc2.2 (by rw [← hpnet]; exact hpn)
    · by_cases hc3 : (urlparse (canonHref1 href) (urlparse base.data []).scheme).path = []
          ∧ (urlparse (canonHref1 href) (urlparse base.data []).scheme).params = []
      · have hj := urljoin_branch3 base.data (canonHref1 href) hb0 hh1ne hc1 hc2 hc3
        rw [if_pos hunet] at hj
        have hq3cl : ∀ ch ∈ (if (urlparse (canonHref1 href)
              (urlparse base.data []).scheme).query = []
            then (urlparse base.data []).query
            else (urlparse (canonHref1 href) (urlparse base.data []).scheme).query),
            ¬ (ch = '\t' ∨ ch = '\r' ∨ ch = '\n') := by
          intro ch hch
          split at hch
          · rw [urlparse_query] at hch
            exact (urlsplit_fields_clean _ _).2.2 ch hch
          · exact hu0qcl ch hch
        have hpnet : (canonP base href).netloc = (urlparse base.data []).netloc := by
          show (urlparse (canonAbs base href) []).netloc = _
          rw [hA, hj]
          rw [show urlunparse
              ⟨(urlparse (canonHref1 href) (urlparse base.data []).scheme).scheme,
               (urlparse base.data []).netloc,
               (urlparse base.data []).path,
               (urlparse base.data []).params,
               (if (urlparse (canonHref1 href) (urlparse base.data []).scheme).query = []
                then (urlparse base.data []).query
                else (urlparse (canonHref1 href) (urlparse base.data []).scheme).query),
               (urlparse (canonHref1 href) (urlparse base.data []).scheme).fragment⟩
            = urlunsplit
              ⟨(urlparse (canonHref1 href) (urlparse base.data []).scheme).scheme,
               (urlparse base.data []).netloc,
               (if (urlparse base.data []).params ≠ []
                then (urlparse base.data []).path ++ ';' :: (urlparse base.data []).params
                else (urlparse base.data []).path),
               (if (urlparse (canonHref1 href) (urlparse base.data []).scheme).query = []
                then (urlparse base.data []).query
                else (urlparse (canonHref1 href) (urlparse base.data []).scheme).query),
               (urlparse (canonHref1 href) (urlparse base.data []).scheme).fragment⟩
            from rfl]
          exact parse_defrag_netloc
            ⟨(urlparse (canonHref1 href) (urlparse base.data []).scheme).scheme,
             (urlparse base.data []).netloc,
             (if (urlparse base.data []).params ≠ []
              then (urlparse base.data []).path ++ ';' :: (urlparse base.data []).params
              else (urlparse base.data []).path),
             (if (urlparse (canonHref1 href) (urlparse base.data []).scheme).query = []
              then (urlparse base.data []).query
              else (urlparse (canonHref1 href) (urlparse base.data []).scheme).query),
             (urlparse (canonHref1 href) (urlparse base.data []).scheme).fragment⟩
            hbn hbnd hbncl (urlparse_pp_clean base.data []) hq3cl hu0fcl hu0wf
        exact hbn (by rw [← hpnet]; exact hpn)
      · have hj := urljoin_else base.data (canonHref1 href) hb0 hh1ne hc1 hc2 hc3
        rw [if_pos hunet] at hj
        have hJcl : ∀ ch ∈ joinMergePath (urlparse base.data []).path
            (urlparse (canonHref1 href) (urlparse base.data []).scheme).path,
            ¬ (ch = '\t' ∨ ch = '\r' ∨ ch = '\n') := by
          intro ch hch
          rcases joinMergePath_mem _ _ ch hch with h' | h' | rfl
          · exact (urlsplit_fields_clean _ _).2.1 ch
              (urlparse_path_subset base.data [] ch h')
          · exact (urlsplit_fields_clean _ _).2.1 ch
              (urlparse_path_subset (canonHref1 href)
                (urlparse base.data []).scheme ch h')
          · decide
        have hpp4 : ∀ ch ∈ (if (urlparse (canonHref1 href)
              (urlparse base.data []).scheme).params ≠ []
            then joinMergePath (urlparse base.data []).path
                (urlparse (canonHref1 href) (urlparse base.data []).scheme).path
              ++ ';' :: (urlparse (canonHref1 href)
                  (urlparse base.data []).scheme).params
            else joinMergePath (urlparse base.data []).path
              (urlparse (canonHref1 href) (urlparse base.data []).scheme).path),
            ¬ (ch = '\t' ∨ ch = '\r' ∨ ch = '\n') := by
          intro ch hch
          split at hch
          · rcases List.mem_append.mp hch with h' | h'
            · exact hJcl ch h'
            · rcases List.mem_cons.mp h' with rfl | h'
              · decide
              · exact (urlsplit_fields_clean _ _).2.1 ch
                  (urlparse_params_subset (canonHref1 href)
                    (urlparse base.data []).scheme ch h')
          · exact hJcl ch hch
        have hpnet : (canonP base href).netloc = (urlparse base.data []).netloc := by
          show (urlparse (canonAbs base href) []).netloc = _
          rw [hA, hj]
          rw [show urlunparse
              ⟨(urlparse (canonHref1 href) (urlparse base.data []).scheme).scheme,
               (urlparse base.data []).netloc,
               joinMergePath (urlparse base.data []).path
                 (urlparse (canonHref1 href) (urlparse base.data []).scheme).path,
               (urlparse (canonHref1 href) (urlparse base.data []).scheme).params,
               (urlparse (canonHref1 href) (urlparse base.data []).scheme).query,
               (urlparse (canonHref1 href) (urlparse base.data []).scheme).fragment⟩
            = urlunsplit
              ⟨(urlparse (canonHref1 href) (urlparse base.data []).scheme).scheme,
               (urlparse base.data []).netloc,
               (if (urlparse (canonHref1 href)
                    (urlparse base.data []).scheme).params ≠ []
                then joinMergePath (urlparse base.data []).path
                    (urlparse (canonHref1 href) (urlparse base.data []).scheme).path
                  ++ ';' :: (urlparse (canonHref1 href)
                      (urlparse base.data []).scheme).params
                else joinMergePath (urlparse base.data []).path
                  (urlparse (canonHref1 href)
                    (urlparse base.data []).scheme).path),
               (urlparse (canonHref1 href) (urlparse base.data []).scheme).query,
               (urlparse (canonHref1 href) (urlparse base.data []).scheme).fragment⟩
            from rfl]
          exact parse_defrag_netloc
            ⟨(urlparse (canonHref1 href) (urlparse base.data []).scheme).scheme,
             (urlparse base.data []).netloc,
             (if (urlparse (canonHref1 href)
                  (urlparse base.data []).scheme).params ≠ []
              then joinMergePath (urlparse base.data []).path
                  (urlparse (canonHref1 href) (urlparse base.data []).scheme).path
                ++ ';' :: (urlparse (canonHref1 href)
                    (urlparse base.data []).scheme).params
              else joinMergePath (urlparse base.data []).path
                (urlparse (canonHref1 href) (urlparse base.data []).scheme).path),
             (urlparse (canonHref1 href) (urlparse base.data []).scheme).query,
             (urlparse (canonHref1 href) (urlparse base.data []).scheme).fragment⟩
            hbn hbnd hbncl hpp4 hu0qcl hu0fcl hu0wf
        exact hbn (by rw [← hpnet]; exact hpn)

/-! ## Round-two stability of the canonical URL under urljoin -/

theorem canon_PP_unsplit (base href : String) (Q : List Char) :
    urlunsplit ⟨canonScheme base href, canonHost base href, canonPP base href, Q, []⟩
      = urlunsplit ⟨canonScheme base href, canonHost base href,
          canonPath base href, Q, []⟩ := by
  unfold canonPP
  by_cases hcond : canonHost base href ≠ []
      ∨ uses_netloc.contains ⟨canonScheme base href⟩ = true
  · rw [if_pos hcond]
    by_cases hp1 : (canonPath base href).take 1 = ['/']
    · rw [if_pos hp1]
    · rw [if_neg hp1]
      have hH0 : canonHost base href = [] := by
        by_contra hH
        exact hp1 (canonHost_path_start base href hH)
      have hnet : uses_netloc.contains ⟨canonScheme base href⟩ = true := by
        rcases hcond with h | h
        · exact absurd hH0 h
        · exact h
      rw [hH0]
      exact urlunsplit_slash_swap (canonScheme base href) (canonPath base href) Q
        (canonScheme_wf base href).1 (canonPath_facts base href).1 hp1
        (canonPath_facts base href).2.2.2.1 hnet
  · rw [if_neg hcond]

set_option maxHeartbeats 1600000 in
theorem canon_join_fixed (base href : String) (hne : ¬ href = "")
    (hsemi : ∀ ch ∈ canonPP base href, ch ≠ ';')
    (hdots : ∀ seg ∈ splitAllChar '/' (canonPP base href),
      seg ≠ ['.'] ∧ seg ≠ ['.', '.']) :
    urljoin base.data (canonicalize_category_link base href).1.data
      = (canonicalize_category_link base href).1.data := by
  have hPsemi : ∀ ch ∈ canonPath base href, ch ≠ ';' :=
    fun ch hch => hsemi ch (canonPath_sub_PP base href ch hch)
  have hu := canon_reparse_parse base href hne (urlparse base.data []).scheme hPsemi
  have hcdata := canon_data base href hne
  have hcne : ¬ (canonicalize_category_link base href).1.data = [] := by
    intro he
    exact canonicalize_fst_ne base href hne ((congrArg String.mk he).trans (by decide))
  by_cases hb0 : base.data = []
  · rw [hb0, urljoin_nil_base]
  by_cases hbr1 : (urlparse (canonicalize_category_link base href).1.data
        (urlparse base.data []).scheme).scheme ≠ (urlparse base.data []).scheme
      ∨ ¬ uses_relative.contains
          ⟨(urlparse (canonicalize_category_link base href).1.data
            (urlparse base.data []).scheme).scheme⟩ = true
  · exact urljoin_branch1 base.data _ hb0 hcne hbr1
  · have hSb' : canonScheme base href = (urlparse base.data []).scheme := by
      have h := of_not_not (not_or.mp hbr1).1
      rw [hu] at h
      exact h
    have hrel : uses_relative.contains ⟨canonScheme base href⟩ = true := by
      have h := of_not_not (not_or.mp hbr1).2
      rw [hu] at h
      exact h
    have hnetS : uses_netloc.contains ⟨canonScheme base href⟩ = true :=
      relative_sub_netloc _ hrel
    by_cases hH0 : canonHost base href = []
    · -- merge branch: the base contributes nothing
      have hbn : (urlparse base.data []).netloc = [] :=
        canon_inv1 base href hne hH0 hSb'.symm hrel
      have hc2n : ¬ (uses_netloc.contains
            ⟨(urlparse (canonicalize_category_link base href).1.data
              (urlparse base.data []).scheme).scheme⟩ = true
          ∧ (urlparse (canonicalize_category_link base href).1.data
              (urlparse base.data []).scheme).netloc ≠ []) := by
        rw [hu]
        rintro ⟨_, hnl⟩
        exact hnl hH0
      have hc3n : ¬ ((urlparse (canonicalize_category_link base href).1.data
            (urlparse base.data []).scheme).path = []
          ∧ (urlparse (canonicalize_category_link base href).1.data
              (urlparse base.data []).scheme).params = []) := by
        rw [hu]
        rintro ⟨hp, _⟩
        exact canonPP_ne base href hp
      have hj := urljoin_else base.data _ hb0 hcne hbr1 hc2n hc3n
      rw [hu] at hj
      have hj' : urljoin base.data (canonicalize_category_link base href).1.data
          = urlunparse ⟨canonScheme base href,
             (if uses_netloc.contains ⟨canonScheme base href⟩ = true
              then (urlparse base.data []).netloc else canonHost base href),
             joinMergePath (urlparse base.data []).path (canonPP base href),
             [], canonQs base href, []⟩ := hj
      rw [if_pos hnetS] at hj'
      have hbn' : (urlparse base.data []).netloc = canonHost base href :=
        hbn.trans hH0.symm
      rw [hbn'] at hj'
      have hPP1 : (canonPP base href).take 1 = ['/'] := by
        unfold canonPP
        rw [if_pos (Or.inr hnetS)]
        by_cases hp1 : (canonPath base href).take 1 = ['/']
        · rw [if_pos hp1]
          exact hp1
        · rw [if_neg hp1]
          rfl
      have hJMP : joinMergePath (urlparse base.data []).path (canonPP base href)
          = canonPP base href := by
        unfold joinMergePath
        rw [if_pos hPP1, resolveDots_id _ hdots, joinChar_splitAllChar,
          if_neg (canonPP_ne base href)]
      rw [hJMP] at hj'
      have hfinal : urljoin base.data (canonicalize_category_link base href).1.data
          = urlunsplit ⟨canonScheme base href, canonHost base href,
              canonPP base href, canonQs base href, []⟩ := hj'
      rw [hfinal, canon_PP_unsplit base href (canonQs base href), ← hcdata]
    · -- netloc branch: the record is rebuilt verbatim
      have hc2 : uses_netloc.contains
            ⟨(urlparse (canonicalize_category_link base href).1.data
              (urlparse base.data []).scheme).scheme⟩ = true
          ∧ (urlparse (canonicalize_category_link base href).1.data
              (urlparse base.data []).scheme).netloc ≠ [] := by
        rw [hu]
        exact ⟨hnetS, hH0⟩
      have hj := urljoin_branch2 base.data _ hb0 hcne hbr1 hc2
      rw [hu] at hj
      have hj' : urljoin base.data (canonicalize_category_link base href).1.data
          = urlunparse ⟨canonScheme base href, canonHost base href,
              canonPP base href, [], canonQs base href, []⟩ := hj
      have hfinal : urljoin base.data (canonicalize_category_link base href).1.data
          = urlunsplit ⟨canonScheme base href, canonHost base href,
              canonPP base href, canonQs base href, []⟩ := hj'
      rw [hfinal, canon_PP_unsplit base href (canonQs base href), ← hcdata]

/-! ## Claim theorems -/


/-- Claim C1 (corrected): the acceptance rule of `fetch_until_new`, for calls
with `min_new_required ≥ 1` (the engine's configured minimum): an attempt
whose deduplicated identity list contains at least `min_new_required`
identities outside `known_ids`, arriving after attempts that did not trigger
acceptance, makes the engine return immediately with that attempt's records,
identities and attempt number, whatever the remaining attempts would have
produced.  (As literally stated — for every call — the claim fails at
`min_new_required = 0`: an attempt with zero products is retried even though
its empty identity list contains at least zero new identities.) -/
theorem fetch_until_new_acceptance
    (known : List String) (minNew : Nat) (pre : List FetchResult) (fs : List Fragment)
    (rest : List FetchResult) (ps : List Record) (ids : List String)
    (hmin : 1 ≤ minNew) (hrej : ∀ g ∈ pre, rejects known minNew g = true)
    (hcrawl : crawl_once fs = .ok (ps, ids)) (hnew : minNew ≤ (newIds known ids).length) :
    (fetch_until_new known minNew (pre ++ .frags fs :: rest)).result
      = .ok (ps, ids, pre.length + 1) :=
  fetchGo_accept_after known minNew pre fs ps ids rest hmin hrej hcrawl hnew

/-- Claim C1 witness: with `known_ids = [A, B]` and `min_new_required = 1`, an
attempt yielding identities `[A, B]` is rejected and retried, and the next
attempt yielding `[A, C]` is accepted at attempt 2. -/
theorem fetch_until_new_acceptance_witness :
    (fetch_until_new ["A", "B"] 1
      [.frags [⟨true, "", some [[("data_item_id", "A")], [("data_item_id", "B")]]⟩],
       .frags [⟨true, "", some [[("data_item_id", "A")], [("data_item_id", "C")]]⟩]]).result
      = .ok ([[("data_item_id", "A")], [("data_item_id", "C")]], ["A", "C"], 2) :=
  fetch_until_new_acceptance ["A", "B"] 1
    [.frags [⟨true, "", some [[("data_item_id", "A")], [("data_item_id", "B")]]⟩]]
    [⟨true, "", some [[("data_item_id", "A")], [("data_item_id", "C")]]⟩] []
    [[("data_item_id", "A")], [("data_item_id", "C")]] ["A", "C"]
    (by decide) (by decide) (by decide) (by decide)

/-- Claim C1 counterexample: with `min_new_required = 0` an attempt with an
empty record list satisfies the claim's premise (its identity list contains
at least `0` identities outside `known_ids`) yet the engine retries instead
of returning that attempt's data with attempt number 1. -/
theorem fetch_until_new_min_new_zero_counterexample :
    (fetch_until_new [] 0 [.frags [⟨true, "", some []⟩], .frags [⟨true, "", some []⟩]]).result
      = .ok ([], [], 2)
    ∧ (fetch_until_new [] 0 [.frags [⟨true, "", some []⟩], .frags [⟨true, "", some []⟩]]).result
      ≠ .ok ([], [], 1) := by decide

/-- Claim C2 (confirmed): with `max_attempts = 5`, `min_new_required ≥ 1`
(the engine's configured minimum) and every attempt completing but yielding
zero new identities, the engine performs all 5 attempts and returns the last
attempt's records and identities with `attempts_used = 5`, raising nothing. -/
theorem fetch_until_new_exhaustion
    (known : List String) (minNew : Nat) (pre : List FetchResult) (f : FetchResult)
    (ps : List Record) (ids : List String)
    (hmin : 1 ≤ minNew) (hlen : pre.length = 4)
    (hzero : ∀ g ∈ pre ++ [f], completedZeroNew known g = true)
    (hf : attemptStep f = .got ps ids) :
    (fetch_until_new known minNew (pre ++ [f])).result = .ok (ps, ids, 5) := by
  have hrej : ∀ g ∈ pre ++ [f], rejects known minNew g = true := by
    intro g hg
    have hz := hzero g hg
    unfold completedZeroNew at hz
    unfold rejects
    cases hstep : attemptStep g with
    | blockedEvent => rfl
    | got qs jds =>
      rw [hstep] at hz
      have hlen0 : (newIds known jds).length = 0 := by
        rw [List.isEmpty_iff] at hz
        simp [hz]
      have hlt : (newIds known jds).length < minNew := by omega
      simp [hlt]
  unfold fetch_until_new
  rw [fetchGo_exhaust _ _ _ _ hrej, lastGot_append]
  simp [lastGot, hf, List.length_append, hlen]

/-- Claim C2 witness: five attempts each returning only the already-known
identity `A` exhaust the budget and return `attempts_used = 5`. -/
theorem fetch_until_new_exhaustion_witness :
    (fetch_until_new ["A"] 1
      [.frags [⟨true, "", some [[("data_item_id", "A")]]⟩],
       .frags [⟨true, "", some [[("data_item_id", "A")]]⟩],
       .frags [⟨true, "", some [[("data_item_id", "A")]]⟩],
       .frags [⟨true, "", some [[("data_item_id", "A")]]⟩],
       .frags [⟨true, "", some [[("data_item_id", "A")]]⟩]]).result
      = .ok ([[("data_item_id", "A")]], ["A"], 5) :=
  fetch_until_new_exhaustion ["A"] 1
    [.frags [⟨true, "", some [[("data_item_id", "A")]]⟩],
     .frags [⟨true, "", some [[("data_item_id", "A")]]⟩],
     .frags [⟨true, "", some [[("data_item_id", "A")]]⟩],
     .frags [⟨true, "", some [[("data_item_id", "A")]]⟩]]
    (.frags [⟨true, "", some [[("data_item_id", "A")]]⟩])
    [[("data_item_id", "A")]] ["A"]
    (by decide) (by decide) (by decide) (by decide)

/-- Claim C3 (confirmed): (1) `crawl_once` raises its blocked error exactly
when block signatures were detected and zero usable records were aggregated;
(2) such an attempt makes `fetch_until_new` sleep the block cooldown drawn
from the 35-75s interval (not the exponential backoff) and retry with the
attempt budget and loop state it had; (3) an attempt that looks blocked but
still yields records is processed normally and accepted when it meets the
acceptance threshold. -/
theorem block_event_escalation :
    (∀ fs : List Fragment,
        crawl_once fs = .error .mk
          ↔ blockedDetected fs = true ∧ aggregateFragments fs = [])
    ∧ (∀ (known : List String) (minNew maxR : Nat) (rest : List FetchResult) (a : Nat)
        (last : Option (List Record × List String)) (fs : List Fragment),
        crawl_once fs = .error .mk →
        fetchGo known minNew maxR (.frags fs :: rest) a last
          = consSleep (.blockCooldown 35 75) (fetchGo known minNew maxR rest (a + 1) last))
    ∧ (∀ (known : List String) (minNew : Nat) (rest : List FetchResult) (fs : List Fragment)
        (ps : List Record) (ids : List String),
        1 ≤ minNew → blockedDetected fs = true → crawl_once fs = .ok (ps, ids) →
        minNew ≤ (newIds known ids).length →
        (fetch_until_new known minNew (.frags fs :: rest)).result = .ok (ps, ids, 1)) := by
  refine ⟨?_, ?_, ?_⟩
  · intro fs
    unfold crawl_once
    by_cases h : blockedDetected fs = true ∧ aggregateFragments fs = []
    · rw [if_pos h]
      simp [h]
    · rw [if_neg h]
      simp [h]
  · intro known minNew maxR rest a last fs hcrawl
    have hstep : attemptStep (.frags fs) = .blockedEvent := by
      simp [attemptStep, hcrawl]
    simp [fetchGo, hstep, BLOCK_COOLDOWN_RANGE]
  · intro known minNew rest fs ps ids hmin hblocked hcrawl hnew
    have h := fetchGo_accept_after known minNew [] fs ps ids rest hmin (by simp) hcrawl hnew
    simpa using h

/-- Claim C3 witness: a blocked-looking attempt that still yields the new
record `N` is accepted at attempt 1. -/
theorem block_event_escalation_witness :
    blockedDetected [⟨true, "captcha", some [[("data_item_id", "N")]]⟩] = true
    ∧ (fetch_until_new [] 1
        [.frags [⟨true, "captcha", some [[("data_item_id", "N")]]⟩]]).result
      = .ok ([[("data_item_id", "N")]], ["N"], 1) :=
  ⟨by decide,
   block_event_escalation.2.2 [] 1 [] [⟨true, "captcha", some [[("data_item_id", "N")]]⟩]
     [[("data_item_id", "N")]] ["N"] (by decide) (by decide) (by decide) (by decide)⟩

/-- Claim C4 (corrected): in the paginated harvest flow the only per-page
write is the `page_<n>.json` snapshot of that page's new records; the
products file (`RecordStore`) and the pages-index file (`PageIndex`) are
flushed exactly once, after the whole page loop. -/
theorem harvest_store_flush_at_end (st : StoreSt) (pages : List (List Record)) :
    ∃ pre, harvest_writes st pages
        = pre ++ [WriteEvent.productsFile, WriteEvent.pagesIndexFile]
      ∧ ∀ e ∈ pre, ∃ n, e = WriteEvent.pageFile n :=
  harvestGo_structure pages st 1

/-- Claim C4 counterexample: a run over two pages that both complete performs
no products-file or pages-index write after page 1 (nor page 2); both are
written only once, at the very end of the run. -/
theorem harvest_store_flush_counterexample :
    harvest_writes ⟨[], []⟩ [[[("data_item_id", "A")]], [[("data_item_id", "B")]]]
      = [.pageFile 1, .pageFile 2, .productsFile, .pagesIndexFile]
    ∧ (harvest_writes ⟨[], []⟩ [[[("data_item_id", "A")]], [[("data_item_id", "B")]]]).countP
        (fun e => e = .productsFile) = 1
    ∧ ((harvest_writes ⟨[], []⟩ [[[("data_item_id", "A")]], [[("data_item_id", "B")]]]).take 2).countP
        (fun e => e = .productsFile) = 0 := by decide

/-- Claim C6 (corrected): the planner computes
`page_count = max 1 ⌈total_items / 40⌉` with the platform constant
`PRODUCTS_PER_PAGE = 40`; for `total_items = 1114` this is 28 (не 29). -/
theorem total_pages_ceil_formula :
    (∀ t : Nat, total_pages_from_items t = max 1 ⌈(t : ℚ) / (PRODUCTS_PER_PAGE : ℚ)⌉₊)
    ∧ total_pages_from_items 1114 = 28 := by
  constructor
  · intro t
    by_cases ht : t = 0
    · subst ht
      simp [total_pages_from_items]
    · have h40 : (0 : ℚ) < 40 := by norm_num
      have hd := Nat.div_add_mod (t + 39) 40
      have hm : (t + 39) % 40 < 40 := Nat.mod_lt _ (by norm_num)
      have h1t : 1 ≤ t := Nat.one_le_iff_ne_zero.mpr ht
      have hne : (t + 39) / 40 ≠ 0 := by omega
      have hub : (t : ℚ) / 40 ≤ ((t + 39) / 40 : ℕ) := by
        rw [div_le_iff₀ h40]
        exact_mod_cast (by omega : t ≤ (t + 39) / 40 * 40)
      have hlb : (((t + 39) / 40 - 1 : ℕ) : ℚ) < (t : ℚ) / 40 := by
        rw [lt_div_iff₀ h40]
        exact_mod_cast (by omega : ((t + 39) / 40 - 1) * 40 < t)
      have hceil : ⌈(t : ℚ) / 40⌉₊ = (t + 39) / 40 :=
        (Nat.ceil_eq_iff hne).mpr ⟨hlb, hub⟩
      simp only [total_pages_from_items, PRODUCTS_PER_PAGE, if_neg ht]
      rw [show ((40 : ℕ) : ℚ) = (40 : ℚ) by norm_num, hceil,
        show t + 40 - 1 = t + 39 by omega]
  · decide

/-- Claim C6 counterexample: `ceil(1114 / 40)` is 28, not the claimed 29. -/
theorem total_pages_1114_counterexample :
    total_pages_from_items 1114 = 28 ∧ total_pages_from_items 1114 ≠ 29 := by decide

/-- Claim C9 (corrected): the in-run merge is first-wins, not overwrite:
merging the same record twice equals merging it once (size and stored value
unchanged); a record whose identity is empty or already known is ignored
entirely; for an already-known identity the stored record never changes; and
the store keeps exactly one entry per identity. -/
theorem merge_first_wins :
    (∀ (st : StoreSt) (p : Record), mergePage st [p, p] = mergePage st [p])
    ∧ (∀ (st : StoreSt) (ps : List Record) (p : Record),
        get_product_id p = "" ∨ st.known.contains (get_product_id p) = true →
        mergePage st (p :: ps) = mergePage st ps)
    ∧ (∀ (st : StoreSt) (ps : List Record) (pid : String),
        st.known.contains pid = true →
        storeGet (mergePage st ps).1 pid = storeGet st pid)
    ∧ (∀ (st : StoreSt) (ps : List Record),
        (∀ k ∈ storeKeys st, st.known.contains k = true) → (storeKeys st).Nodup →
        (storeKeys (mergePage st ps).1).Nodup) :=
  ⟨mergePage_pair_self,
   mergePage_skip,
   mergePage_get_known,
   fun st ps hsub hnd => (mergePage_nodup st ps hsub hnd).1⟩

/-- Claim C9 witness: in a store already holding identity `A`, merging a
different record with identity `A` leaves the stored record unchanged, and
merging a record twice equals merging it once. -/
theorem merge_first_wins_witness :
    storeGet (mergePage ⟨["A"], [("A", [("data_item_id", "A"), ("price", "1")])]⟩
        [[("data_item_id", "A"), ("price", "2")]]).1 "A"
      = some [("data_item_id", "A"), ("price", "1")]
    ∧ mergePage ⟨[], []⟩
        [[("data_item_id", "B")], [("data_item_id", "B")]]
      = mergePage ⟨[], []⟩ [[("data_item_id", "B")]] := by
  constructor
  · rw [merge_first_wins.2.2.1 ⟨["A"], [("A", [("data_item_id", "A"), ("price", "1")])]⟩
      [[("data_item_id", "A"), ("price", "2")]] "A" (by decide)]
    decide
  · exact merge_first_wins.1 ⟨[], []⟩ [("data_item_id", "B")]

/-- Claim C9 counterexample: merging two distinct records that share identity
`A` stores the first, not the most recent: later merges do not overwrite. -/
theorem merge_no_overwrite_counterexample :
    (mergePage ⟨[], []⟩
        [[("data_item_id", "A"), ("price", "1")], [("data_item_id", "A"), ("price", "2")]]).1.store
      = [("A", [("data_item_id", "A"), ("price", "1")])]
    ∧ get_product_id [("data_item_id", "A"), ("price", "2")] = "A"
    ∧ storeGet (mergePage ⟨[], []⟩
        [[("data_item_id", "A"), ("price", "1")], [("data_item_id", "A"), ("price", "2")]]).1 "A"
      ≠ some [("data_item_id", "A"), ("price", "2")] := by decide

/-- Claim C10 (confirmed): if every attempt ends in a block event, the
`products, ids` locals are never assigned and the final return of
`fetch_until_new` raises `UnboundLocalError` instead of returning the
documented soft-failure triple. -/
theorem fetch_until_new_all_blocked_raises (known : List String) (minNew : Nat)
    (fetches : List FetchResult) (hb : ∀ g ∈ fetches, attemptStep g = .blockedEvent) :
    (fetch_until_new known minNew fetches).result = .error .unboundLocalError := by
  have hrej : ∀ g ∈ fetches, rejects known minNew g = true := by
    intro g hg
    unfold rejects
    rw [hb g hg]
  unfold fetch_until_new
  rw [fetchGo_exhaust _ _ _ _ hrej, lastGot_all_blocked _ _ hb]

/-- Claim C10 witness: a single attempt served a captcha page with no usable
payload raises rather than returning. -/
theorem fetch_until_new_all_blocked_raises_witness :
    (fetch_until_new ["A"] 1 [.frags [⟨true, "captcha", none⟩]]).result
      = .error .unboundLocalError :=
  fetch_until_new_all_blocked_raises ["A"] 1 [.frags [⟨true, "captcha", none⟩]] (by decide)

/-- Claim C7 (corrected): a protocol-relative `href` (one beginning with
`//`) is upgraded by prefixing the literal string `"https:"` — not the base
URL's scheme — before resolution, and for every base URL and every such
`href` the resulting canonical URL begins with `"https:"`.  (As literally
stated the claim fails: the canonical URL carries scheme `https` even when
the base URL's scheme is `http`.) -/
theorem protocol_relative_upgrade (base href : String)
    (h : href.data.take 2 = ['/', '/']) :
    ∃ rest, (canonicalize_category_link base href).1.data = "https:".data ++ rest := by
  have hne : href ≠ "" := by
    intro he
    rw [he] at h
    simp at h
  set c := canonicalize_category_link base href with hc
  simp only [canonicalize_category_link] at hc
  rw [if_neg hne, if_pos h] at hc
  obtain ⟨r1, hr1⟩ := urljoin_https_starts base.data href.data
  rw [hr1] at hc
  obtain ⟨r2, hr2⟩ := urldefrag_https_starts r1
  rw [hr2] at hc
  have hps : (urlparse ("https:".data ++ r2) []).scheme = "https".data := by
    rw [urlparse_scheme, urlsplit_append_https]
  rw [hps] at hc
  rw [if_neg (show ¬ ("https".data : List Char) = [] by decide)] at hc
  obtain ⟨t, ht⟩ := urlunparse_https_head "https".data
    ((urlparse ("https:".data ++ r2) []).netloc.map asciiLowerChar)
    (normalize_path (urlparse ("https:".data ++ r2) []).path) []
    (if generic_paths.contains
          ⟨normalize_path (urlparse ("https:".data ++ r2) []).path⟩ = true ∧
        ¬keepWithFallback (parse_qsl ⟨(urlparse ("https:".data ++ r2) []).query⟩) = []
      then (urlencodePairs (sortPairs
        (keepWithFallback (parse_qsl ⟨(urlparse ("https:".data ++ r2) []).query⟩)))).data
      else []) [] rfl
  rw [ht] at hc
  exact ⟨t, by rw [hc]⟩

/-- Claim C7 witness: base `http://example.com/` with protocol-relative href
`//foo.org/a` produces a canonical URL beginning with `https:`. -/
theorem protocol_relative_upgrade_witness :
    ("//foo.org/a" : String).data.take 2 = ['/', '/'] ∧
    ∃ rest, (canonicalize_category_link "http://example.com/" "//foo.org/a").1.data
      = "https:".data ++ rest :=
  ⟨by decide, protocol_relative_upgrade "http://example.com/" "//foo.org/a" (by decide)⟩

/-- Claim C7 counterexample: with base `http://example.com/` (scheme `http`)
the protocol-relative href `//foo.org/a` canonicalizes to
`https://foo.org/a`, whose scheme `https` is not the base URL's scheme. -/
theorem protocol_relative_not_base_scheme_counterexample :
    (canonicalize_category_link "http://example.com/" "//foo.org/a").1 = "https://foo.org/a" ∧
    (urlsplit "http://example.com/".data []).scheme = "http".data ∧
    (urlsplit (canonicalize_category_link "http://example.com/" "//foo.org/a").1.data []).scheme
      ≠ (urlsplit "http://example.com/".data []).scheme := by decide

/-- Claim C8 (corrected): the fallback category-id extraction and injection.
The `params`-JSON scan returns the first key in the ordered list whose value
has a nonempty stripped string form; the kept-parameter mapping holds only
whitelisted keys with nonempty values; and when a fallback id was extracted
it is appended under the primary key `categoryId` exactly when no whitelist
key made it into the kept mapping (key present with nonempty value) — not,
as literally claimed, when no whitelist key was present verbatim in the
original query string. -/
theorem fallback_category_injection (q_pairs : List (String × String)) (fields : JObject) :
    (scanCatKeys fields CAT_KEYS = CAT_KEYS.findSome? (fun k =>
      (jobjLookup fields k).bind (fun v =>
        if pyStrip ⟨pyStrOfJValue v⟩ = "" then none
        else some (pyStrip ⟨pyStrOfJValue v⟩)))) ∧
    (∀ kv ∈ buildKeep q_pairs, kv.1 ∈ WHITELIST ∧ kv.2 ≠ "") ∧
    (∀ cat, catFromParams (lookupLast q_pairs "params") = some cat →
      (∀ k ∈ WHITELIST, k ∉ (buildKeep q_pairs).map Prod.fst) →
      keepWithFallback q_pairs = buildKeep q_pairs ++ [("categoryId", cat)]) ∧
    ((∃ k ∈ WHITELIST, k ∈ (buildKeep q_pairs).map Prod.fst) →
      keepWithFallback q_pairs = buildKeep q_pairs) ∧
    (catFromParams (lookupLast q_pairs "params") = none →
      keepWithFallback q_pairs = buildKeep q_pairs) :=
  ⟨scanCatKeys_eq_findSome fields CAT_KEYS,
   buildKeep_mem q_pairs,
   fun cat hc hn => keepWithFallback_inject q_pairs cat hc hn,
   fun hs => keepWithFallback_kept q_pairs hs,
   fun hc => keepWithFallback_nofallback q_pairs hc⟩

/-- Claim C8 witness: a query whose only usable category information is the
`params` JSON gets `categoryId` injected; one with a kept whitelist key does
not; one with no `params` JSON keeps the mapping unchanged. -/
theorem fallback_category_injection_witness :
    keepWithFallback [("x", "1"), ("params", "\x7b\"catId\": \"7\"\x7d")]
      = buildKeep [("x", "1"), ("params", "\x7b\"catId\": \"7\"\x7d")] ++ [("categoryId", "7")] ∧
    keepWithFallback [("catId", "9"), ("params", "\x7b\"catId\": \"7\"\x7d")]
      = buildKeep [("catId", "9"), ("params", "\x7b\"catId\": \"7\"\x7d")] ∧
    keepWithFallback [("a", "1")] = buildKeep [("a", "1")] :=
  ⟨(fallback_category_injection [("x", "1"), ("params", "\x7b\"catId\": \"7\"\x7d")]
      JObject.nil).2.2.1 "7" (by decide) (by decide),
   (fallback_category_injection [("catId", "9"), ("params", "\x7b\"catId\": \"7\"\x7d")]
      JObject.nil).2.2.2.1 ⟨"catId", by decide, by decide⟩,
   (fallback_category_injection [("a", "1")] JObject.nil).2.2.2.2 (by decide)⟩

/-- Claim C8 counterexample: in the query
`categoryId=&params=%7B%22catId%22%3A%227%22%7D` the whitelist key
`categoryId` is present verbatim, yet (its value being empty) the fallback id
`7` from the `params` JSON is still injected under `categoryId`, so the
claimed "exactly when none of the whitelist keys were present verbatim in
the original query string" fails. -/
theorem fallback_injection_verbatim_counterexample :
    ((parse_qsl "categoryId=&params=%7B%22catId%22%3A%227%22%7D").map Prod.fst).contains
      "categoryId" = true ∧
    keepWithFallback (parse_qsl "categoryId=&params=%7B%22catId%22%3A%227%22%7D")
      = [("categoryId", "7")] ∧
    canonicalize_category_link "https://h/" "/catalog?categoryId=&params=%7B%22catId%22%3A%227%22%7D"
      = ("https://h/catalog?categoryId=7", "h/catalog?categoryId=7") := by decide

-- SCRATCH (to be removed)
example : urlsplit "https://h/a;x".data [] = ⟨"https".data, "h".data, "/a;x".data, [], []⟩ := by decide
example : urlparse "https://h/a;x".data [] = ⟨"https".data, "h".data, "/a".data, "x".data, [], []⟩ := by decide
example : urljoin "https://h/".data "/a;x/".data = "https://h/a;x/".data := by decide
example : urljoin "https:a/".data "y".data = "https:///a/y".data := by decide
example : urljoin "".data "//h/p".data = "//h/p".data := by decide
example : urljoin "https://www.daraz.com.bd/".data "/sanders?ref=123".data = "https://www.daraz.com.bd/sanders?ref=123".data := by decide
example : urljoin "https:..".data "?x".data = "https:///..?x".data := by decide
example : urldefrag "https://h/p#frag?q".data = "https://h/p".data := by decide
example : urlsplit "HTTPS://WWW.Daraz.com.bd/x?q=1#f".data [] =
    ⟨"https".data, "WWW.Daraz.com.bd".data, "/x".data, "q=1".data, "f".data⟩ := by decide
example : urljoin "http://example.com/".data "https://foo.org/a".data = "https://foo.org/a".data := by decide
example : urljoin "http://h/x/".data "rel/p".data = "http://h/x/rel/p".data := by decide
example : urljoin "http://h/x/y".data "../p".data = "http://h/p".data := by decide

-- SCRATCH2
example : pyQuotePlus "a b+c" = "a+b%2Bc" := by decide
example : pyQuotePlus "ব" = "%E0%A6%AC" := by decide
example : pyUnquotePlus "a+b%2Bc" = "a b+c" := by decide
example : parse_qsl "a=1&b=%E0%A6%AC+x&c" = [("a", "1"), ("b", "ব x"), ("c", "")] := by decide
example : urlencodePairs [("categoryId", "10")] = "categoryId=10" := by decide
example : urlencodePairs [("cat", "a b+é")] = "cat=a+b%2B%C3%A9" := by decide
example : parse_qsl (urlencodePairs [("cat", "a b+é"), ("k", "=&#?")])
    = [("cat", "a b+é"), ("k", "=&#?")] := by decide
-- SCRATCH3
example : json_loads "\x7b\"catId\": \"7\"\x7d" = some (.jobj (.cons "catId" (.jstr "7") .nil)) := by decide
example : json_loads "[1, 2]" = some (.jarr (.cons (.jint 1) (.cons (.jint 2) .nil))) := by decide
example : json_loads "\x7b\"a\":1.5e3\x7d" = some (.jobj (.cons "a" (.jnum "1.5e3") .nil)) := by decide
example : json_loads "tru" = none := by decide
example : canonicalize_category_link "https://www.daraz.com.bd/" "/catalog?categoryId=10&utm_source=x"
    = ("https://www.daraz.com.bd/catalog?categoryId=10", "daraz.com.bd/catalog?categoryId=10") := by decide
example : canonicalize_category_link "https://www.daraz.com.bd/" "/sanders?ref=123"
    = ("https://www.daraz.com.bd/sanders", "daraz.com.bd/sanders") := by decide
example : canonicalize_category_link "http://example.com/" "//foo.org/a"
    = ("https://foo.org/a", "foo.org/a") := by decide
example : canonicalize_category_link "https://h/" "/a;x/" = ("https://h/a;x", "h/a;x") := by decide
example : canonicalize_category_link "https://h/" "https://h/a;x" = ("https://h/a", "h/a") := by decide
example : canonicalize_category_link "https:.." "?x" = ("https:///..", "/..") := by decide
example : canonicalize_category_link "https:.." "https:///.." = ("https:///", "/") := by decide
example : canonicalize_category_link "https://h/" "/catalog?params=%7B%22catId%22%3A%20%227%22%7D"
    = ("https://h/catalog?categoryId=7", "h/catalog?categoryId=7") := by decide
example : canonicalize_category_link "https://h/" "/catalog?categoryId=&params=%7B%22catId%22%3A%227%22%7D"
    = ("https://h/catalog?categoryId=7", "h/catalog?categoryId=7") := by decide
example : canonicalize_category_link "https://h/" "/search?cat=+9+&cat="
    = ("https://h/search?cat=9", "h/search?cat=9") := by decide
-- SCRATCH4
example : get_product_id [("data_item_id", " A1 ")] = "A1" := by decide
example : get_product_id [("data_item_id", "  "), ("data_sku_simple", "424381164_BD-2071091963")] = "424381164" := by decide
example : looks_blocked "You need to solve a CAPTCHA to continue" = true := by decide
example : looks_blocked "" = false := by decide
example : attemptStep (.frags [⟨true, "captcha", none⟩]) = .blockedEvent := by decide
example : attemptStep (.frags [⟨true, "captcha", some [[("data_item_id","A")]]⟩]) = .got [[("data_item_id","A")]] ["A"] := by decide
example :
    (fetch_until_new ["A","B"] 1
      [.frags [⟨true, "", some [[("data_item_id","A")], [("data_item_id","B")]]⟩],
       .frags [⟨true, "", some [[("data_item_id","A")], [("data_item_id","C")]]⟩]]).result
    = .ok ([[("data_item_id","A")], [("data_item_id","C")]], ["A","C"], 2) := by decide
example :
    (fetch_until_new [] 0 [.frags [⟨true, "", some []⟩], .frags [⟨true, "", some []⟩]]).result
    = .ok ([], [], 2) := by decide
example :
    (fetch_until_new [] 1 [.frags [⟨true, "captcha", none⟩]]).result = .error .unboundLocalError := by
  decide
example : total_pages_from_items 1114 = 28 := by decide
example :
    harvest_writes ⟨[], []⟩ [[[("data_item_id","A")]], [[("data_item_id","B")]]]
    = [.pageFile 1, .pageFile 2, .productsFile, .pagesIndexFile] := by decide
example :
    (mergePage ⟨[], []⟩ [[("data_item_id","A"),("f","1")], [("data_item_id","A"),("f","2")]]).1.store
    = [("A", [("data_item_id","A"),("f","1")])] := by decide

end Crawl
